import Mathlib

/-!
# Hierarchical timing wheel (`timingwheel.h`, `sampletask.h`)

A shallow embedding of `TTimerTaskList<Task>` (the bucket: a chain of heap
allocated `TimerTaskEntry` nodes behind a sentinel) and of `TTimingWheel<Task>`
(the wheel levels), followed by theorems about them.

Modelling conventions.

* Heap objects of type `TimerTaskEntry` live in `Heap.entries`, a map from
  addresses to entries. `TW_MALLOC` hands out the fresh address
  `Heap.nextAddr`; `TW_FREE` sets the cell to `none`. Reading or writing a
  cell that holds `none` (freed or never allocated storage) is undefined
  behaviour in C++ and is reported as `Fault.useAfterFree`.
* Tasks are caller owned objects, `Heap.tasks`; a task pointer is its index.
* A wheel exclusively owns its overflow wheel, and the overflow wheel's
  `lowerWheel_` is its owner. The chain root, overflow, overflow of the
  overflow, ... is the list `World.wheels`: `wheels[k+1]` is
  `wheels[k].overflowWheel_`, `wheels[k-1]` is `wheels[k].lowerWheel_`, and
  `overflowWheel_ == nullptr` reads `k + 1 = wheels.length`.
* `long` values are mathematical integers (no claim reaches the 64 bit
  boundary); `int` values wrap at 32 bits (`wrapInt`). `/` and `%` are the
  truncating C++ operators, `Int.tdiv` and `Int.tmod`; a zero divisor is
  `Fault.divByZero`. An index outside the bucket array is
  `Fault.outOfBounds`.
* Loops and the recursion of `Add` into freshly built overflow wheels take
  a fuel argument; `Fault.outOfFuel` is the answer of a run that did not
  finish within it.
* The terminal handler (`taskHandler_`) is external; its invocations are
  recorded, in order, in `World.fired`.
-/

namespace TimingWheel

/-- Ways in which a run of the C++ code leaves defined behaviour, plus fuel exhaustion. -/
inductive Fault where
  | nullDeref
  | useAfterFree
  | outOfBounds
  | divByZero
  | badAlloc
  | outOfFuel
  deriving DecidableEq, Repr

/-- The struct `TTimerTaskList::TimerTaskEntry`. -/
structure TimerTaskEntry where
  list : Option Nat
  prev : Option Nat
  next : Option Nat
  timerTask : Option Nat
  expiration : Int
  deriving DecidableEq, Repr

/-- The class `SampleTask`: a deadline and the opaque back-reference. -/
structure SampleTask where
  expiration_ : Int
  entry_ : Option Nat
  deriving DecidableEq, Repr

/-- The constructor `SampleTask(long expiration)`: it initialises `expiration_` only, so
`entry_` keeps whatever the storage held (`indeterminate`). -/
def SampleTask.new (expiration : Int) (indeterminate : Option Nat) : SampleTask :=
  { expiration_ := expiration, entry_ := indeterminate }

/-- The entry heap, the caller's tasks and the allocator's next fresh address. -/
structure Heap where
  entries : Nat → Option TimerTaskEntry
  tasks : Nat → SampleTask
  nextAddr : Nat

/-- The data members of `TTimerTaskList` (`root_`, `tail_`, `counter_`) and the address
`this` of the list object. -/
structure TTimerTaskList where
  this : Nat
  root_ : Nat
  tail_ : Nat
  counter_ : Int
  deriving DecidableEq, Repr

/-- The method `Task::SetTimerTaskEntry`. -/
def Heap.setTimerTaskEntry (h : Heap) (t : Nat) (e : Option Nat) : Heap :=
  { h with tasks := Function.update h.tasks t { h.tasks t with entry_ := e } }

/-- A store into the entry cell at address `a`. -/
def Heap.write (h : Heap) (a : Nat) (e : Option TimerTaskEntry) : Heap :=
  { h with entries := Function.update h.entries a e }

/-- The constructor `TTimerTaskList()`, run on freshly allocated storage: a sentinel
`TimerTaskEntry(nullptr, -1)`, `tail_ = root_`, `counter_ = 0`. -/
def TTimerTaskList.new (h : Heap) : Heap × TTimerTaskList :=
  let self := h.nextAddr
  let r := h.nextAddr + 1
  ({ entries := Function.update h.entries r
        (some { list := none, prev := none, next := none, timerTask := none, expiration := -1 }),
     tasks := h.tasks,
     nextAddr := h.nextAddr + 2 },
   { this := self, root_ := r, tail_ := r, counter_ := 0 })

/-- The method `TTimerTaskList::Add`. -/
def TTimerTaskList.Add (h : Heap) (b : TTimerTaskList) (t : Nat) :
    Except Fault (Heap × TTimerTaskList) :=
  let a := h.nextAddr
  -- new TimerTaskEntry(timerTask, timerTask->GetExpiration()), which sets the back-reference
  let h1 : Heap :=
    { entries := Function.update h.entries a
        (some { list := none, prev := none, next := none, timerTask := some t,
                expiration := (h.tasks t).expiration_ }),
      tasks := Function.update h.tasks t { h.tasks t with entry_ := some a },
      nextAddr := h.nextAddr + 1 }
  -- entry->prev = tail_; entry->list = this;
  match h1.entries a with
  | none => .error .useAfterFree
  | some e =>
    let h2 := h1.write a (some { e with prev := some b.tail_, list := some b.this })
    -- tail_->next = entry;
    match h2.entries b.tail_ with
    | none => .error .useAfterFree
    | some tl =>
      let h3 := h2.write b.tail_ (some { tl with next := some a })
      -- tail_ = entry; tail_->list = this; ++counter_;
      match h3.entries a with
      | none => .error .useAfterFree
      | some e2 =>
        .ok (h3.write a (some { e2 with list := some b.this }),
             { b with tail_ := a, counter_ := b.counter_ + 1 })

/-- The method `TTimerTaskList::Remove`. -/
def TTimerTaskList.Remove (h : Heap) (b : TTimerTaskList) (t : Nat) :
    Except Fault (Bool × Heap × TTimerTaskList) :=
  match (h.tasks t).entry_ with
  | none => .ok (false, h, b)
  | some e =>
    match h.entries e with
    | none => .error .useAfterFree
    | some ent =>
      if ent.list = some b.this then
        -- entry->prev->next = entry->next;
        match ent.prev with
        | none => .error .nullDeref
        | some p =>
          match h.entries p with
          | none => .error .useAfterFree
          | some pe =>
            let h1 := h.write p (some { pe with next := ent.next })
            -- --counter_; timerTask->SetTimerTaskEntry(nullptr); TW_FREE(entry);
            let h2 := h1.setTimerTaskEntry t none
            .ok (true, h2.write e none, { b with counter_ := b.counter_ - 1 })
      else .ok (false, h, b)

/-- The method `TTimerTaskList::GetCount`. -/
def TTimerTaskList.GetCount (b : TTimerTaskList) : Int := b.counter_

/-- The loop of both `TTimerTaskList::ForEach` overloads, over any state `σ` that holds the
entry heap: `while (entry != nullptr) { visit(entry->timerTask); entry = entry->next; }`.
The next pointer is read after the visitor ran. A visitor handed a null task is reported
as `nullDeref` (no chain entry has one: `Add` dereferences the task before linking it). -/
def forEachLoop {σ : Type} (ents : σ → Nat → Option TimerTaskEntry)
    (visit : Nat → σ → Except Fault σ) : Nat → Option Nat → σ → Except Fault σ
  | _, none, s => .ok s
  | 0, some _, _ => .error .outOfFuel
  | fuel + 1, some e, s =>
    match ents s e with
    | none => .error .useAfterFree
    | some ent =>
      match ent.timerTask with
      | none => .error .nullDeref
      | some t =>
        match visit t s with
        | .error f => .error f
        | .ok s1 =>
          match ents s1 e with
          | none => .error .useAfterFree
          | some ent1 => forEachLoop ents visit fuel ent1.next s1

/-- The method `TTimerTaskList::ForEach`: start at `root_->next`. -/
def TTimerTaskList.ForEach {σ : Type} (ents : σ → Nat → Option TimerTaskEntry)
    (visit : Nat → σ → Except Fault σ) (fuel : Nat) (b : TTimerTaskList) (s : σ) :
    Except Fault σ :=
  match ents s b.root_ with
  | none => .error .useAfterFree
  | some r => forEachLoop ents visit fuel r.next s

/-- The loop of `TTimerTaskList::Clear`: null the task's back-reference, free the entry. -/
def clearLoop : Nat → Option Nat → Heap → Except Fault Heap
  | _, none, h => .ok h
  | 0, some _, _ => .error .outOfFuel
  | fuel + 1, some e, h =>
    match h.entries e with
    | none => .error .useAfterFree
    | some ent =>
      match ent.timerTask with
      | none => .error .nullDeref
      | some t => clearLoop fuel ent.next ((h.setTimerTaskEntry t none).write e none)

/-- The method `TTimerTaskList::Clear`. -/
def TTimerTaskList.Clear (fuel : Nat) (h : Heap) (b : TTimerTaskList) :
    Except Fault (Heap × TTimerTaskList) :=
  match h.entries b.root_ with
  | none => .error .useAfterFree
  | some r =>
    match clearLoop fuel r.next h with
    | .error f => .error f
    | .ok h1 =>
      -- root_->next = nullptr; tail_ = root_; counter_ = 0;
      match h1.entries b.root_ with
      | none => .error .useAfterFree
      | some r1 =>
        .ok (h1.write b.root_ (some { r1 with next := none }),
             { b with tail_ := b.root_, counter_ := 0 })

/-! ## The wheel -/

/-- The data members of `TTimingWheel`. `overflowWheel_` and `lowerWheel_` are the
neighbours in `World.wheels`; `taskHandler_` is the recorder `World.fired`. -/
structure TTimingWheel where
  tickMs_ : Int
  wheelSize_ : Int
  taskCounter_ : Int
  currentTime_ : Int
  interval_ : Int
  buckets_ : List TTimerTaskList
  deriving DecidableEq, Repr

/-- The whole program state: heap, the chain of wheel levels (root first) and the record
of terminal handler invocations. -/
structure World where
  heap : Heap
  wheels : List TTimingWheel
  fired : List Nat

/-- Two's complement wrap of a value stored in a 32 bit `int`. -/
def wrapInt (x : Int) : Int := (x + 2147483648) % 4294967296 - 2147483648

/-- The constructor's loop `for (i = 0; i < wheelSize; ++i) buckets_[i] = new TTimerTaskList()`. -/
def newBuckets : Nat → Heap → Heap × List TTimerTaskList
  | 0, h => (h, [])
  | n + 1, h =>
    let r := TTimerTaskList.new h
    let rest := newBuckets n r.1
    (rest.1, r.2 :: rest.2)

/-- The private constructor `TTimingWheel(tickMs, wheelSize, startMs, taskHandler, lowerWheel)`:
`currentTime_ = startMs - (startMs % tickMs)`, `interval_ = tickMs * wheelSize` (an `int`
product) and `wheelSize` fresh buckets. -/
def TTimingWheel.new (tickMs wheelSize startMs : Int) (h : Heap) :
    Except Fault (Heap × TTimingWheel) :=
  if tickMs = 0 then .error .divByZero
  else if wheelSize < 0 then .error .badAlloc
  else
    let r := newBuckets wheelSize.toNat h
    .ok (r.1,
      { tickMs_ := tickMs, wheelSize_ := wheelSize, taskCounter_ := 0,
        currentTime_ := startMs - startMs.tmod tickMs,
        interval_ := wrapInt (tickMs * wheelSize),
        buckets_ := r.2 })

/-- The public constructor `TTimingWheel(tickMs, wheelSize, startMs, taskHandler)`: a root
wheel (no lower wheel, no overflow wheel yet) and an empty invocation record. -/
def World.new (tickMs wheelSize startMs : Int) (h : Heap) : Except Fault World :=
  match TTimingWheel.new tickMs wheelSize startMs h with
  | .error f => .error f
  | .ok r => .ok { heap := r.1, wheels := [r.2], fired := [] }

/-- The subscript `buckets_[i]`: the array holds `wheelSize` buckets. -/
def TTimingWheel.bucketIndex (wh : TTimingWheel) (i : Int) : Except Fault Nat :=
  if 0 ≤ i ∧ i < wh.buckets_.length then .ok i.toNat else .error .outOfBounds

/-- The subscript `buckets_[(t % interval_) / tickMs_]` of `Add` and `AdvanceClock`. -/
def TTimingWheel.slotOf (wh : TTimingWheel) (t : Int) : Except Fault Nat :=
  if wh.interval_ = 0 then .error .divByZero
  else if wh.tickMs_ = 0 then .error .divByZero
  else wh.bucketIndex ((t.tmod wh.interval_).tdiv wh.tickMs_)

/-- Store back bucket `j` of level `k`, the heap the bucket's method ran on and the
level's `taskCounter_`. -/
def World.store (w : World) (k j : Nat) (wh : TTimingWheel) (h : Heap) (b : TTimerTaskList)
    (counter : Int) : World :=
  { heap := h,
    wheels := w.wheels.set k
      ({ wh with buckets_ := wh.buckets_.set j b, taskCounter_ := counter }),
    fired := w.fired }

/-- The method `TTimingWheel::Add`, called on level `k`. -/
def TTimingWheel.Add : Nat → Nat → Nat → World → Except Fault World
  | 0, _, _, _ => .error .outOfFuel
  | fuel + 1, k, t, w =>
    match w.wheels[k]? with
    | none => .error .nullDeref
    | some wh =>
      let expiration := (w.heap.tasks t).expiration_
      if expiration < wh.currentTime_ + wh.interval_ then
        match wh.slotOf (if expiration < wh.currentTime_ then wh.currentTime_ else expiration) with
        | .error f => .error f
        | .ok j =>
          match wh.buckets_[j]? with
          | none => .error .outOfBounds
          | some b =>
            match b.Add w.heap t with
            | .error f => .error f
            | .ok r => .ok (w.store k j wh r.1 r.2 (wh.taskCounter_ + 1))
      else if k + 1 < w.wheels.length then
        TTimingWheel.Add fuel (k + 1) t w
      else
        -- overflowWheel_ = new TTimingWheel(interval_, wheelSize_, currentTime_, nullptr, this)
        match TTimingWheel.new (wrapInt wh.interval_) wh.wheelSize_ wh.currentTime_ w.heap with
        | .error f => .error f
        | .ok r =>
          TTimingWheel.Add fuel (k + 1) t
            { heap := r.1, wheels := w.wheels ++ [r.2], fired := w.fired }

/-- The terminal handler `taskHandler_`: the invocation is recorded. -/
def World.handler (t : Nat) (w : World) : Except Fault World :=
  .ok { heap := w.heap, wheels := w.wheels, fired := w.fired ++ [t] }

/-- The block `if (bucket->GetCount() > 0) { ... }` of `AdvanceClock` for bucket `j` of
level `k`: hand every task to the terminal handler (root) or to `lowerWheel_->Add`
(overflow levels), then `taskCounter_ -= bucket->GetCount(); bucket->Clear();`. -/
def TTimingWheel.expire (fuel k j : Nat) (w : World) : Except Fault World :=
  match w.wheels[k]? with
  | none => .error .nullDeref
  | some wh =>
    match wh.buckets_[j]? with
    | none => .error .outOfBounds
    | some b =>
      if b.GetCount > 0 then
        match (if k = 0
               then b.ForEach (fun s => s.heap.entries) World.handler fuel w
               else b.ForEach (fun s => s.heap.entries)
                      (fun t s => TTimingWheel.Add fuel (k - 1) t s) fuel w) with
        | .error f => .error f
        | .ok w2 =>
          match w2.wheels[k]? with
          | none => .error .nullDeref
          | some wh2 =>
            match wh2.buckets_[j]? with
            | none => .error .outOfBounds
            | some b2 =>
              match b2.Clear fuel w2.heap with
              | .error f => .error f
              | .ok r => .ok (w2.store k j wh2 r.1 r.2 (wh2.taskCounter_ - b2.GetCount))
      else .ok w

/-- The statement `currentTime_ += tickMs_` on level `k`. -/
def World.tick (w : World) (k : Nat) : Except Fault World :=
  match w.wheels[k]? with
  | none => .error .nullDeref
  | some wh =>
    .ok { heap := w.heap,
          wheels := w.wheels.set k ({ wh with currentTime_ := wh.currentTime_ + wh.tickMs_ }),
          fired := w.fired }

/-- The method `TTimingWheel::AdvanceClock`, called on level `k`. One unit of fuel per loop
test; the recursive call into the overflow wheel and the visitors share what is left. -/
def TTimingWheel.AdvanceClock : Nat → Nat → Int → World → Except Fault World
  | 0, _, _, _ => .error .outOfFuel
  | fuel + 1, k, timeMs, w =>
    match w.wheels[k]? with
    | none => .error .nullDeref
    | some wh =>
      if timeMs ≥ wh.currentTime_ then
        -- if (overflowWheel_ != nullptr) overflowWheel_->AdvanceClock(currentTime_);
        match (if k + 1 < w.wheels.length
               then TTimingWheel.AdvanceClock fuel (k + 1) wh.currentTime_ w
               else (.ok w : Except Fault World)) with
        | .error f => .error f
        | .ok w1 =>
          match w1.wheels[k]? with
          | none => .error .nullDeref
          | some wh1 =>
            -- auto *bucket = buckets_[(currentTime_ % interval_) / tickMs_];
            match wh1.slotOf wh1.currentTime_ with
            | .error f => .error f
            | .ok j =>
              match TTimingWheel.expire fuel k j w1 with
              | .error f => .error f
              | .ok w3 =>
                match w3.tick k with
                | .error f => .error f
                | .ok w4 => TTimingWheel.AdvanceClock fuel k timeMs w4
      else .ok w

/-- The method `TTimingWheel::GetCount` on the head of a chain of levels. -/
def GetCountFrom : List TTimingWheel → Int
  | [] => 0
  | wh :: rest => wh.taskCounter_ + GetCountFrom rest

/-- The call `GetCount()` on the root wheel. -/
def World.GetCount (w : World) : Int := GetCountFrom w.wheels

/-- The method `TTimingWheel::Remove`, called on level `k`. -/
def TTimingWheel.Remove : Nat → Nat → Nat → World → Except Fault (Bool × World)
  | 0, _, _, _ => .error .outOfFuel
  | fuel + 1, k, t, w =>
    match w.wheels[k]? with
    | none => .error .nullDeref
    | some wh =>
      let expiration := (w.heap.tasks t).expiration_
      if expiration < wh.currentTime_ + wh.interval_ then
        -- auto bucket = buckets_[expiration / tickMs_];
        if wh.tickMs_ = 0 then .error .divByZero
        else
          match wh.bucketIndex (expiration.tdiv wh.tickMs_) with
          | .error f => .error f
          | .ok j =>
            match wh.buckets_[j]? with
            | none => .error .outOfBounds
            | some b =>
              match b.Remove w.heap t with
              | .error f => .error f
              | .ok r =>
                if r.1 then .ok (true, w.store k j wh r.2.1 r.2.2 (wh.taskCounter_ - 1))
                else .ok (false, w.store k j wh r.2.1 r.2.2 wh.taskCounter_)
      else if k + 1 < w.wheels.length then
        TTimingWheel.Remove fuel (k + 1) t w
      else .ok (false, w)

/-- The loop of `Shutdown`: `for (i = 0; i < wheelSize_; ++i) buckets_[i]->Clear()`, over
the buckets from index `j` on. -/
def shutdownLoop (fuel k : Nat) : Nat → Nat → World → Except Fault World
  | 0, _, w => .ok w
  | n + 1, j, w =>
    match w.wheels[k]? with
    | none => .error .nullDeref
    | some wh =>
      match wh.buckets_[j]? with
      | none => .error .outOfBounds
      | some b =>
        match b.Clear fuel w.heap with
        | .error f => .error f
        | .ok r => shutdownLoop fuel k n (j + 1) (w.store k j wh r.1 r.2 wh.taskCounter_)

/-- The method `TTimingWheel::Shutdown`, called on level `k` of a chain with `n` levels
from `k` on. -/
def TTimingWheel.Shutdown (fuel : Nat) : Nat → Nat → World → Except Fault World
  | 0, _, w => .ok w
  | n + 1, k, w =>
    match (if k + 1 < w.wheels.length then TTimingWheel.Shutdown fuel n (k + 1) w
           else (.ok w : Except Fault World)) with
    | .error f => .error f
    | .ok w1 =>
      match w1.wheels[k]? with
      | none => .error .nullDeref
      | some wh => shutdownLoop fuel k wh.wheelSize_.toNat 0 w1

/-! ## The public interface of the root wheel -/

/-- The call `Add(task)` on the root wheel. -/
def World.Add (fuel : Nat) (t : Nat) (w : World) : Except Fault World :=
  TTimingWheel.Add fuel 0 t w

/-- The call `AdvanceClock(timeMs)` on the root wheel. -/
def World.AdvanceClock (fuel : Nat) (timeMs : Int) (w : World) : Except Fault World :=
  TTimingWheel.AdvanceClock fuel 0 timeMs w

/-- The call `Remove(task)` on the root wheel; the recursion follows the chain of overflow
wheels, so one unit of fuel per level suffices. -/
def World.Remove (t : Nat) (w : World) : Except Fault (Bool × World) :=
  TTimingWheel.Remove w.wheels.length 0 t w

/-- The call `Shutdown()` on the root wheel. -/
def World.Shutdown (fuel : Nat) (w : World) : Except Fault World :=
  TTimingWheel.Shutdown fuel w.wheels.length 0 w

/-! ## Programs against the public interface -/

/-- A heap in which no `TimerTaskEntry` has been allocated yet. -/
def Heap.init (tasks : Nat → SampleTask) : Heap :=
  { entries := fun _ => none, tasks := tasks, nextAddr := 0 }

/-- Tasks `0, 1, ...` with the listed deadlines, their back-references null. -/
def tasksOf (exps : List Int) : Nat → SampleTask :=
  fun i => SampleTask.new (exps.getD i 0) none

/-- One call of a public method of the root wheel. -/
inductive Op where
  | add (t : Nat)
  | remove (t : Nat)
  | advanceClock (timeMs : Int)
  | shutdown
  deriving DecidableEq, Repr

/-- A run of calls: the state, the number of `Add` calls, the number of `Remove` calls that
returned true, and the results of all `Remove` calls in order. -/
structure Run where
  world : World
  adds : Nat
  removed : Nat
  results : List Bool

/-- Execute one call. -/
def Run.step (fuel : Nat) (r : Run) : Op → Except Fault Run
  | .add t =>
    match r.world.Add fuel t with
    | .error f => .error f
    | .ok w => .ok { r with world := w, adds := r.adds + 1 }
  | .remove t =>
    match r.world.Remove t with
    | .error f => .error f
    | .ok x =>
      .ok { r with world := x.2, removed := if x.1 then r.removed + 1 else r.removed,
                   results := r.results ++ [x.1] }
  | .advanceClock timeMs =>
    match r.world.AdvanceClock fuel timeMs with
    | .error f => .error f
    | .ok w => .ok { r with world := w }
  | .shutdown =>
    match r.world.Shutdown fuel with
    | .error f => .error f
    | .ok w => .ok { r with world := w }

/-- Execute a sequence of calls, stopping at the first fault. -/
def Run.steps (fuel : Nat) : List Op → Run → Except Fault Run
  | [], r => .ok r
  | op :: ops, r =>
    match r.step fuel op with
    | .error f => .error f
    | .ok r1 => Run.steps fuel ops r1

/-- Construct a root wheel on heap `h` and execute `ops` on it. -/
def play (fuel : Nat) (tickMs wheelSize startMs : Int) (h : Heap) (ops : List Op) :
    Except Fault Run :=
  match World.new tickMs wheelSize startMs h with
  | .error f => .error f
  | .ok w => Run.steps fuel ops { world := w, adds := 0, removed := 0, results := [] }

/-- The handler invocations of a finished run. -/
def firedOf : Except Fault Run → Option (List Nat)
  | .ok r => some r.world.fired
  | .error _ => none

/-- The fault of a run that did not finish. -/
def faultOf : Except Fault Run → Option Fault
  | .ok _ => none
  | .error f => some f

/-- The results of the `Remove` calls of a finished run. -/
def resultsOf : Except Fault Run → Option (List Bool)
  | .ok r => some r.results
  | .error _ => none

/-- The root's `GetCount()` at the end of a finished run. -/
def countOf : Except Fault Run → Option Int
  | .ok r => some r.world.GetCount
  | .error _ => none

/-- The back-reference of task `t` at the end of a finished run. -/
def backrefOf (t : Nat) : Except Fault Run → Option (Option Nat)
  | .ok r => some (r.world.heap.tasks t).entry_
  | .error _ => none

/-- The value of a finished computation, `d` for a faulted one. -/
def okOr {α : Type} (d : α) : Except Fault α → α
  | .ok a => a
  | .error _ => d

/-- A fresh bucket on an empty heap with two tasks, after `Add` of task `0`. -/
def demoBucket : Heap × TTimerTaskList :=
  let r := TTimerTaskList.new (Heap.init (tasksOf [3, 4]))
  okOr r (r.2.Add r.1 0)

/-- The tasks a `ForEach` over bucket `b` visits, in order: the visitor appends the task
to a list and leaves the heap alone. -/
def TTimerTaskList.visited (fuel : Nat) (h : Heap) (b : TTimerTaskList) :
    Except Fault (Heap × List Nat) :=
  b.ForEach (fun s : Heap × List Nat => s.1.entries) (fun t s => .ok (s.1, s.2 ++ [t])) fuel (h, [])

/-- The tasks held in bucket `j` of level `k` at the end of a finished run. -/
def heldAt (k j : Nat) : Except Fault Run → Option (List Nat)
  | .ok r =>
    match r.world.wheels[k]? with
    | none => none
    | some wh =>
      match wh.buckets_[j]? with
      | none => none
      | some b =>
        match b.visited r.world.heap.nextAddr r.world.heap with
        | .ok x => some x.2
        | .error _ => none
  | .error _ => none

/-- A world without levels, and a run on it: the values `okOr` falls back to. -/
def World.empty : World := { heap := Heap.init (tasksOf []), wheels := [], fired := [] }

/-- The run that has not made any call, on the world without levels. -/
def Run.empty : Run := { world := World.empty, adds := 0, removed := 0, results := [] }

/-- Address `q` names storage that was handed out and freed: nothing lives there and the
allocator will not hand it out again. -/
def Dead (h : Heap) (q : Nat) : Prop := h.entries q = none ∧ q < h.nextAddr

/-- Starting from the live cell `p`, the `next` pointers visit exactly the cells `L` and then
null; each visited cell's `prev` names its predecessor or freed storage. -/
def Chain (h : Heap) : Nat → List Nat → Prop
  | p, [] => ∃ e, h.entries p = some e ∧ e.next = none
  | p, a :: L =>
    (∃ e, h.entries p = some e ∧ e.next = some a) ∧
    (∃ ea q, h.entries a = some ea ∧ ea.prev = some q ∧ (q = p ∨ Dead h q)) ∧
    Chain h a L

/-- Every visited cell's `prev` names its predecessor. -/
def PrevExact (h : Heap) : Nat → List Nat → Prop
  | _, [] => True
  | p, a :: L => (∃ ea, h.entries a = some ea ∧ ea.prev = some p) ∧ PrevExact h a L

/-- The last cell of the chain `p, L`. -/
def lastCell : Nat → List Nat → Nat
  | p, [] => p
  | _, a :: L => lastCell a L

/-- Bucket `b` is well formed in heap `h` and holds the entries `L` (address, task), in
chain order. -/
structure BWF (h : Heap) (b : TTimerTaskList) (L : List (Nat × Nat)) : Prop where
  chain : Chain h b.root_ (L.map Prod.fst)
  nodup : (b.root_ :: L.map Prod.fst).Nodup
  owned : ∀ x ∈ L, ∃ e, h.entries x.1 = some e ∧ e.list = some b.this ∧ e.timerTask = some x.2
  sentinel : ∃ r, h.entries b.root_ = some r ∧ r.list = none
  tail : b.tail_ = lastCell b.root_ (L.map Prod.fst) ∨ Dead h b.tail_
  count : b.counter_ = L.length
  bound : ∀ a ∈ b.root_ :: L.map Prod.fst, a < h.nextAddr


/-- From the pointer `s` on, the `next` pointers visit the live entries `L` (address, task)
in order and then null. -/
def Seg (ents : Nat → Option TimerTaskEntry) : Option Nat → List (Nat × Nat) → Prop
  | s, [] => s = none
  | s, x :: L => s = some x.1 ∧ ∃ e, ents x.1 = some e ∧ e.timerTask = some x.2 ∧ Seg ents e.next L

/-- The heap after the loop of `Clear` walked the entries `L`: back-references nulled,
cells freed. -/
def sweep : List (Nat × Nat) → Heap → Heap
  | [], h => h
  | x :: L, h => sweep L ((h.setTimerTaskEntry x.2 none).write x.1 none)


/-- `Add` of the tasks `ts`, one after the other, to the same bucket. -/
def addAll : List Nat → Heap × TTimerTaskList → Except Fault (Heap × TTimerTaskList)
  | [], s => .ok s
  | t :: ts, s =>
    match s.2.Add s.1 t with
    | .error f => .error f
    | .ok s1 => addAll ts s1

/-! ## Well-formed worlds -/

/-- Bucket `j` of level `k`, when there is one. -/
def World.bucket? (w : World) (k j : Nat) : Option TTimerTaskList :=
  match w.wheels[k]? with
  | none => none
  | some wh => wh.buckets_[j]?

/-- The cells of a bucket: its sentinel and the entries of its chain. -/
def cells (b : TTimerTaskList) (L : List (Nat × Nat)) : List Nat := b.root_ :: L.map Prod.fst

/-- Every bucket of every level is well formed, `ch b.this` being the chain of bucket `b`;
different buckets are different objects with different sentinels; every live cell belongs to
a bucket; addresses not handed out yet own nothing. -/
structure WWF (w : World) (ch : Nat → List (Nat × Nat)) : Prop where
  bwf : ∀ k j b, w.bucket? k j = some b → BWF w.heap b (ch b.this)
  thisLt : ∀ k j b, w.bucket? k j = some b → b.this < w.heap.nextAddr
  inj : ∀ k j b k1 j1 b1, w.bucket? k j = some b → w.bucket? k1 j1 = some b1 →
    (b.this = b1.this ∨ b.root_ = b1.root_) → k = k1 ∧ j = j1
  live : ∀ a e, w.heap.entries a = some e →
    ∃ k j b, w.bucket? k j = some b ∧ a ∈ cells b (ch b.this)
  fresh : ∀ x, w.heap.nextAddr ≤ x → ch x = []

/-- The root's `GetCount()` plus the number of handler invocations so far. -/
def World.total (w : World) : Int := w.GetCount + w.fired.length

/-- The deadline `GetExpiration()` of task `t`. -/
def World.deadline (w : World) (t : Nat) : Int := (w.heap.tasks t).expiration_

/-- A level whose parameters are as the constructor leaves them when nothing wrapped:
positive tick, at least one bucket, `interval_` the exact product, and a non-negative,
tick-aligned current time. -/
structure RootGood (wh : TTimingWheel) : Prop where
  tick_pos : 0 < wh.tickMs_
  size_pos : 0 < wh.buckets_.length
  interval_eq : wh.interval_ = wh.tickMs_ * (wh.buckets_.length : Int)
  time_nonneg : 0 ≤ wh.currentTime_
  time_aligned : wh.tickMs_ ∣ wh.currentTime_

/-- Every entry of a good root level sits in the bucket of a tick `s` of the current window
that has not ended before the task's deadline: `deadline < s + tickMs_`. -/
def RootTime (w : World) (ch : Nat → List (Nat × Nat)) : Prop :=
  ∀ wh : TTimingWheel, w.wheels[0]? = some wh → RootGood wh →
    ∀ (j : Nat) (b : TTimerTaskList), wh.buckets_[j]? = some b → ∀ x ∈ ch b.this,
      ∃ s, wh.currentTime_ ≤ s ∧ s < wh.currentTime_ + wh.interval_ ∧ wh.tickMs_ ∣ s ∧
        wh.slotOf s = .ok j ∧ w.deadline x.2 < s + wh.tickMs_

/-- The invariant of the heap layer together with the root's placement invariant. -/
structure Inv1 (w : World) (ch : Nat → List (Nat × Nat)) : Prop where
  wwf : WWF w ch
  rootTime : RootTime w ch

/-- The parameters fixed at construction, and the deadlines, are the same in `w1`. -/
structure Stat (w w1 : World) : Prop where
  levels : ∀ (k : Nat) (wh : TTimingWheel), w.wheels[k]? = some wh →
    ∃ wh1 : TTimingWheel, w1.wheels[k]? = some wh1 ∧
    wh1.tickMs_ = wh.tickMs_ ∧ wh1.wheelSize_ = wh.wheelSize_ ∧ wh1.interval_ = wh.interval_ ∧
    wh1.buckets_.length = wh.buckets_.length
  deadline : ∀ t, w1.deadline t = w.deadline t

/-- World `w1` extends `w`: same clocks, same bucket objects, chains only grown at their
ends, no handler invocation. -/
structure Ext (w : World) (ch : Nat → List (Nat × Nat)) (w1 : World)
    (ch1 : Nat → List (Nat × Nat)) : Prop where
  stat : Stat w w1
  time : ∀ (k : Nat) (wh wh1 : TTimingWheel), w.wheels[k]? = some wh →
    w1.wheels[k]? = some wh1 →
    wh1.currentTime_ = wh.currentTime_
  buckets : ∀ (k j : Nat) (b : TTimerTaskList), w.bucket? k j = some b →
    ∃ b1 : TTimerTaskList, w1.bucket? k j = some b1 ∧ b1.this = b.this ∧ b1.root_ = b.root_
  chains : ∀ x, ∃ S, ch1 x = ch x ++ S
  fired : w1.fired = w.fired

/-- The world keeps its static parameters and every level its clock. -/
structure Keep (w w1 : World) : Prop where
  stat : Stat w w1
  time : ∀ (k : Nat) (wh wh1 : TTimingWheel), w.wheels[k]? = some wh →
    w1.wheels[k]? = some wh1 → wh1.currentTime_ = wh.currentTime_

/-! ## The timing invariant of the whole hierarchy -/

/-- Every level is good, an overflow level's tick is the interval of the level below it
with the same number of buckets, and its clock is at the start or at the end of the
interval the level below is in. -/
structure Levels (w : World) : Prop where
  good : ∀ (k : Nat) (wh : TTimingWheel), w.wheels[k]? = some wh → RootGood wh
  fits : ∀ (k : Nat) (wh : TTimingWheel), w.wheels[k]? = some wh →
    wh.interval_ < 2147483648
  size : ∀ (k : Nat) (wh : TTimingWheel), w.wheels[k]? = some wh →
    (wh.buckets_.length : Int) = wh.wheelSize_
  scale : ∀ (k : Nat) (wh wh1 : TTimingWheel), w.wheels[k]? = some wh →
    w.wheels[k + 1]? = some wh1 →
    wh1.tickMs_ = wh.interval_ ∧ wh1.buckets_.length = wh.buckets_.length
  couple : ∀ (k : Nat) (wh wh1 : TTimingWheel), w.wheels[k]? = some wh →
    w.wheels[k + 1]? = some wh1 →
    wh.currentTime_ - wh.currentTime_ % wh.interval_ ≤ wh1.currentTime_ ∧
    wh1.currentTime_ ≤ wh.currentTime_ - wh.currentTime_ % wh.interval_ + wh.interval_

/-- An entry with deadline `d` in bucket `j` of level `k` is in the bucket of a tick `s` of
that level's window that no finer level has reached; `s` is the tick of the deadline, or
(root only) the current tick when the deadline has passed. -/
def Placed (w : World) (k j : Nat) (wh : TTimingWheel) (d : Int) : Prop :=
  ∃ s, wh.tickMs_ ∣ s ∧ wh.currentTime_ ≤ s ∧ s < wh.currentTime_ + wh.interval_ ∧
    wh.slotOf s = .ok j ∧
    (∀ (i : Nat) (whi : TTimingWheel), i < k → w.wheels[i]? = some whi →
      whi.currentTime_ ≤ s) ∧
    ((s ≤ d ∧ d < s + wh.tickMs_) ∨ (k = 0 ∧ s = wh.currentTime_ ∧ d < wh.currentTime_))

/-- The invariant of a hierarchy that has seen no `Remove`: the heap invariant, exact tail
pointers, good levels, and every entry placed by the rule of `Add`. -/
structure Inv2 (w : World) (ch : Nat → List (Nat × Nat)) : Prop where
  wwf : WWF w ch
  tails : ∀ (k j : Nat) (b : TTimerTaskList), w.bucket? k j = some b →
    b.tail_ = lastCell b.root_ ((ch b.this).map Prod.fst)
  levels : Levels w
  placed : ∀ (k j : Nat) (wh : TTimingWheel) (b : TTimerTaskList),
    w.wheels[k]? = some wh → wh.buckets_[j]? = some b →
    ∀ x ∈ ch b.this, Placed w k j wh (w.deadline x.2)

/-- World `w1` has the levels and bucket objects of `w`, with the same parameters, and the
same deadlines. -/
structure Frame (w w1 : World) : Prop where
  len : w1.wheels.length = w.wheels.length
  fields : ∀ (k : Nat) (wh wh1 : TTimingWheel), w.wheels[k]? = some wh →
    w1.wheels[k]? = some wh1 →
    wh1.tickMs_ = wh.tickMs_ ∧ wh1.wheelSize_ = wh.wheelSize_ ∧
    wh1.interval_ = wh.interval_ ∧ wh1.buckets_.length = wh.buckets_.length
  this : ∀ (k j : Nat) (b b1 : TTimerTaskList), w.bucket? k j = some b →
    w1.bucket? k j = some b1 → b1.this = b.this
  deadline : ∀ t, w1.deadline t = w.deadline t

/-- A frame that also keeps every level's clock. -/
structure Same (w w1 : World) : Prop where
  frame : Frame w w1
  time : ∀ (k : Nat) (wh wh1 : TTimingWheel), w.wheels[k]? = some wh →
    w1.wheels[k]? = some wh1 → wh1.currentTime_ = wh.currentTime_

/-- The root level of a world; a level without buckets when the world has none. -/
def World.root (w : World) : TTimingWheel :=
  w.wheels.headD
    { tickMs_ := 0, wheelSize_ := 0, taskCounter_ := 0, currentTime_ := 0, interval_ := 0,
      buckets_ := [] }

/-- The fault of a computation, `none` when it returned. -/
def failure {α : Type} : Except Fault α → Option Fault
  | .ok _ => none
  | .error f => some f

/-- A fresh bucket on an empty heap with three tasks, after `Add` of task `0` and `Add` of
task `1`: the sentinel is at address `1`, the entries are at `2` and `3`. -/
def twoBucket : Heap × TTimerTaskList :=
  let r := TTimerTaskList.new (Heap.init (tasksOf [3, 4, 5]))
  okOr r (addAll [0, 1] r)

/-- The bucket `twoBucket` after `Remove` of task `t`. -/
def twoBucketLess (t : Nat) : Heap × TTimerTaskList :=
  (okOr (false, twoBucket) (twoBucket.2.Remove twoBucket.1 t)).2

/-- The tasks a `ForEach` over a bucket visits, `none` when it faults. -/
def visitedOf (s : Heap × TTimerTaskList) : Option (List Nat) :=
  match s.2.visited s.1.nextAddr s.1 with
  | .ok x => some x.2
  | .error _ => none

/-- The link `prev` of the entry at address `a`, `none` when the cell is free. -/
def prevOf (h : Heap) (a : Nat) : Option (Option Nat) :=
  match h.entries a with
  | some e => some e.prev
  | none => none

/-- The tasks held in the buckets of all levels, level by level and bucket by bucket, as
`ForEach` visits them. -/
def World.held (w : World) : List Nat :=
  (w.wheels.map (fun wh =>
    (wh.buckets_.map (fun b => (visitedOf (w.heap, b)).getD [])).flatten)).flatten

/-- The tasks held in the buckets at the end of a finished run. -/
def heldOf : Except Fault Run → Option (List Nat)
  | .ok r => some r.world.held
  | .error _ => none

/-- The sentinel is as the constructor made it, up to its `next` link. -/
def FreshSentinel (h : Heap) (b : TTimerTaskList) : Prop :=
  ∃ r, h.entries b.root_ = some r ∧ r.list = none ∧ r.prev = none ∧ r.timerTask = none ∧
    r.expiration = -1

/-- C9. Bucket remove failure is atomic: when the task's back-reference is null, or names a
live entry whose owner is another bucket, `TTimerTaskList::Remove` returns false and hands
back the heap (every entry, every back-reference) and the bucket's members unchanged; and
a result of true implies that the back-reference names an entry owned by this bucket. -/
theorem TTimerTaskList.remove_failure_atomic (h : Heap) (b : TTimerTaskList) (t : Nat) :
    ((h.tasks t).entry_ = none → b.Remove h t = .ok (false, h, b)) ∧
    (∀ e ent, (h.tasks t).entry_ = some e → h.entries e = some ent →
        ent.list ≠ some b.this → b.Remove h t = .ok (false, h, b)) ∧
    (∀ h1 b1, b.Remove h t = .ok (true, h1, b1) →
        ∃ e ent, (h.tasks t).entry_ = some e ∧ h.entries e = some ent ∧
          ent.list = some b.this) := by
  refine ⟨?_, ?_, ?_⟩
  · intro hn
    simp [TTimerTaskList.Remove, hn]
  · intro e ent he hent hl
    simp [TTimerTaskList.Remove, he, hent, hl]
  · intro h1 b1 hr
    unfold TTimerTaskList.Remove at hr
    cases he : (h.tasks t).entry_ with
    | none => simp [he] at hr
    | some e =>
      cases hent : h.entries e with
      | none => simp [he, hent] at hr
      | some ent =>
        by_cases hl : ent.list = some b.this
        · exact ⟨e, ent, rfl, hent, hl⟩
        · simp [he, hent, hl] at hr

/-- C9, at concrete inputs: a task that was never added (null back-reference), a task whose
entry belongs to another bucket, and a task whose removal succeeds. -/
theorem TTimerTaskList.remove_failure_atomic_witness :
    demoBucket.2.Remove demoBucket.1 1 = .ok (false, demoBucket.1, demoBucket.2) ∧
    ({ demoBucket.2 with this := 7 } : TTimerTaskList).Remove demoBucket.1 0
      = .ok (false, demoBucket.1, { demoBucket.2 with this := 7 }) ∧
    (∃ e ent, (demoBucket.1.tasks 0).entry_ = some e ∧ demoBucket.1.entries e = some ent ∧
      ent.list = some demoBucket.2.this) :=
  ⟨(TTimerTaskList.remove_failure_atomic demoBucket.1 demoBucket.2 1).1 rfl,
   (TTimerTaskList.remove_failure_atomic demoBucket.1 { demoBucket.2 with this := 7 } 0).2.1
      2 { list := some 0, prev := some 1, next := none, timerTask := some 0, expiration := 3 }
      rfl rfl (by decide),
   (TTimerTaskList.remove_failure_atomic demoBucket.1 demoBucket.2 0).2.2
      (okOr (false, demoBucket) (demoBucket.2.Remove demoBucket.1 0)).2.1
      (okOr (false, demoBucket) (demoBucket.2.Remove demoBucket.1 0)).2.2 rfl⟩

/-! ### Bucket: well-formedness is preserved -/

theorem lastCell_append (p : Nat) (L : List Nat) (a : Nat) : lastCell p (L ++ [a]) = a := by
  induction L generalizing p with
  | nil => rfl
  | cons x L ih => simpa [lastCell] using ih x

theorem lastCell_mem (p : Nat) (L : List Nat) : lastCell p L ∈ p :: L := by
  induction L generalizing p with
  | nil => simp [lastCell]
  | cons x L ih =>
    have := ih x
    simp only [lastCell]
    exact List.mem_cons_of_mem _ this

theorem Chain.frame_chain {h h1 : Heap} {p : Nat} {L : List Nat}
    (hc : Chain h p L) (hsame : ∀ a ∈ p :: L, h1.entries a = h.entries a)
    (hdead : ∀ q, Dead h q → Dead h1 q) : Chain h1 p L := by
  induction L generalizing p with
  | nil =>
    obtain ⟨e, he, hn⟩ := hc
    exact ⟨e, by rw [hsame p (by simp)]; exact he, hn⟩
  | cons a L ih =>
    obtain ⟨⟨e, he, hn⟩, ⟨ea, q, hea, hq, hor⟩, hrest⟩ := hc
    refine ⟨⟨e, by rw [hsame p (by simp)]; exact he, hn⟩,
      ⟨ea, q, by rw [hsame a (by simp)]; exact hea, hq, ?_⟩, ?_⟩
    · rcases hor with h1' | h2
      · exact Or.inl h1'
      · exact Or.inr (hdead q h2)
    · exact ih hrest (fun x hx => hsame x (List.mem_cons_of_mem _ hx))

theorem Chain.live_cells {h : Heap} {p : Nat} {L : List Nat} (hc : Chain h p L) :
    ∀ a ∈ p :: L, ∃ e, h.entries a = some e := by
  induction L generalizing p with
  | nil =>
    obtain ⟨e, he, _⟩ := hc
    intro a ha
    simp at ha
    exact ⟨e, ha ▸ he⟩
  | cons x L ih =>
    obtain ⟨⟨e, he, _⟩, _, hrest⟩ := hc
    intro a ha
    rcases List.mem_cons.1 ha with rfl | ha
    · exact ⟨e, he⟩
    · exact ih hrest a ha

/-- What `TTimerTaskList::Add` returns when the cell `tail_` is live. -/
theorem TTimerTaskList.add_ok (h : Heap) (b : TTimerTaskList) (t : Nat) (tl : TimerTaskEntry)
    (hlive : h.entries b.tail_ = some tl) (hne : b.tail_ ≠ h.nextAddr) :
    ∃ h1, b.Add h t = .ok (h1, { b with tail_ := h.nextAddr, counter_ := b.counter_ + 1 }) ∧
      h1.nextAddr = h.nextAddr + 1 ∧
      h1.tasks = Function.update h.tasks t { h.tasks t with entry_ := some h.nextAddr } ∧
      h1.entries h.nextAddr = some
        { list := some b.this, prev := some b.tail_, next := none, timerTask := some t,
          expiration := (h.tasks t).expiration_ } ∧
      h1.entries b.tail_ = some { tl with next := some h.nextAddr } ∧
      ∀ x, x ≠ h.nextAddr → x ≠ b.tail_ → h1.entries x = h.entries x := by
  simp only [TTimerTaskList.Add, Heap.write, Function.update_same,
    Function.update_noteq hne, hlive, Function.update_noteq (Ne.symm hne)]
  refine ⟨_, rfl, rfl, rfl, ?_, ?_, ?_⟩
  · simp
  · simp [Function.update_noteq hne]
  · intro x hx1 hx2
    simp [Function.update_noteq hx1, Function.update_noteq hx2]

/-- `TTimerTaskList::Add` faults when `tail_` names freed storage. -/
theorem TTimerTaskList.add_fault (h : Heap) (b : TTimerTaskList) (t : Nat)
    (hdead : h.entries b.tail_ = none) (hne : b.tail_ ≠ h.nextAddr) :
    b.Add h t = .error .useAfterFree := by
  simp [TTimerTaskList.Add, Heap.write, Function.update_noteq hne, hdead]

theorem Chain.snoc_chain {h h1 : Heap} {p : Nat} {L : List Nat} {a : Nat}
    (hc : Chain h p L) (tl : TimerTaskEntry)
    (htl : h.entries (lastCell p L) = some tl)
    (h1tl : h1.entries (lastCell p L) = some { tl with next := some a })
    (h1a : ∃ ea, h1.entries a = some ea ∧ ea.prev = some (lastCell p L) ∧ ea.next = none)
    (hsame : ∀ x ∈ p :: L, x ≠ lastCell p L → h1.entries x = h.entries x)
    (hnd : (p :: L).Nodup)
    (hdead : ∀ q, Dead h q → Dead h1 q) : Chain h1 p (L ++ [a]) := by
  induction L generalizing p with
  | nil =>
    obtain ⟨ea, hea, hp, hn⟩ := h1a
    simp only [lastCell] at *
    exact ⟨⟨_, h1tl, rfl⟩, ⟨ea, p, hea, hp, Or.inl rfl⟩, ⟨ea, hea, hn⟩⟩
  | cons x L ih =>
    obtain ⟨⟨e, he, hn⟩, ⟨ex, q, hex, hq, hor⟩, hrest⟩ := hc
    simp only [lastCell] at htl h1tl h1a hsame
    have hpx : p ∉ x :: L := (List.nodup_cons.1 hnd).1
    have hnd' : (x :: L).Nodup := (List.nodup_cons.1 hnd).2
    have hlast : lastCell x L ∈ x :: L := lastCell_mem x L
    have hpl : p ≠ lastCell x L := fun hh => hpx (hh ▸ hlast)
    refine ⟨⟨e, ?_, hn⟩, ?_, ?_⟩
    · rw [hsame p (by simp) hpl]; exact he
    · by_cases hxl : x = lastCell x L
      · rw [← hxl] at htl h1tl
        have : ex = tl := by rw [hex] at htl; exact Option.some.inj htl
        subst this
        refine ⟨_, q, h1tl, hq, ?_⟩
        rcases hor with h' | h'
        · exact Or.inl h'
        · exact Or.inr (hdead q h')
      · refine ⟨ex, q, ?_, hq, ?_⟩
        · rw [hsame x (by simp) hxl]; exact hex
        · rcases hor with h' | h'
          · exact Or.inl h'
          · exact Or.inr (hdead q h')
    · exact ih hrest htl h1tl h1a (fun y hy => hsame y (List.mem_cons_of_mem _ hy)) hnd'

theorem PrevExact.snoc_prev {h h1 : Heap} {p : Nat} {L : List Nat} {a : Nat}
    (hc : PrevExact h p L)
    (h1a : ∃ ea, h1.entries a = some ea ∧ ea.prev = some (lastCell p L))
    (hsame : ∀ x ∈ L, ∀ e, h.entries x = some e →
      ∃ e1, h1.entries x = some e1 ∧ e1.prev = e.prev) :
    PrevExact h1 p (L ++ [a]) := by
  induction L generalizing p with
  | nil => exact ⟨h1a, trivial⟩
  | cons x L ih =>
    obtain ⟨⟨ex, hex, hp⟩, hrest⟩ := hc
    obtain ⟨e1, he1, hp1⟩ := hsame x (by simp) ex hex
    exact ⟨⟨e1, he1, hp1.trans hp⟩,
      ih hrest h1a (fun y hy => hsame y (List.mem_cons_of_mem _ hy))⟩

/-- A successful `Add` on a well-formed bucket appends the new entry to the chain. -/
theorem BWF.add_bucket {h : Heap} {b : TTimerTaskList} {L : List (Nat × Nat)} (hw : BWF h b L)
    (t : Nat) {h1 : Heap} {b1 : TTimerTaskList} (hadd : b.Add h t = .ok (h1, b1)) :
    BWF h1 b1 (L ++ [(h.nextAddr, t)]) ∧
    b.tail_ = lastCell b.root_ (L.map Prod.fst) ∧
    b1 = { b with tail_ := h.nextAddr, counter_ := b.counter_ + 1 } ∧
    h1.nextAddr = h.nextAddr + 1 ∧
    h1.tasks = Function.update h.tasks t { h.tasks t with entry_ := some h.nextAddr } ∧
    (∀ x, x ≠ h.nextAddr → x ≠ b.tail_ → h1.entries x = h.entries x) ∧
    (∀ e, h.entries b.tail_ = some e → h1.entries b.tail_ = some { e with next := some h.nextAddr }) ∧
    (PrevExact h b.root_ (L.map Prod.fst) → PrevExact h1 b1.root_ ((L ++ [(h.nextAddr, t)]).map Prod.fst)) := by
  have hlt : ∀ a ∈ b.root_ :: L.map Prod.fst, a < h.nextAddr := hw.bound
  -- the tail is not dead, hence exact
  have htail_lt : b.tail_ < h.nextAddr := by
    rcases hw.tail with ht | ht
    · rw [ht]; exact hlt _ (lastCell_mem _ _)
    · exact ht.2
  have hne : b.tail_ ≠ h.nextAddr := Nat.ne_of_lt htail_lt
  cases hlive : h.entries b.tail_ with
  | none =>
    rw [TTimerTaskList.add_fault h b t hlive hne] at hadd
    cases hadd
  | some tl =>
    obtain ⟨h1', heq, hnext, htasks, hnew, htl, hsame⟩ := TTimerTaskList.add_ok h b t tl hlive hne
    rw [heq] at hadd
    injection hadd with hadd
    injection hadd with hh hb
    subst hh
    subst hb
    have htail : b.tail_ = lastCell b.root_ (L.map Prod.fst) := by
      rcases hw.tail with ht | ht
      · exact ht
      · rw [ht.1] at hlive; cases hlive
    have hfresh : h.nextAddr ∉ b.root_ :: L.map Prod.fst := fun hm => Nat.lt_irrefl _ (hlt _ hm)
    have hdead : ∀ q, Dead h q → Dead h1' q := by
      intro q ⟨hq1, hq2⟩
      refine ⟨?_, by omega⟩
      rw [hsame q (Nat.ne_of_lt hq2) (by rintro rfl; rw [hq1] at hlive; cases hlive)]
      exact hq1
    refine ⟨?_, htail, rfl, hnext, htasks, hsame, ?_, ?_⟩
    · refine ⟨?_, ?_, ?_, ?_, ?_, ?_, ?_⟩
      · simp only [List.map_append, List.map_cons, List.map_nil]
        refine Chain.snoc_chain hw.chain tl (htail ▸ hlive) (htail ▸ htl) ⟨_, hnew, by simp [htail], rfl⟩
          ?_ hw.nodup hdead
        intro x hx hxl
        exact hsame x (fun hh => hfresh (hh ▸ hx)) (by rw [htail]; exact hxl)
      · simp only [List.map_append, List.map_cons, List.map_nil]
        have := hw.nodup
        rw [← List.cons_append]
        refine List.Nodup.append this (by simp) ?_
        intro x hx hx2
        simp at hx2
        exact hfresh (hx2 ▸ hx)
      · intro x hx
        rcases List.mem_append.1 hx with hx | hx
        · obtain ⟨e, he, hl, ht⟩ := hw.owned x hx
          have hxm : x.1 ∈ b.root_ :: L.map Prod.fst :=
            List.mem_cons_of_mem _ (List.mem_map_of_mem _ hx)
          by_cases hxt : x.1 = b.tail_
          · rw [hxt] at he ⊢
            rw [hlive] at he
            cases he
            exact ⟨_, htl, hl, ht⟩
          · exact ⟨e, by rw [hsame x.1 (fun hh => hfresh (hh ▸ hxm)) hxt]; exact he, hl, ht⟩
        · simp at hx
          subst hx
          exact ⟨_, hnew, rfl, rfl⟩
      · obtain ⟨r, hr, hl⟩ := hw.sentinel
        by_cases hrt : b.root_ = b.tail_
        · rw [hrt] at hr ⊢
          rw [hlive] at hr
          cases hr
          exact ⟨_, htl, hl⟩
        · exact ⟨r, by
            show h1'.entries b.root_ = some r
            rw [hsame b.root_ (fun hh => hfresh (hh ▸ List.mem_cons_self _ _)) hrt]; exact hr, hl⟩
      · left
        simp [lastCell_append]
      · simp [hw.count]
      · intro a ha
        simp only [List.map_append, List.map_cons, List.map_nil] at ha
        rw [← List.cons_append] at ha
        rcases List.mem_append.1 ha with ha | ha
        · have := hlt a ha; omega
        · simp at ha; omega
    · intro e he
      cases he
      exact htl
    · intro hpe
      simp only [List.map_append, List.map_cons, List.map_nil]
      refine PrevExact.snoc_prev hpe ⟨_, hnew, by simp [htail]⟩ ?_
      intro x hx e he
      have hxm : x ∈ b.root_ :: L.map Prod.fst := List.mem_cons_of_mem _ hx
      by_cases hxt : x = b.tail_
      · subst hxt
        rw [hlive] at he
        cases he
        exact ⟨_, htl, rfl⟩
      · exact ⟨e, by rw [hsame x (fun hh => hfresh (hh ▸ hxm)) hxt]; exact he, rfl⟩

theorem lastCell_append_cons (p : Nat) (L1 : List Nat) (x : Nat) (L2 : List Nat) :
    lastCell p (L1 ++ x :: L2) = lastCell x L2 := by
  induction L1 generalizing p with
  | nil => rfl
  | cons y L1 ih => simpa [lastCell] using ih y

theorem Chain.unlink {h h1 : Heap} {p : Nat} {L1 : List Nat} {e : Nat} {L2 : List Nat}
    (hc : Chain h p (L1 ++ e :: L2)) (hnd : (p :: (L1 ++ e :: L2)).Nodup)
    (ent pe : TimerTaskEntry) (hent : h.entries e = some ent)
    (hpe : h.entries (lastCell p L1) = some pe)
    (h1pr : h1.entries (lastCell p L1) = some { pe with next := ent.next })
    (h1e : Dead h1 e)
    (hsame : ∀ x ∈ p :: (L1 ++ L2), x ≠ lastCell p L1 → h1.entries x = h.entries x)
    (hdead : ∀ q, Dead h q → Dead h1 q) : Chain h1 p (L1 ++ L2) := by
  induction L1 generalizing p with
  | nil =>
    simp only [List.nil_append, lastCell] at *
    obtain ⟨_, _, hrest⟩ := hc
    have hpn : p ∉ e :: L2 := (List.nodup_cons.1 hnd).1
    cases L2 with
    | nil =>
      obtain ⟨e', he', hn⟩ := hrest
      rw [hent] at he'
      cases he'
      exact ⟨_, h1pr, hn⟩
    | cons y L2 =>
      obtain ⟨⟨e', he', hn⟩, ⟨ey, q, hey, hq, hor⟩, hrest2⟩ := hrest
      rw [hent] at he'
      cases he'
      have hyp : y ≠ p := fun hh => hpn (by simp [hh])
      refine ⟨⟨_, h1pr, hn⟩, ⟨ey, q, ?_, hq, ?_⟩, ?_⟩
      · rw [hsame y (by simp) hyp]; exact hey
      · rcases hor with h' | h'
        · exact Or.inr (h' ▸ h1e)
        · exact Or.inr (hdead q h')
      · refine Chain.frame_chain hrest2 ?_ hdead
        intro x hx
        exact hsame x (List.mem_cons_of_mem _ hx) (fun hh => hpn (hh ▸ List.mem_cons_of_mem _ hx))
  | cons x L1 ih =>
    simp only [List.cons_append, lastCell] at *
    obtain ⟨⟨ep, hep, hn⟩, ⟨ex, q, hex, hq, hor⟩, hrest⟩ := hc
    have hpx : p ∉ x :: (L1 ++ e :: L2) := (List.nodup_cons.1 hnd).1
    have hnd' : (x :: (L1 ++ e :: L2)).Nodup := (List.nodup_cons.1 hnd).2
    have hlast : lastCell x L1 ∈ x :: L1 := lastCell_mem x L1
    have hpl : p ≠ lastCell x L1 := by
      intro hh
      apply hpx
      rw [hh]
      rcases List.mem_cons.1 hlast with h' | h'
      · simp [h']
      · exact List.mem_cons_of_mem _ (List.mem_append_left _ h')
    refine ⟨⟨ep, ?_, hn⟩, ?_, ?_⟩
    · rw [hsame p (by simp) hpl]; exact hep
    · by_cases hxl : x = lastCell x L1
      · rw [← hxl] at hpe h1pr
        rw [hex] at hpe
        cases hpe
        refine ⟨_, q, h1pr, hq, ?_⟩
        rcases hor with h' | h'
        · exact Or.inl h'
        · exact Or.inr (hdead q h')
      · refine ⟨ex, q, ?_, hq, ?_⟩
        · rw [hsame x (by simp) hxl]; exact hex
        · rcases hor with h' | h'
          · exact Or.inl h'
          · exact Or.inr (hdead q h')
    · exact ih hrest hnd' hpe h1pr (fun y hy => hsame y (List.mem_cons_of_mem _ hy))

/-- In a chain the cell before `e` and `e` itself are linked as the code expects:
`e->prev` names the predecessor or freed storage and the predecessor's `next` is `e`. -/
theorem Chain.split_chain {h : Heap} {p : Nat} {L1 : List Nat} {e : Nat} {L2 : List Nat}
    (hc : Chain h p (L1 ++ e :: L2)) :
    (∃ pe, h.entries (lastCell p L1) = some pe ∧ pe.next = some e) ∧
    (∃ ent q, h.entries e = some ent ∧ ent.prev = some q ∧
      (q = lastCell p L1 ∨ Dead h q)) := by
  induction L1 generalizing p with
  | nil => exact ⟨hc.1, hc.2.1⟩
  | cons x L1 ih => exact ih hc.2.2

/-- `TTimerTaskList::Remove` on a well-formed bucket, when a back-reference to a cell that names
this bucket as owner is a back-reference into its chain: either
nothing changes and the result is false, or one entry leaves the chain. -/
theorem BWF.remove_bucket {h : Heap} {b : TTimerTaskList} {L : List (Nat × Nat)} (hw : BWF h b L)
    (t : Nat)
    (hown : ∀ a e, (h.tasks t).entry_ = some a → h.entries a = some e →
      e.list = some b.this → a ∈ L.map Prod.fst)
    {r : Bool} {h1 : Heap} {b1 : TTimerTaskList}
    (hrem : b.Remove h t = .ok (r, h1, b1)) :
    (r = false ∧ h1 = h ∧ b1 = b) ∨
    (r = true ∧ ∃ L1 e t1 L2, L = L1 ++ (e, t1) :: L2 ∧ (h.tasks t).entry_ = some e ∧
       BWF h1 b1 (L1 ++ L2) ∧ b1 = { b with counter_ := b.counter_ - 1 } ∧
       h1.nextAddr = h.nextAddr ∧
       h1.tasks = Function.update h.tasks t { h.tasks t with entry_ := none } ∧
       h1.entries e = none ∧
       (∀ pe, h.entries (lastCell b.root_ (L1.map Prod.fst)) = some pe →
          ∃ pe1, h1.entries (lastCell b.root_ (L1.map Prod.fst)) = some pe1 ∧
            pe1.list = pe.list ∧ pe1.timerTask = pe.timerTask ∧ pe1.prev = pe.prev) ∧
       (∀ x, x ≠ e → x ≠ lastCell b.root_ (L1.map Prod.fst) → h1.entries x = h.entries x)) := by
  unfold TTimerTaskList.Remove at hrem
  cases hbr : (h.tasks t).entry_ with
  | none =>
    simp only [hbr] at hrem
    injection hrem with hrem
    simp only [Prod.mk.injEq] at hrem
    exact Or.inl ⟨hrem.1.symm, hrem.2.1.symm, hrem.2.2.symm⟩
  | some e =>
    simp only [hbr] at hrem
    cases hent : h.entries e with
    | none => simp [hent] at hrem
    | some ent =>
      simp only [hent] at hrem
      by_cases hl : ent.list = some b.this
      · simp only [hl, if_true] at hrem
        right
        have hmem := hown e ent hbr hent hl
        obtain ⟨x, hx, hxe⟩ := List.mem_map.1 hmem
        obtain ⟨L1, L2, hL⟩ := List.append_of_mem hx
        obtain ⟨e', t1⟩ := x
        have hxe' : e' = e := hxe
        subst hxe'
        have hchain := hw.chain
        have hnd := hw.nodup
        rw [hL] at hchain hnd
        simp only [List.map_append, List.map_cons] at hchain hnd
        obtain ⟨⟨pe, hpe, hpn⟩, ⟨ent', q, hent', hq, hor⟩⟩ := Chain.split_chain hchain
        rw [hent] at hent'
        cases hent'
        have hpm : lastCell b.root_ (L1.map Prod.fst) ∈ b.root_ :: L1.map Prod.fst :=
          lastCell_mem _ _
        have hpne : lastCell b.root_ (L1.map Prod.fst) ≠ e' := by
          intro hh
          rw [hh] at hpm
          rcases List.mem_cons.1 hpm with h' | h'
          · rw [h'] at hnd
            simp at hnd
          · have := (List.nodup_cons.1 hnd).2
            rw [List.nodup_append] at this
            exact this.2.2 h' (by simp)
        have hqp : q = lastCell b.root_ (L1.map Prod.fst) := by
          rcases hor with h' | h'
          · exact h'
          · simp [hq, h'.1] at hrem
        subst hqp
        simp only [hq, hpe, Heap.write, Heap.setTimerTaskEntry] at hrem
        injection hrem with hrem
        simp only [Prod.mk.injEq] at hrem
        obtain ⟨hr, hh1, hb1⟩ := hrem
        subst hh1
        subst hb1
        have helt : e' < h.nextAddr := hw.bound e' (by rw [hL]; simp)
        have hdead : ∀ q', Dead h q' →
            Dead ({ entries := Function.update (Function.update h.entries
                      (lastCell b.root_ (L1.map Prod.fst)) (some { pe with next := ent.next }))
                      e' none,
                    tasks := Function.update h.tasks t { h.tasks t with entry_ := none },
                    nextAddr := h.nextAddr } : Heap) q' := by
          intro q' ⟨hq1, hq2⟩
          refine ⟨?_, hq2⟩
          show Function.update _ _ _ _ = _
          by_cases h1' : q' = e'
          · rw [h1', Function.update_same]
          · rw [Function.update_noteq h1', Function.update_noteq]
            · exact hq1
            · rintro rfl
              rw [hq1] at hpe
              cases hpe
        have hsame : ∀ x, x ≠ e' → x ≠ lastCell b.root_ (L1.map Prod.fst) →
            Function.update (Function.update h.entries
              (lastCell b.root_ (L1.map Prod.fst)) (some { pe with next := ent.next }))
              e' none x = h.entries x := by
          intro x hx1 hx2
          rw [Function.update_noteq hx1, Function.update_noteq hx2]
        have hne' : ∀ x ∈ b.root_ :: (L1.map Prod.fst ++ L2.map Prod.fst), x ≠ e' := by
          intro z hz hh
          rw [hh] at hz
          rcases List.mem_cons.1 hz with h' | h'
          · rw [h'] at hnd
            simp at hnd
          · have := (List.nodup_cons.1 hnd).2
            rw [List.nodup_append] at this
            rcases List.mem_append.1 h' with h'' | h''
            · exact this.2.2 h'' (by simp)
            · exact (List.nodup_cons.1 this.2.1).1 h''
        refine ⟨hr.symm, L1, e', t1, L2, hL, rfl, ?_, rfl, rfl, rfl, ?_, ?_, hsame⟩
        · refine ⟨?_, ?_, ?_, ?_, ?_, ?_, ?_⟩
          · simp only [List.map_append]
            refine Chain.unlink hchain hnd ent pe hent hpe ?_ ⟨?_, helt⟩ ?_ hdead
            · show Function.update _ _ _ _ = _
              rw [Function.update_noteq hpne, Function.update_same]
            · show Function.update _ _ _ _ = _
              rw [Function.update_same]
            · intro x hx hxl
              exact hsame x (hne' x hx) hxl
          · simp only [List.map_append]
            have h1' := (List.nodup_cons.1 hnd)
            refine List.nodup_cons.2 ⟨?_, ?_⟩
            · intro hm
              apply h1'.1
              rcases List.mem_append.1 hm with h' | h'
              · exact List.mem_append_left _ h'
              · exact List.mem_append_right _ (List.mem_cons_of_mem _ h')
            · have := h1'.2
              rw [List.nodup_append] at this ⊢
              refine ⟨this.1, (List.nodup_cons.1 this.2.1).2, ?_⟩
              intro a ha1 ha2
              exact this.2.2 ha1 (List.mem_cons_of_mem _ ha2)
          · intro x hx
            have hxL : x ∈ L := by
              rw [hL]
              rcases List.mem_append.1 hx with h' | h'
              · exact List.mem_append_left _ h'
              · exact List.mem_append_right _ (List.mem_cons_of_mem _ h')
            obtain ⟨ex, hex, hxl, hxt⟩ := hw.owned x hxL
            have hxm : x.1 ∈ b.root_ :: (L1.map Prod.fst ++ L2.map Prod.fst) := by
              apply List.mem_cons_of_mem
              rw [← List.map_append]
              exact List.mem_map_of_mem _ hx
            by_cases hxp : x.1 = lastCell b.root_ (L1.map Prod.fst)
            · rw [hxp] at hex ⊢
              rw [hpe] at hex
              cases hex
              refine ⟨{ pe with next := ent.next }, ?_, hxl, hxt⟩
              show Function.update _ _ _ _ = _
              rw [Function.update_noteq hpne, Function.update_same]
            · exact ⟨ex, (hsame x.1 (hne' _ hxm) hxp).trans hex, hxl, hxt⟩
          · obtain ⟨r0, hr0, hl0⟩ := hw.sentinel
            by_cases hrp : b.root_ = lastCell b.root_ (L1.map Prod.fst)
            · rw [← hrp] at hpe hpne
              rw [hpe] at hr0
              cases hr0
              refine ⟨{ pe with next := ent.next }, ?_, hl0⟩
              show Function.update _ _ _ _ = _
              rw [Function.update_noteq hpne, ← hrp, Function.update_same]
            · exact ⟨r0, (hsame _ (hne' _ (List.mem_cons_self _ _)) hrp).trans hr0, hl0⟩
          · rcases hw.tail with ht | ht
            · rw [hL] at ht
              simp only [List.map_append, List.map_cons, lastCell_append_cons] at ht
              cases L2 with
              | nil =>
                right
                simp only [List.map_nil, lastCell] at ht
                show Dead _ b.tail_
                rw [ht]
                refine ⟨?_, helt⟩
                show Function.update _ _ _ _ = _
                rw [Function.update_same]
              | cons y L2 =>
                left
                show b.tail_ = _
                simp only [List.map_append, List.map_cons, lastCell_append_cons]
                simpa [lastCell] using ht
            · exact Or.inr (hdead _ ht)
          · show b.counter_ - 1 = _
            rw [hw.count, hL]
            simp
            omega
          · intro a ha
            apply hw.bound
            rw [hL]
            simp only [List.map_append, List.map_cons] at ha ⊢
            rcases List.mem_cons.1 ha with h' | h'
            · simp [h']
            · apply List.mem_cons_of_mem
              rcases List.mem_append.1 h' with h'' | h''
              · exact List.mem_append_left _ h''
              · exact List.mem_append_right _ (List.mem_cons_of_mem _ h'')
        · show Function.update _ _ _ _ = _
          rw [Function.update_same]
        · intro pe0 hpe0
          rw [hpe] at hpe0
          cases hpe0
          refine ⟨{ pe with next := ent.next }, ?_, rfl, rfl, rfl⟩
          show Function.update _ _ _ _ = _
          rw [Function.update_noteq hpne, Function.update_same]
      · simp only [hl, if_false] at hrem
        injection hrem with hrem
        simp only [Prod.mk.injEq] at hrem
        exact Or.inl ⟨hrem.1.symm, hrem.2.1.symm, hrem.2.2.symm⟩

theorem Seg.frame_seg {ents ents1 : Nat → Option TimerTaskEntry} {s : Option Nat}
    {L : List (Nat × Nat)} (hs : Seg ents s L)
    (hsame : ∀ a ∈ L.map Prod.fst, ents1 a = ents a) : Seg ents1 s L := by
  induction L generalizing s with
  | nil => exact hs
  | cons x L ih =>
    obtain ⟨h1, e, he, ht, hrest⟩ := hs
    refine ⟨h1, e, ?_, ht, ih hrest (fun a ha => hsame a (by simp at ha ⊢; exact Or.inr ha))⟩
    rw [hsame x.1 (by simp)]
    exact he

theorem Chain.to_seg {h : Heap} {p : Nat} {L : List (Nat × Nat)}
    (hc : Chain h p (L.map Prod.fst))
    (htask : ∀ x ∈ L, ∃ e, h.entries x.1 = some e ∧ e.timerTask = some x.2) :
    ∃ r, h.entries p = some r ∧ Seg h.entries r.next L := by
  induction L generalizing p with
  | nil =>
    obtain ⟨e, he, hn⟩ := hc
    exact ⟨e, he, hn⟩
  | cons x L ih =>
    obtain ⟨⟨e, he, hn⟩, _, hrest⟩ := hc
    obtain ⟨r, hr, hseg⟩ := ih hrest (fun y hy => htask y (List.mem_cons_of_mem _ hy))
    obtain ⟨ex, hex, hxt⟩ := htask x (by simp)
    refine ⟨e, he, hn, ex, hex, hxt, ?_⟩
    rw [hex] at hr
    cases hr
    exact hseg

theorem BWF.seg_bucket {h : Heap} {b : TTimerTaskList} {L : List (Nat × Nat)} (hw : BWF h b L) :
    ∃ r, h.entries b.root_ = some r ∧ Seg h.entries r.next L :=
  Chain.to_seg hw.chain (fun x hx => by
    obtain ⟨e, he, _, ht⟩ := hw.owned x hx
    exact ⟨e, he, ht⟩)

theorem sweep_nextAddr (L : List (Nat × Nat)) (h : Heap) : (sweep L h).nextAddr = h.nextAddr := by
  induction L generalizing h with
  | nil => rfl
  | cons x L ih => rw [sweep, ih]; rfl

theorem sweep_entries_not_mem (L : List (Nat × Nat)) (h : Heap) (a : Nat)
    (ha : a ∉ L.map Prod.fst) : (sweep L h).entries a = h.entries a := by
  induction L generalizing h with
  | nil => rfl
  | cons x L ih =>
    simp only [List.map_cons, List.mem_cons, not_or] at ha
    rw [sweep, ih _ ha.2]
    simp [Heap.write, Heap.setTimerTaskEntry, Function.update_noteq ha.1]

theorem sweep_entries_mem (L : List (Nat × Nat)) (h : Heap) (a : Nat)
    (ha : a ∈ L.map Prod.fst) : (sweep L h).entries a = none := by
  induction L generalizing h with
  | nil => simp at ha
  | cons x L ih =>
    rw [sweep]
    by_cases hm : a ∈ L.map Prod.fst
    · exact ih _ hm
    · rw [sweep_entries_not_mem _ _ _ hm]
      simp only [List.map_cons, List.mem_cons] at ha
      rcases ha with ha | ha
      · simp [Heap.write, Heap.setTimerTaskEntry, ha]
      · exact absurd ha hm

theorem sweep_expiration (L : List (Nat × Nat)) (h : Heap) (t : Nat) :
    ((sweep L h).tasks t).expiration_ = (h.tasks t).expiration_ := by
  induction L generalizing h with
  | nil => rfl
  | cons x L ih =>
    rw [sweep, ih]
    simp only [Heap.write, Heap.setTimerTaskEntry]
    by_cases hx : t = x.2
    · subst hx; simp
    · simp [Function.update_noteq hx]

theorem sweep_entry_mem (L : List (Nat × Nat)) (h : Heap) (t : Nat)
    (ht : t ∈ L.map Prod.snd) : ((sweep L h).tasks t).entry_ = none := by
  induction L generalizing h with
  | nil => simp at ht
  | cons x L ih =>
    rw [sweep]
    by_cases hm : t ∈ L.map Prod.snd
    · exact ih _ hm
    · simp only [List.map_cons, List.mem_cons] at ht
      rcases ht with ht | ht
      · have key : ∀ (L : List (Nat × Nat)) (h : Heap), (h.tasks t).entry_ = none →
            ((sweep L h).tasks t).entry_ = none := by
          intro L
          induction L with
          | nil => intro h hh; exact hh
          | cons y L ih2 =>
            intro h hh
            rw [sweep]
            apply ih2
            simp only [Heap.write, Heap.setTimerTaskEntry]
            by_cases hy : t = y.2
            · subst hy; simp
            · simp [Function.update_noteq hy, hh]
        apply key
        simp [Heap.write, Heap.setTimerTaskEntry, ht]
      · exact absurd ht hm

theorem sweep_tasks_not_mem (L : List (Nat × Nat)) (h : Heap) (t : Nat)
    (ht : t ∉ L.map Prod.snd) : (sweep L h).tasks t = h.tasks t := by
  induction L generalizing h with
  | nil => rfl
  | cons x L ih =>
    simp only [List.map_cons, List.mem_cons, not_or] at ht
    rw [sweep, ih _ ht.2]
    simp [Heap.write, Heap.setTimerTaskEntry, Function.update_noteq ht.1]

/-- The loop of `Clear` on a chain of live entries: with fuel for every entry it frees
them all, with less it runs out. -/
theorem clearLoop_eq {h : Heap} {s : Option Nat} {L : List (Nat × Nat)}
    (hs : Seg h.entries s L) (hnd : (L.map Prod.fst).Nodup) (fuel : Nat) :
    clearLoop fuel s h = if L.length ≤ fuel then .ok (sweep L h) else .error .outOfFuel := by
  induction L generalizing s h fuel with
  | nil =>
    cases hs
    cases fuel <;> simp [clearLoop, sweep]
  | cons x L ih =>
    obtain ⟨h1, e, he, ht, hrest⟩ := hs
    subst h1
    cases fuel with
    | zero => simp [clearLoop]
    | succ fuel =>
      simp only [clearLoop, he, ht, List.length_cons, Nat.add_le_add_iff_right, sweep]
      have hnd' := List.nodup_cons.1 hnd
      apply ih _ hnd'.2
      refine Seg.frame_seg hrest ?_
      intro a ha
      have : a ≠ x.1 := fun hh => hnd'.1 (hh ▸ ha)
      simp [Heap.write, Heap.setTimerTaskEntry, Function.update_noteq this]

/-- The loop of `ForEach` with a visitor `g` that always returns and leaves the entry heap
alone: with fuel for every entry the tasks are visited in chain order. -/
theorem forEachLoop_eq {σ : Type} (ents : σ → Nat → Option TimerTaskEntry)
    (visit : Nat → σ → Except Fault σ) (g : Nat → σ → σ)
    (hv : ∀ t s, visit t s = .ok (g t s)) (hg : ∀ t s, ents (g t s) = ents s)
    {st : σ} {s : Option Nat} {L : List (Nat × Nat)}
    (hs : Seg (ents st) s L) (fuel : Nat) :
    forEachLoop ents visit fuel s st =
      if L.length ≤ fuel then .ok (L.foldl (fun acc x => g x.2 acc) st)
      else .error .outOfFuel := by
  induction L generalizing s st fuel with
  | nil =>
    cases hs
    cases fuel <;> simp [forEachLoop]
  | cons x L ih =>
    obtain ⟨h1, e, he, ht, hrest⟩ := hs
    subst h1
    cases fuel with
    | zero => simp [forEachLoop]
    | succ fuel =>
      simp only [forEachLoop, he, ht, hv, hg, List.length_cons, Nat.add_le_add_iff_right,
        List.foldl_cons]
      apply ih
      rw [hg]
      exact hrest

/-- `TTimerTaskList::Clear` on a well-formed bucket: with fuel for every entry it returns
the empty bucket, all entries freed and their tasks' back-references nulled. -/
theorem BWF.clear_bucket {h : Heap} {b : TTimerTaskList} {L : List (Nat × Nat)} (hw : BWF h b L)
    (fuel : Nat) :
    ∃ r, h.entries b.root_ = some r ∧ r.list = none ∧
      b.Clear fuel h =
        (if L.length ≤ fuel then
          .ok ((sweep L h).write b.root_ (some { r with next := none }),
               { b with tail_ := b.root_, counter_ := 0 })
         else .error .outOfFuel) ∧
      BWF ((sweep L h).write b.root_ (some { r with next := none }))
        { b with tail_ := b.root_, counter_ := 0 } [] := by
  obtain ⟨r, hr, hseg⟩ := hw.seg_bucket
  obtain ⟨r', hr', hl⟩ := hw.sentinel
  rw [hr] at hr'
  cases hr'
  have hnd := List.nodup_cons.1 hw.nodup
  refine ⟨r, hr, hl, ?_, ?_⟩
  · unfold TTimerTaskList.Clear
    simp only [hr, clearLoop_eq hseg hnd.2 fuel]
    by_cases hf : L.length ≤ fuel
    · simp only [hf, if_true, sweep_entries_not_mem L h b.root_ hnd.1, hr]
    · simp only [hf, if_false]
  · refine ⟨?_, by simp, by simp, ?_, Or.inl rfl, rfl, ?_⟩
    · exact ⟨{ r with next := none }, by simp [Heap.write], rfl⟩
    · exact ⟨{ r with next := none }, by simp [Heap.write], hl⟩
    · intro a ha
      simp only [List.map_nil, List.mem_singleton] at ha
      subst ha
      show b.root_ < (sweep L h).nextAddr
      rw [sweep_nextAddr]
      exact hw.bound _ (List.mem_cons_self _ _)

theorem PrevExact.split_prev {h : Heap} {p : Nat} {L1 : List Nat} {e : Nat} {L2 : List Nat}
    (hc : PrevExact h p (L1 ++ e :: L2)) :
    ∃ ent, h.entries e = some ent ∧ ent.prev = some (lastCell p L1) := by
  induction L1 generalizing p with
  | nil => exact hc.1
  | cons x L1 ih => exact ih hc.2

/-- `TTimerTaskList::Remove` returns true on an entry of a chain whose `prev` pointers are
all exact. -/
theorem BWF.remove_ok {h : Heap} {b : TTimerTaskList} {L : List (Nat × Nat)} (hw : BWF h b L)
    (hpe : PrevExact h b.root_ (L.map Prod.fst)) (t e : Nat)
    (hbr : (h.tasks t).entry_ = some e) (hmem : e ∈ L.map Prod.fst) :
    ∃ h1 b1, b.Remove h t = .ok (true, h1, b1) := by
  obtain ⟨x, hx, hxe⟩ := List.mem_map.1 hmem
  obtain ⟨ent, hent, hl, _⟩ := hw.owned x hx
  rw [hxe] at hent
  obtain ⟨L1, L2, hL⟩ := List.append_of_mem hmem
  rw [hL] at hpe
  obtain ⟨ent', hent', hprev⟩ := PrevExact.split_prev hpe
  rw [hent] at hent'
  cases hent'
  have hchain := hw.chain
  rw [hL] at hchain
  obtain ⟨⟨pe, hpe', _⟩, _⟩ := Chain.split_chain hchain
  unfold TTimerTaskList.Remove
  simp only [hbr, hent, hl, if_true, hprev, hpe']
  exact ⟨_, _, rfl⟩

theorem BWF.new (h : Heap) : BWF (TTimerTaskList.new h).1 (TTimerTaskList.new h).2 [] := by
  refine ⟨?_, by simp, by simp, ?_, Or.inl rfl, rfl, ?_⟩
  · exact ⟨{ list := none, prev := none, next := none, timerTask := none, expiration := -1 },
      by simp [TTimerTaskList.new], rfl⟩
  · exact ⟨{ list := none, prev := none, next := none, timerTask := none, expiration := -1 },
      by simp [TTimerTaskList.new], rfl⟩
  · intro a ha
    simp only [List.map_nil, List.mem_singleton] at ha
    subst ha
    simp [TTimerTaskList.new]

/-- Adding distinct tasks to a bucket whose links are all exact succeeds and keeps them exact;
each task's back-reference names its own entry. -/
theorem addAll_spec (ts : List Nat) (hd : ts.Nodup) :
    ∀ (h : Heap) (b : TTimerTaskList) (L : List (Nat × Nat)), BWF h b L →
      PrevExact h b.root_ (L.map Prod.fst) →
      b.tail_ = lastCell b.root_ (L.map Prod.fst) →
      (∀ x ∈ L, (h.tasks x.2).entry_ = some x.1) →
      (∀ t ∈ ts, t ∉ L.map Prod.snd) →
      ∃ h1 b1 L1, addAll ts (h, b) = .ok (h1, b1) ∧ BWF h1 b1 (L ++ L1) ∧
        L1.map Prod.snd = ts ∧ PrevExact h1 b1.root_ ((L ++ L1).map Prod.fst) ∧
        (∀ x ∈ L ++ L1, (h1.tasks x.2).entry_ = some x.1) := by
  induction ts with
  | nil =>
    intro h b L hw hpe _ hbr _
    exact ⟨h, b, [], rfl, by simpa using hw, rfl, by simpa using hpe, by simpa using hbr⟩
  | cons t ts ih =>
    intro h b L hw hpe htail hbr hnew
    have hd' := List.nodup_cons.1 hd
    obtain ⟨tl, htl⟩ := Chain.live_cells hw.chain _ (lastCell_mem b.root_ (L.map Prod.fst))
    rw [← htail] at htl
    have hne : b.tail_ ≠ h.nextAddr :=
      Nat.ne_of_lt (by rw [htail]; exact hw.bound _ (lastCell_mem _ _))
    obtain ⟨h1, hadd, _⟩ := TTimerTaskList.add_ok h b t tl htl hne
    obtain ⟨hw1, _, hb1, _, htasks, _, _, hpe1⟩ := hw.add_bucket t hadd
    have hbr1 : ∀ x ∈ L ++ [(h.nextAddr, t)], (h1.tasks x.2).entry_ = some x.1 := by
      intro x hx
      rw [htasks]
      rcases List.mem_append.1 hx with hx | hx
      · have hxt : x.2 ≠ t := by
          intro hh
          exact hnew t (by simp) (hh ▸ List.mem_map_of_mem _ hx)
        rw [Function.update_noteq hxt]
        exact hbr x hx
      · simp only [List.mem_singleton] at hx
        subst hx
        simp
    have hnew1 : ∀ t' ∈ ts, t' ∉ (L ++ [(h.nextAddr, t)]).map Prod.snd := by
      intro t' ht' hm
      simp only [List.map_append, List.map_cons, List.map_nil, List.mem_append,
        List.mem_singleton] at hm
      rcases hm with hm | hm
      · exact hnew t' (List.mem_cons_of_mem _ ht') hm
      · exact hd'.1 (hm ▸ ht')
    obtain ⟨h2, b2, L2, hall, hw2, hts, hpe2, hbr2⟩ :=
      ih hd'.2 h1 _ (L ++ [(h.nextAddr, t)]) hw1 (hpe1 hpe)
        (by simp [lastCell_append]) hbr1 hnew1
    refine ⟨h2, b2, (h.nextAddr, t) :: L2, ?_, ?_, ?_, ?_, ?_⟩
    · simp only [addAll, hadd]
      exact hall
    · simpa using hw2
    · simp [hts]
    · simpa using hpe2
    · simpa using hbr2

theorem visited_eq {h : Heap} {b : TTimerTaskList} {L : List (Nat × Nat)} (hw : BWF h b L)
    (fuel : Nat) :
    b.visited fuel h =
      if L.length ≤ fuel then .ok (h, L.map Prod.snd) else .error .outOfFuel := by
  obtain ⟨r, hr, hseg⟩ := hw.seg_bucket
  unfold TTimerTaskList.visited TTimerTaskList.ForEach
  simp only [hr]
  rw [forEachLoop_eq (fun s : Heap × List Nat => s.1.entries) _ (fun t s => (s.1, s.2 ++ [t]))
    (fun _ _ => rfl) (fun _ _ => rfl) hseg fuel]
  have key : ∀ (L : List (Nat × Nat)) (acc : List Nat),
      L.foldl (fun (s : Heap × List Nat) x => (s.1, s.2 ++ [x.2])) (h, acc)
        = (h, acc ++ L.map Prod.snd) := by
    intro L
    induction L with
    | nil => intro acc; simp
    | cons x L ih => intro acc; simp [ih]
  rw [key]
  simp


/-! ### Bucket: successful removal -/

/-- C10. Bucket remove success: on a bucket built from a fresh one by `Add` of the distinct
tasks `ts`, `Remove(t)` for any `t` among them returns true, nulls the back-reference of `t`,
leaves `GetCount()` at `n - 1`, and a following `ForEach` (given fuel for `n - 1` entries)
visits exactly the other tasks, once each, in insertion order. -/
theorem TTimerTaskList.remove_success (h : Heap) (ts : List Nat) (hd : ts.Nodup) (t : Nat)
    (ht : t ∈ ts) :
    ∃ h1 b1 h2 b2, addAll ts (TTimerTaskList.new h) = .ok (h1, b1) ∧
      b1.GetCount = ts.length ∧
      b1.Remove h1 t = .ok (true, h2, b2) ∧
      (h2.tasks t).entry_ = none ∧
      b2.GetCount = (ts.length : Int) - 1 ∧
      ∀ fuel, ts.length - 1 ≤ fuel → b2.visited fuel h2 = .ok (h2, ts.erase t) := by
  obtain ⟨h1, b1, L, hall, hw, hts, hpe, hbr⟩ :=
    addAll_spec ts hd (TTimerTaskList.new h).1 (TTimerTaskList.new h).2 [] (BWF.new h)
      trivial rfl (by simp) (by simp)
  simp only [List.nil_append] at hw hpe hbr
  have htm : t ∈ L.map Prod.snd := hts ▸ ht
  obtain ⟨x, hx, hxt⟩ := List.mem_map.1 htm
  have hbx := hbr x hx
  rw [hxt] at hbx
  obtain ⟨h2, b2, hrem⟩ := hw.remove_ok hpe t x.1 hbx (List.mem_map_of_mem _ hx)
  have hown : ∀ a e, (h1.tasks t).entry_ = some a → h1.entries a = some e →
      e.list = some b1.this → a ∈ L.map Prod.fst := by
    intro a e ha _ _
    rw [hbx] at ha
    cases ha
    exact List.mem_map_of_mem _ hx
  rcases hw.remove_bucket t hown hrem with ⟨hf, _⟩ | ⟨_, La, e, t1, Lb, hL, hbe, hw2, hb2, _, htasks, _⟩
  · cases hf
  · rw [hbx] at hbe
    cases hbe
    -- the removed entry is the entry of `t`
    have ht1 : t1 = t := by
      have hnd := (List.nodup_cons.1 hw.nodup).2
      have h1' : (x.1, t1) ∈ L := by rw [hL]; simp
      have := List.inj_on_of_nodup_map hnd h1' hx rfl
      rw [← hxt, ← this]
    subst ht1
    have hts' : ts = La.map Prod.snd ++ t1 :: Lb.map Prod.snd := by
      rw [← hts, hL]; simp
    have hnotin : t1 ∉ La.map Prod.snd := by
      rw [hts'] at hd
      intro hm
      exact (List.nodup_append.1 hd).2.2 hm (by simp)
    refine ⟨h1, b1, h2, b2, by simpa using hall, ?_, hrem, ?_, ?_, ?_⟩
    · show b1.counter_ = _
      rw [hw.count, ← hts]; simp
    · rw [htasks]; simp
    · show b2.counter_ = _
      rw [hw2.count, hts']
      simp
      omega
    · intro fuel hf
      rw [visited_eq hw2 fuel, hts', List.erase_append_right _ hnotin, List.erase_cons_head]
      have : La.length + Lb.length ≤ fuel := by
        rw [hts'] at hf
        simp at hf
        omega
      simp [this]

/-- C10 at a concrete input: tasks `4, 7, 9` are added to a fresh bucket and `7` removed. -/
theorem TTimerTaskList.remove_success_witness :
    ∃ h1 b1 h2 b2, addAll [4, 7, 9] (TTimerTaskList.new (Heap.init (tasksOf []))) = .ok (h1, b1) ∧
      b1.GetCount = ([4, 7, 9] : List Nat).length ∧
      b1.Remove h1 7 = .ok (true, h2, b2) ∧
      (h2.tasks 7).entry_ = none ∧
      b2.GetCount = (([4, 7, 9] : List Nat).length : Int) - 1 ∧
      ∀ fuel, ([4, 7, 9] : List Nat).length - 1 ≤ fuel →
        b2.visited fuel h2 = .ok (h2, ([4, 7, 9] : List Nat).erase 7) :=
  TTimerTaskList.remove_success (Heap.init (tasksOf [])) [4, 7, 9] (by decide) 7 (by decide)

/-! ### Worlds: the heap invariant and the root's placement invariant are preserved -/

theorem BWF.frame_bucket {h h1 : Heap} {b : TTimerTaskList} {L : List (Nat × Nat)} (hw : BWF h b L)
    (hsame : ∀ a ∈ cells b L, h1.entries a = h.entries a)
    (hdead : ∀ q, Dead h q → Dead h1 q) (hmono : h.nextAddr ≤ h1.nextAddr) : BWF h1 b L := by
  refine ⟨hw.chain.frame_chain hsame hdead, hw.nodup, ?_, ?_, ?_, hw.count, ?_⟩
  · intro x hx
    obtain ⟨e, he, hl, ht⟩ := hw.owned x hx
    exact ⟨e, (hsame x.1 (List.mem_cons_of_mem _ (List.mem_map_of_mem _ hx))).trans he, hl, ht⟩
  · obtain ⟨r, hr, hl⟩ := hw.sentinel
    exact ⟨r, (hsame _ (List.mem_cons_self _ _)).trans hr, hl⟩
  · rcases hw.tail with ht | ht
    · exact Or.inl ht
    · exact Or.inr (hdead _ ht)
  · intro a ha
    exact Nat.lt_of_lt_of_le (hw.bound a ha) hmono

theorem BWF.live_bucket {h : Heap} {b : TTimerTaskList} {L : List (Nat × Nat)} (hw : BWF h b L) :
    ∀ a ∈ cells b L, ∃ e, h.entries a = some e := hw.chain.live_cells

theorem World.bucket?_store {w : World} {k j : Nat} {wh : TTimingWheel} {b0 : TTimerTaskList}
    (hk : w.wheels[k]? = some wh) (hj : wh.buckets_[j]? = some b0)
    (h1 : Heap) (b1 : TTimerTaskList) (c : Int) (k1 j1 : Nat) :
    (w.store k j wh h1 b1 c).bucket? k1 j1 =
      if k1 = k ∧ j1 = j then some b1 else w.bucket? k1 j1 := by
  have hkl : k < w.wheels.length := (List.getElem?_eq_some.1 hk).1
  have hjl : j < wh.buckets_.length := (List.getElem?_eq_some.1 hj).1
  unfold World.bucket? World.store
  by_cases hk1 : k1 = k
  · subst hk1
    simp only [List.getElem?_set, if_true, hkl, true_and, hk]
    by_cases hj1 : j1 = j
    · subst hj1
      simp [hjl]
    · simp only [hj1, if_false]
      rw [if_neg (Ne.symm hj1)]
  · simp [hk1, List.getElem?_set_ne (Ne.symm hk1)]

theorem World.bucket?_of {w : World} {k j : Nat} {wh : TTimingWheel} {b : TTimerTaskList}
    (hk : w.wheels[k]? = some wh) (hj : wh.buckets_[j]? = some b) :
    w.bucket? k j = some b := by
  simp [World.bucket?, hk, hj]

/-- Different buckets of a well-formed world share no cell. -/
theorem WWF.disjoint {w : World} {ch : Nat → List (Nat × Nat)} (hw : WWF w ch)
    {k j k1 j1 : Nat} {b b1 : TTimerTaskList} (hb : w.bucket? k j = some b)
    (hb1 : w.bucket? k1 j1 = some b1) (hne : ¬ (k1 = k ∧ j1 = j))
    {a : Nat} (ha : a ∈ cells b (ch b.this)) : a ∉ cells b1 (ch b1.this) := by
  intro ha1
  have hB := hw.bwf k j b hb
  have hB1 := hw.bwf k1 j1 b1 hb1
  apply hne
  rcases List.mem_cons.1 ha with h' | h'
  · rcases List.mem_cons.1 ha1 with h1' | h1'
    · exact (hw.inj k1 j1 b1 k j b hb1 hb (Or.inr (h1'.symm.trans h'))).imp id id
    · obtain ⟨x, hx, hxa⟩ := List.mem_map.1 h1'
      obtain ⟨e, he, hl, _⟩ := hB1.owned x hx
      obtain ⟨r, hr, hrl⟩ := hB.sentinel
      rw [hxa, h', hr] at he
      cases he
      rw [hrl] at hl
      cases hl
  · obtain ⟨x, hx, hxa⟩ := List.mem_map.1 h'
    obtain ⟨e, he, hl, _⟩ := hB.owned x hx
    rcases List.mem_cons.1 ha1 with h1' | h1'
    · obtain ⟨r, hr, hrl⟩ := hB1.sentinel
      rw [hxa, h1', hr] at he
      cases he
      rw [hrl] at hl
      cases hl
    · obtain ⟨y, hy, hya⟩ := List.mem_map.1 h1'
      obtain ⟨e1, he1, hl1, _⟩ := hB1.owned y hy
      rw [hxa] at he
      rw [hya, he] at he1
      cases he1
      rw [hl] at hl1
      exact hw.inj k1 j1 b1 k j b hb1 hb (Or.inl (Option.some.inj hl1).symm)

/-- Replacing one bucket by a well-formed successor that touched only its own cells and
fresh storage keeps the world well formed. -/
theorem WWF.store_wwf {w : World} {ch : Nat → List (Nat × Nat)} (hw : WWF w ch)
    {k j : Nat} {wh : TTimingWheel} {b : TTimerTaskList}
    (hk : w.wheels[k]? = some wh) (hj : wh.buckets_[j]? = some b)
    {h1 : Heap} {b1 : TTimerTaskList} {L1 : List (Nat × Nat)} (c : Int)
    (hthis : b1.this = b.this) (hroot : b1.root_ = b.root_)
    (hb1 : BWF h1 b1 L1) (hmono : w.heap.nextAddr ≤ h1.nextAddr)
    (hframe : ∀ x, x < w.heap.nextAddr → x ∉ cells b (ch b.this) →
      h1.entries x = w.heap.entries x)
    (hlive : ∀ a e, h1.entries a = some e →
      a ∈ cells b1 L1 ∨ (a < w.heap.nextAddr ∧ a ∉ cells b (ch b.this))) :
    WWF (w.store k j wh h1 b1 c) (Function.update ch b.this L1) := by
  have hb := World.bucket?_of hk hj
  have hbs := World.bucket?_store hk hj h1 b1 c
  have hother : ∀ k1 j1 b2, ¬ (k1 = k ∧ j1 = j) → w.bucket? k1 j1 = some b2 →
      b2.this ≠ b.this := by
    intro k1 j1 b2 hne hb2 heq
    exact hne (hw.inj k1 j1 b2 k j b hb2 hb (Or.inl heq))
  refine ⟨?_, ?_, ?_, ?_, ?_⟩
  · intro k1 j1 b2 hb2
    rw [hbs] at hb2
    by_cases hp : k1 = k ∧ j1 = j
    · simp only [hp, and_self, if_true] at hb2
      cases hb2
      rw [hthis, Function.update_same]
      exact hb1
    · simp only [hp, if_false] at hb2
      rw [Function.update_noteq (hother k1 j1 b2 hp hb2)]
      have hB2 := hw.bwf k1 j1 b2 hb2
      have hdisj : ∀ a ∈ cells b2 (ch b2.this), a ∉ cells b (ch b.this) := by
        intro a ha ha'
        exact hw.disjoint hb hb2 hp ha' ha
      show BWF h1 b2 (ch b2.this)
      refine hB2.frame_bucket ?_ ?_ hmono
      · intro a ha
        exact hframe a (hB2.bound a ha) (hdisj a ha)
      · intro q ⟨hq1, hq2⟩
        refine ⟨?_, Nat.lt_of_lt_of_le hq2 hmono⟩
        rw [hframe q hq2 ?_]
        · exact hq1
        · intro hm
          obtain ⟨e, he⟩ := (hw.bwf k j b hb).live_bucket q hm
          rw [hq1] at he
          cases he
  · intro k1 j1 b2 hb2
    rw [hbs] at hb2
    by_cases hp : k1 = k ∧ j1 = j
    · simp only [hp, and_self, if_true] at hb2
      cases hb2
      rw [hthis]
      exact Nat.lt_of_lt_of_le (hw.thisLt k j b hb) hmono
    · simp only [hp, if_false] at hb2
      exact Nat.lt_of_lt_of_le (hw.thisLt k1 j1 b2 hb2) hmono
  · intro k1 j1 b2 k2 j2 b3 hb2 hb3 heq
    rw [hbs] at hb2 hb3
    have key : ∀ k1 j1 b2, (if k1 = k ∧ j1 = j then some b1 else w.bucket? k1 j1) = some b2 →
        ∃ b2', w.bucket? k1 j1 = some b2' ∧ b2'.this = b2.this ∧ b2'.root_ = b2.root_ := by
      intro k1 j1 b2 hb2
      by_cases hp : k1 = k ∧ j1 = j
      · simp only [hp, and_self, if_true] at hb2
        cases hb2
        exact ⟨b, by rw [hp.1, hp.2]; exact hb, hthis.symm, hroot.symm⟩
      · simp only [hp, if_false] at hb2
        exact ⟨b2, hb2, rfl, rfl⟩
    obtain ⟨b2', hb2', ht2, hr2⟩ := key k1 j1 b2 hb2
    obtain ⟨b3', hb3', ht3, hr3⟩ := key k2 j2 b3 hb3
    exact hw.inj k1 j1 b2' k2 j2 b3' hb2' hb3' (by rw [ht2, ht3, hr2, hr3]; exact heq)
  · intro a e hae
    rcases hlive a e hae with h' | ⟨hlt, hnm⟩
    · refine ⟨k, j, b1, by rw [hbs]; simp, ?_⟩
      rw [hthis, Function.update_same]
      exact h'
    · have hae' : w.heap.entries a = some e := by rw [← hframe a hlt hnm]; exact hae
      obtain ⟨k1, j1, b2, hb2, hm⟩ := hw.live a e hae'
      have hp : ¬ (k1 = k ∧ j1 = j) := by
        rintro ⟨rfl, rfl⟩
        rw [hb] at hb2
        cases hb2
        exact hnm hm
      refine ⟨k1, j1, b2, by rw [hbs]; simp [hp]; exact hb2, ?_⟩
      rw [Function.update_noteq (hother k1 j1 b2 hp hb2)]
      exact hm
  · intro x hx
    have hx' : w.heap.nextAddr ≤ x := Nat.le_trans hmono hx
    have : x ≠ b.this := by
      have := hw.thisLt k j b hb
      omega
    rw [Function.update_noteq this]
    exact hw.fresh x hx'

theorem GetCountFrom_set (l : List TTimingWheel) (k : Nat) (wh wh1 : TTimingWheel)
    (hk : l[k]? = some wh) :
    GetCountFrom (l.set k wh1) = GetCountFrom l + (wh1.taskCounter_ - wh.taskCounter_) := by
  induction l generalizing k with
  | nil => simp at hk
  | cons x l ih =>
    cases k with
    | zero =>
      simp only [List.getElem?_cons_zero, Option.some.injEq] at hk
      subst hk
      simp only [List.set_cons_zero, GetCountFrom]
      omega
    | succ k =>
      simp only [List.getElem?_cons_succ] at hk
      simp only [List.set_cons_succ, GetCountFrom, ih k hk]
      omega

theorem GetCountFrom_append (l : List TTimingWheel) (wh : TTimingWheel) :
    GetCountFrom (l ++ [wh]) = GetCountFrom l + wh.taskCounter_ := by
  induction l with
  | nil => simp [GetCountFrom]
  | cons x l ih =>
    rw [List.cons_append, GetCountFrom, ih, GetCountFrom]
    omega

theorem World.GetCount_store {w : World} {k : Nat} {wh : TTimingWheel}
    (hk : w.wheels[k]? = some wh) (j : Nat) (h1 : Heap) (b1 : TTimerTaskList) (c : Int) :
    (w.store k j wh h1 b1 c).GetCount = w.GetCount + (c - wh.taskCounter_) := by
  unfold World.GetCount World.store
  rw [GetCountFrom_set _ _ _ _ hk]

theorem Stat.refl_stat (w : World) : Stat w w :=
  ⟨fun _ wh hk => ⟨wh, hk, rfl, rfl, rfl, rfl⟩, fun _ => rfl⟩

theorem Stat.trans_stat {w w1 w2 : World} (h1 : Stat w w1) (h2 : Stat w1 w2) : Stat w w2 := by
  refine ⟨?_, fun t => (h2.deadline t).trans (h1.deadline t)⟩
  intro k wh hk
  obtain ⟨wh1, hk1, a1, a2, a3, a4⟩ := h1.levels k wh hk
  obtain ⟨wh2, hk2, b1, b2, b3, b4⟩ := h2.levels k wh1 hk1
  exact ⟨wh2, hk2, b1.trans a1, b2.trans a2, b3.trans a3, b4.trans a4⟩

theorem Ext.refl_ext (w : World) (ch : Nat → List (Nat × Nat)) : Ext w ch w ch :=
  ⟨Stat.refl_stat w, fun _ _ _ h1 h2 => by rw [h1] at h2; cases h2; rfl,
   fun _ _ b hb => ⟨b, hb, rfl, rfl⟩, fun _ => ⟨[], by simp⟩, rfl⟩

theorem Ext.trans_ext {w w1 w2 : World} {ch ch1 ch2 : Nat → List (Nat × Nat)}
    (h1 : Ext w ch w1 ch1) (h2 : Ext w1 ch1 w2 ch2) : Ext w ch w2 ch2 := by
  refine ⟨h1.stat.trans_stat h2.stat, ?_, ?_, ?_, h2.fired.trans h1.fired⟩
  · intro k wh wh2 hk hk2
    obtain ⟨wh1, hk1, _⟩ := h1.stat.levels k wh hk
    exact (h2.time k wh1 wh2 hk1 hk2).trans (h1.time k wh wh1 hk hk1)
  · intro k j b hb
    obtain ⟨b1, hb1, a1, a2⟩ := h1.buckets k j b hb
    obtain ⟨b2, hb2, c1, c2⟩ := h2.buckets k j b1 hb1
    exact ⟨b2, hb2, c1.trans a1, c2.trans a2⟩
  · intro x
    obtain ⟨S1, hS1⟩ := h1.chains x
    obtain ⟨S2, hS2⟩ := h2.chains x
    exact ⟨S1 ++ S2, by rw [hS2, hS1, List.append_assoc]⟩

theorem emod_mul_ediv (s t n : Int) (ht : 0 < t) (hn : 0 < n) : s % (t * n) / t = s / t % n := by
  have h1 : s % t + t * (s / t) = s := Int.emod_add_ediv s t
  have h2 : (s / t) % n + n * (s / t / n) = s / t := Int.emod_add_ediv (s / t) n
  have hr0 : 0 ≤ s % t := Int.emod_nonneg s (ne_of_gt ht)
  have hr1 : s % t < t := Int.emod_lt_of_pos s ht
  have hb0 : 0 ≤ (s / t) % n := Int.emod_nonneg _ (ne_of_gt hn)
  have hb1 : (s / t) % n < n := Int.emod_lt_of_pos _ hn
  have htn : 0 < t * n := Int.mul_pos ht hn
  have hlt : t * ((s / t) % n) + s % t < t * n := by
    have : t * ((s / t) % n) ≤ t * (n - 1) :=
      Int.mul_le_mul_of_nonneg_left (by omega) (le_of_lt ht)
    have h3 : t * (n - 1) = t * n - t := by ring
    omega
  have hge : 0 ≤ t * ((s / t) % n) + s % t :=
    Int.add_nonneg (Int.mul_nonneg (le_of_lt ht) hb0) hr0
  have hmod : s % (t * n) = t * ((s / t) % n) + s % t := by
    have := (Int.ediv_emod_unique (a := s) (b := t * n) (r := t * ((s / t) % n) + s % t)
      (q := s / t / n) htn).2 ⟨?_, hge, hlt⟩
    · exact this.2
    · have h4 : t * n * (s / t / n) = t * (n * (s / t / n)) := by ring
      have h5 : t * (s / t) = t * ((s / t) % n) + t * (n * (s / t / n)) := by
        rw [← Int.mul_add, h2]
      omega
  rw [hmod]
  exact ((Int.ediv_emod_unique (a := t * ((s / t) % n) + s % t) (b := t) (r := s % t)
    (q := (s / t) % n) ht).2 ⟨by omega, hr0, hr1⟩).1

/-- On a good level the subscript of `Add` and `AdvanceClock` is in range for every
non-negative time, and equals `(s / tickMs_) % wheelSize`. -/
theorem RootGood.slotOf {wh : TTimingWheel} (hg : RootGood wh) {s : Int} (hs : 0 ≤ s) :
    wh.slotOf s = .ok ((s / wh.tickMs_) % (wh.buckets_.length : Int)).toNat := by
  have ht := hg.tick_pos
  have hn : (0 : Int) < wh.buckets_.length := by exact_mod_cast hg.size_pos
  have hI : 0 < wh.interval_ := by rw [hg.interval_eq]; exact Int.mul_pos ht hn
  have h1 : s.tmod wh.interval_ = s % wh.interval_ := Int.tmod_eq_emod hs (le_of_lt hI)
  have h2 : 0 ≤ s % wh.interval_ := Int.emod_nonneg _ (ne_of_gt hI)
  have h3 : (s % wh.interval_).tdiv wh.tickMs_ = s % wh.interval_ / wh.tickMs_ :=
    Int.tdiv_eq_ediv h2 (le_of_lt ht)
  have h4 : s % wh.interval_ / wh.tickMs_ = s / wh.tickMs_ % (wh.buckets_.length : Int) := by
    rw [hg.interval_eq]; exact emod_mul_ediv s _ _ ht hn
  have h5 : 0 ≤ s / wh.tickMs_ % (wh.buckets_.length : Int) := Int.emod_nonneg _ (ne_of_gt hn)
  have h6 : s / wh.tickMs_ % (wh.buckets_.length : Int) < wh.buckets_.length :=
    Int.emod_lt_of_pos _ hn
  unfold TTimingWheel.slotOf TTimingWheel.bucketIndex
  rw [if_neg (ne_of_gt hI), if_neg (ne_of_gt ht), h1, h3, h4, if_pos ⟨h5, h6⟩]

/-- Rounding a time down to its tick does not change the bucket. -/
theorem RootGood.slotOf_floor {wh : TTimingWheel} (hg : RootGood wh) {t : Int} (ht : 0 ≤ t) :
    wh.slotOf (t - t % wh.tickMs_) = wh.slotOf t := by
  have hp := hg.tick_pos
  have h0 : 0 ≤ t % wh.tickMs_ := Int.emod_nonneg _ (ne_of_gt hp)
  have h1 : t % wh.tickMs_ + wh.tickMs_ * (t / wh.tickMs_) = t := Int.emod_add_ediv t _
  have hnn : 0 ≤ t / wh.tickMs_ := Int.ediv_nonneg ht (le_of_lt hp)
  have h2 : 0 ≤ t - t % wh.tickMs_ := by
    have := Int.mul_nonneg (le_of_lt hp) hnn
    omega
  rw [hg.slotOf h2, hg.slotOf ht]
  have : (t - t % wh.tickMs_) / wh.tickMs_ = t / wh.tickMs_ := by
    have h3 : t - t % wh.tickMs_ = wh.tickMs_ * (t / wh.tickMs_) := by omega
    rw [h3, Int.mul_ediv_cancel_left _ (ne_of_gt hp)]
  rw [this]

theorem World.wheels_store {w : World} {k : Nat} {wh : TTimingWheel}
    (hk : w.wheels[k]? = some wh) (j : Nat) (h1 : Heap) (b1 : TTimerTaskList) (c : Int)
    (k1 : Nat) :
    (w.store k j wh h1 b1 c).wheels[k1]? =
      if k1 = k then some { wh with buckets_ := wh.buckets_.set j b1, taskCounter_ := c }
      else w.wheels[k1]? := by
  have hkl : k < w.wheels.length := (List.getElem?_eq_some.1 hk).1
  unfold World.store
  by_cases hk1 : k1 = k
  · subst hk1
    simp [List.getElem?_set, hkl]
  · simp [hk1, List.getElem?_set_ne (Ne.symm hk1)]

theorem Stat.store_stat {w : World} {k : Nat} {wh : TTimingWheel}
    (hk : w.wheels[k]? = some wh) (j : Nat) (h1 : Heap) (b1 : TTimerTaskList) (c : Int)
    (hd : ∀ t, (h1.tasks t).expiration_ = (w.heap.tasks t).expiration_) :
    Stat w (w.store k j wh h1 b1 c) := by
  refine ⟨?_, hd⟩
  intro k1 wh1 hk1
  rw [World.wheels_store hk]
  by_cases hkk : k1 = k
  · subst hkk
    rw [hk] at hk1
    cases hk1
    exact ⟨{ wh with buckets_ := wh.buckets_.set j b1, taskCounter_ := c }, by simp, rfl, rfl,
      rfl, by simp⟩
  · exact ⟨wh1, by simp [hkk, hk1], rfl, rfl, rfl, rfl⟩

/-- `RootGood` only looks at the parameters and the clock. -/
theorem RootGood.congr {wh wh1 : TTimingWheel} (hg : RootGood wh)
    (h1 : wh1.tickMs_ = wh.tickMs_) (h2 : wh1.interval_ = wh.interval_)
    (h3 : wh1.buckets_.length = wh.buckets_.length)
    (h4 : wh1.currentTime_ = wh.currentTime_) : RootGood wh1 :=
  ⟨by rw [h1]; exact hg.tick_pos, by rw [h3]; exact hg.size_pos,
   by rw [h1, h2, h3]; exact hg.interval_eq, by rw [h4]; exact hg.time_nonneg,
   by rw [h1, h4]; exact hg.time_aligned⟩

theorem TTimingWheel.slotOf_congr (wh wh1 : TTimingWheel)
    (h1 : wh1.tickMs_ = wh.tickMs_) (h2 : wh1.interval_ = wh.interval_)
    (h3 : wh1.buckets_.length = wh.buckets_.length) (s : Int) :
    wh1.slotOf s = wh.slotOf s := by
  unfold TTimingWheel.slotOf TTimingWheel.bucketIndex
  rw [h1, h2, h3]

theorem TTimingWheel.slotOf_set (wh : TTimingWheel) (j : Nat) (b : TTimerTaskList) (c s : Int) :
    ({ wh with buckets_ := wh.buckets_.set j b, taskCounter_ := c } : TTimingWheel).slotOf s
      = wh.slotOf s :=
  TTimingWheel.slotOf_congr wh { wh with buckets_ := wh.buckets_.set j b, taskCounter_ := c }
    rfl rfl (List.length_set _ _ _) s

/-- A successful bucket `Add` in bucket `j` of level `k`, stored back with the level's
counter incremented: the invariants survive, the world is extended by one entry. -/
theorem Inv1.place_level {w : World} {ch : Nat → List (Nat × Nat)} (hi : Inv1 w ch)
    {k j : Nat} {wh : TTimingWheel} {b : TTimerTaskList} {t : Nat}
    (hk : w.wheels[k]? = some wh) (hj : wh.buckets_[j]? = some b)
    {r : Heap × TTimerTaskList} (hadd : b.Add w.heap t = .ok r)
    (hroot : k = 0 → RootGood wh → ∃ s, wh.currentTime_ ≤ s ∧
      s < wh.currentTime_ + wh.interval_ ∧ wh.tickMs_ ∣ s ∧ wh.slotOf s = .ok j ∧
      w.deadline t < s + wh.tickMs_) :
    Inv1 (w.store k j wh r.1 r.2 (wh.taskCounter_ + 1))
        (Function.update ch b.this (ch b.this ++ [(w.heap.nextAddr, t)])) ∧
      Ext w ch (w.store k j wh r.1 r.2 (wh.taskCounter_ + 1))
        (Function.update ch b.this (ch b.this ++ [(w.heap.nextAddr, t)])) ∧
      (w.store k j wh r.1 r.2 (wh.taskCounter_ + 1)).GetCount = w.GetCount + 1 := by
  obtain ⟨h1, b1⟩ := r
  have hb := World.bucket?_of hk hj
  have hB := hi.wwf.bwf k j b hb
  obtain ⟨hB1, htail, hb1, hnext, htasks, hsame, _, _⟩ := hB.add_bucket t hadd
  have hdl : ∀ t', (h1.tasks t').expiration_ = (w.heap.tasks t').expiration_ := by
    intro t'
    rw [htasks]
    by_cases ht : t' = t
    · subst ht; simp
    · rw [Function.update_noteq ht]
  have htm : b.tail_ ∈ cells b (ch b.this) := by
    rw [htail]; exact lastCell_mem _ _
  have hW : WWF (w.store k j wh h1 b1 (wh.taskCounter_ + 1))
      (Function.update ch b.this (ch b.this ++ [(w.heap.nextAddr, t)])) := by
    refine hi.wwf.store_wwf hk hj _ (by rw [hb1]) (by rw [hb1]) hB1 (by omega) ?_ ?_
    · intro x hx hxm
      exact hsame x (Nat.ne_of_lt hx) (fun hh => hxm (hh ▸ htm))
    · intro a e hae
      by_cases ha : a ∈ cells b1 (ch b.this ++ [(w.heap.nextAddr, t)])
      · exact Or.inl ha
      · right
        have hane : a ≠ w.heap.nextAddr := by
          intro hh; apply ha; rw [hh]; simp [cells]
        have hanm : a ∉ cells b (ch b.this) := by
          intro hm
          apply ha
          rw [hb1]
          simp only [cells, List.map_append, List.mem_cons, List.mem_append] at hm ⊢
          rcases hm with hm | hm
          · exact Or.inl hm
          · exact Or.inr (Or.inl hm)
        have hat : a ≠ b.tail_ := fun hh => hanm (hh ▸ htm)
        rw [hsame a hane hat] at hae
        obtain ⟨k1, j1, b2, hb2, hm⟩ := hi.wwf.live a e hae
        exact ⟨(hi.wwf.bwf k1 j1 b2 hb2).bound a hm, hanm⟩
  have hS : Stat w (w.store k j wh h1 b1 (wh.taskCounter_ + 1)) := Stat.store_stat hk j h1 b1 _ hdl
  have hbk := World.bucket?_store hk hj h1 b1 (wh.taskCounter_ + 1)
  have hwk := World.wheels_store hk j h1 b1 (wh.taskCounter_ + 1)
  refine ⟨⟨hW, ?_⟩, ⟨hS, ?_, ?_, ?_, rfl⟩, ?_⟩
  · -- the root's placement invariant
    intro wh0 hwh0 hg0 j1 b2 hb2 x hx
    rw [hwk] at hwh0
    by_cases hk0 : 0 = k
    · subst hk0
      simp only [if_true, Option.some.injEq] at hwh0
      subst hwh0
      have hg : RootGood wh := hg0.congr rfl rfl (List.length_set _ _ _).symm rfl
      simp only at hb2
      by_cases hjj : j1 = j
      · subst hjj
        rw [List.getElem?_set_self (List.getElem?_eq_some.1 hj).1] at hb2
        cases hb2
        rw [hb1] at hx
        simp only [Function.update_same, List.mem_append, List.mem_singleton] at hx
        rcases hx with hx | hx
        · obtain ⟨s, a1, a2, a3, a4, a5⟩ := hi.rootTime wh hk hg j1 b hj x hx
          refine ⟨s, a1, a2, a3, ?_, ?_⟩
          · rw [TTimingWheel.slotOf_set]; exact a4
          · rw [hS.deadline]; exact a5
        · subst hx
          obtain ⟨s, a1, a2, a3, a4, a5⟩ := hroot rfl hg
          refine ⟨s, a1, a2, a3, ?_, ?_⟩
          · rw [TTimingWheel.slotOf_set]; exact a4
          · rw [hS.deadline]; exact a5
      · rw [List.getElem?_set_ne (Ne.symm hjj)] at hb2
        have hne : b2.this ≠ b.this := by
          intro heq
          exact hjj (hi.wwf.inj 0 j1 b2 0 j b (World.bucket?_of hk hb2) hb (Or.inl heq)).2
        rw [Function.update_noteq hne] at hx
        obtain ⟨s, a1, a2, a3, a4, a5⟩ := hi.rootTime wh hk hg j1 b2 hb2 x hx
        refine ⟨s, a1, a2, a3, ?_, ?_⟩
        · rw [TTimingWheel.slotOf_set]; exact a4
        · rw [hS.deadline]; exact a5
    · simp only [hk0, if_false] at hwh0
      have hne : b2.this ≠ b.this := by
        intro heq
        exact hk0 (hi.wwf.inj 0 j1 b2 k j b (World.bucket?_of hwh0 hb2) hb (Or.inl heq)).1
      rw [Function.update_noteq hne] at hx
      obtain ⟨s, a1, a2, a3, a4, a5⟩ := hi.rootTime wh0 hwh0 hg0 j1 b2 hb2 x hx
      exact ⟨s, a1, a2, a3, a4, by rw [hS.deadline]; exact a5⟩
  · intro k1 wh1 wh2 hk1 hk2
    rw [hwk] at hk2
    by_cases hkk : k1 = k
    · subst hkk
      rw [hk] at hk1
      cases hk1
      simp only [if_true, Option.some.injEq] at hk2
      rw [← hk2]
    · simp only [hkk, if_false] at hk2
      rw [hk1] at hk2
      cases hk2
      rfl
  · intro k1 j1 b2 hb2
    rw [hbk]
    by_cases hp : k1 = k ∧ j1 = j
    · obtain ⟨rfl, rfl⟩ := hp
      rw [hb] at hb2
      cases hb2
      exact ⟨b1, by simp, by rw [hb1], by rw [hb1]⟩
    · exact ⟨b2, by simp [hp, hb2], rfl, rfl⟩
  · intro x
    by_cases hx : x = b.this
    · subst hx
      exact ⟨[(w.heap.nextAddr, t)], by simp⟩
    · exact ⟨[], by simp [Function.update_noteq hx]⟩
  · rw [World.GetCount_store hk]
    omega

/-- What the constructor's bucket loop allocates: `n` fresh buckets, each with its sentinel,
on addresses from `nextAddr` on. -/
theorem newBuckets_spec (n : Nat) (h : Heap) :
    (newBuckets n h).1.nextAddr = h.nextAddr + 2 * n ∧
    (newBuckets n h).1.tasks = h.tasks ∧
    (newBuckets n h).2.length = n ∧
    (∀ (i : Nat) (b : TTimerTaskList), (newBuckets n h).2[i]? = some b →
      b = ({ this := h.nextAddr + 2 * i, root_ := h.nextAddr + 2 * i + 1,
             tail_ := h.nextAddr + 2 * i + 1, counter_ := 0 } : TTimerTaskList)) ∧
    (∀ x, x < h.nextAddr → (newBuckets n h).1.entries x = h.entries x) ∧
    (∀ i, i < n → (newBuckets n h).1.entries (h.nextAddr + 2 * i + 1) =
      some { list := none, prev := none, next := none, timerTask := none, expiration := -1 }) ∧
    (∀ x e, (newBuckets n h).1.entries x = some e →
      h.entries x = some e ∨ ∃ i, i < n ∧ x = h.nextAddr + 2 * i + 1) := by
  induction n generalizing h with
  | zero =>
    refine ⟨rfl, rfl, rfl, ?_, fun _ _ => rfl, ?_, fun _ _ he => Or.inl he⟩
    · intro i b hb; simp [newBuckets] at hb
    · intro i hi; omega
  | succ n ih =>
    obtain ⟨a1, a2, a3, a4, a5, a6, a7⟩ := ih (TTimerTaskList.new h).1
    have hN : (TTimerTaskList.new h).1.nextAddr = h.nextAddr + 2 := rfl
    have hE : ∀ x, x ≠ h.nextAddr + 1 → (TTimerTaskList.new h).1.entries x = h.entries x := by
      intro x hx
      simp [TTimerTaskList.new, Function.update_noteq hx]
    have hE1 : (TTimerTaskList.new h).1.entries (h.nextAddr + 1) =
        some { list := none, prev := none, next := none, timerTask := none, expiration := -1 } := by
      simp [TTimerTaskList.new]
    simp only [newBuckets]
    refine ⟨by rw [a1, hN]; omega, by rw [a2]; rfl, by simp [a3], ?_, ?_, ?_, ?_⟩
    · intro i b hb
      cases i with
      | zero =>
        simp only [List.getElem?_cons_zero, Option.some.injEq] at hb
        rw [← hb]; rfl
      | succ i =>
        simp only [List.getElem?_cons_succ] at hb
        rw [a4 i b hb, hN]
        have e1 : h.nextAddr + 2 + 2 * i = h.nextAddr + 2 * (i + 1) := by omega
        rw [e1]
    · intro x hx
      rw [a5 x (by rw [hN]; omega), hE x (by omega)]
    · intro i hi
      cases i with
      | zero =>
        rw [a5 _ (by rw [hN]; omega)]
        exact hE1
      | succ i =>
        have := a6 i (by omega)
        rw [hN] at this
        have e1 : h.nextAddr + 2 + 2 * i + 1 = h.nextAddr + 2 * (i + 1) + 1 := by omega
        rw [e1] at this
        exact this
    · intro x e he
      rcases a7 x e he with h' | ⟨i, hi, hx⟩
      · by_cases hx : x = h.nextAddr + 1
        · exact Or.inr ⟨0, by omega, by omega⟩
        · rw [hE x hx] at h'
          exact Or.inl h'
      · exact Or.inr ⟨i + 1, by omega, by rw [hx, hN]; omega⟩

theorem WWF.not_live {w : World} {ch : Nat → List (Nat × Nat)} (hw : WWF w ch) {x : Nat}
    (hx : w.heap.nextAddr ≤ x) : w.heap.entries x = none := by
  cases he : w.heap.entries x with
  | none => rfl
  | some e =>
    obtain ⟨k, j, b, hb, hm⟩ := hw.live x e he
    have := (hw.bwf k j b hb).bound x hm
    omega

theorem World.bucket?_append (w : World) (h1 : Heap) (ov : TTimingWheel) (k j : Nat) :
    ({ heap := h1, wheels := w.wheels ++ [ov], fired := w.fired } : World).bucket? k j =
      if k < w.wheels.length then w.bucket? k j
      else if k = w.wheels.length then ov.buckets_[j]? else none := by
  unfold World.bucket?
  by_cases hk : k < w.wheels.length
  · simp [hk, List.getElem?_append_left hk]
  · by_cases hk2 : k = w.wheels.length
    · subst hk2
      simp
    · have : w.wheels.length + 1 ≤ k := by omega
      simp [hk, hk2, List.getElem?_eq_none, this]

theorem World.bucket?_lt {w : World} {k j : Nat} {b : TTimerTaskList}
    (hb : w.bucket? k j = some b) : k < w.wheels.length := by
  unfold World.bucket? at hb
  cases hk : w.wheels[k]? with
  | none => simp [hk] at hb
  | some wh => exact (List.getElem?_eq_some.1 hk).1

/-- Appending a level with `n` freshly constructed buckets as the new outermost overflow
wheel keeps the invariants; the new buckets are empty. -/
theorem Inv1.append {w : World} {ch : Nat → List (Nat × Nat)} (hi : Inv1 w ch)
    (n : Nat) (ov : TTimingWheel) (hov : ov.buckets_ = (newBuckets n w.heap).2)
    (hc : ov.taskCounter_ = 0) :
    Inv1 ⟨(newBuckets n w.heap).1, w.wheels ++ [ov], w.fired⟩ ch ∧
    Ext w ch ⟨(newBuckets n w.heap).1, w.wheels ++ [ov], w.fired⟩ ch ∧
    (⟨(newBuckets n w.heap).1, w.wheels ++ [ov], w.fired⟩ : World).GetCount = w.GetCount := by
  obtain ⟨a1, a2, a3, a4, a5, a6, a7⟩ := newBuckets_spec n w.heap
  have hW := hi.wwf
  have hbk := World.bucket?_append w (newBuckets n w.heap).1 ov
  -- every bucket of the new world is an old bucket or one the constructor made
  have hcase : ∀ (k j : Nat) (b : TTimerTaskList),
      (⟨(newBuckets n w.heap).1, w.wheels ++ [ov], w.fired⟩ : World).bucket? k j = some b →
      (k < w.wheels.length ∧ w.bucket? k j = some b) ∨
      (k = w.wheels.length ∧ j < n ∧
        b = ⟨w.heap.nextAddr + 2 * j, w.heap.nextAddr + 2 * j + 1,
              w.heap.nextAddr + 2 * j + 1, 0⟩) := by
    intro k j b hb
    rw [hbk] at hb
    by_cases hk : k < w.wheels.length
    · simp only [hk, if_true] at hb
      exact Or.inl ⟨hk, hb⟩
    · simp only [hk, if_false] at hb
      by_cases hk2 : k = w.wheels.length
      · simp only [hk2, if_true] at hb
        rw [hov] at hb
        have hj := (List.getElem?_eq_some.1 hb).1
        rw [a3] at hj
        exact Or.inr ⟨hk2, hj, a4 j b hb⟩
      · simp [hk2] at hb
  have hold : ∀ (k j : Nat) (b : TTimerTaskList), w.bucket? k j = some b →
      (⟨(newBuckets n w.heap).1, w.wheels ++ [ov], w.fired⟩ : World).bucket? k j = some b := by
    intro k j b hb
    rw [hbk, if_pos (World.bucket?_lt hb)]
    exact hb
  have hWn : WWF ⟨(newBuckets n w.heap).1, w.wheels ++ [ov], w.fired⟩ ch := by
    refine ⟨?_, ?_, ?_, ?_, ?_⟩
    · intro k j b hb
      rcases hcase k j b hb with ⟨_, hb0⟩ | ⟨_, hj, rfl⟩
      · have hB := hW.bwf k j b hb0
        refine hB.frame_bucket (fun a ha => a5 a (hB.bound a ha)) ?_ (by show _ ≤ _; rw [a1]; omega)
        intro q ⟨hq1, hq2⟩
        exact ⟨(a5 q hq2).trans hq1, by show _ < _; rw [a1]; omega⟩
      · rw [hW.fresh _ (by show w.heap.nextAddr ≤ w.heap.nextAddr + 2 * j; omega)]
        refine ⟨?_, by simp, by simp, ?_, Or.inl rfl, rfl, ?_⟩
        · exact ⟨_, a6 j hj, rfl⟩
        · exact ⟨_, a6 j hj, rfl⟩
        · intro a ha
          simp only [List.map_nil, List.mem_singleton] at ha
          subst ha
          show _ < (newBuckets n w.heap).1.nextAddr
          rw [a1]; omega
    · intro k j b hb
      show _ < (newBuckets n w.heap).1.nextAddr
      rw [a1]
      rcases hcase k j b hb with ⟨_, hb0⟩ | ⟨_, hj, rfl⟩
      · have := hW.thisLt k j b hb0; omega
      · show w.heap.nextAddr + 2 * j < _; omega
    · intro k j b k1 j1 b1 hb hb1 heq
      rcases hcase k j b hb with ⟨_, hb0⟩ | ⟨hk, hj, rfl⟩
      · rcases hcase k1 j1 b1 hb1 with ⟨_, hb10⟩ | ⟨_, _, rfl⟩
        · exact hW.inj k j b k1 j1 b1 hb0 hb10 heq
        · have h1 := hW.thisLt k j b hb0
          have h2 := (hW.bwf k j b hb0).bound b.root_ (List.mem_cons_self _ _)
          simp only at heq
          omega
      · rcases hcase k1 j1 b1 hb1 with ⟨_, hb10⟩ | ⟨hk1, _, rfl⟩
        · have h1 := hW.thisLt k1 j1 b1 hb10
          have h2 := (hW.bwf k1 j1 b1 hb10).bound b1.root_ (List.mem_cons_self _ _)
          simp only at heq
          omega
        · simp only at heq
          exact ⟨by rw [hk, hk1], by omega⟩
    · intro a e hae
      rcases a7 a e hae with h' | ⟨i, hi', hx⟩
      · obtain ⟨k, j, b, hb, hm⟩ := hW.live a e h'
        exact ⟨k, j, b, hold k j b hb, hm⟩
      · refine ⟨w.wheels.length, i, ⟨w.heap.nextAddr + 2 * i, w.heap.nextAddr + 2 * i + 1,
          w.heap.nextAddr + 2 * i + 1, 0⟩, ?_, ?_⟩
        · rw [hbk]
          simp only [Nat.lt_irrefl, if_false, if_true]
          rw [hov]
          have hi2 : i < (newBuckets n w.heap).2.length := by rw [a3]; exact hi'
          rw [List.getElem?_eq_getElem hi2]
          exact congrArg some (a4 i _ (List.getElem?_eq_getElem hi2))
        · rw [hx]; simp [cells]
    · intro x hx
      exact hW.fresh x (by
        have : (newBuckets n w.heap).1.nextAddr ≤ x := hx
        rw [a1] at this; omega)
  have hdl : ∀ t, (⟨(newBuckets n w.heap).1, w.wheels ++ [ov], w.fired⟩ : World).deadline t
      = w.deadline t := by
    intro t
    show ((newBuckets n w.heap).1.tasks t).expiration_ = _
    rw [a2]; rfl
  refine ⟨⟨hWn, ?_⟩, ⟨⟨?_, hdl⟩, ?_, ?_, fun x => ⟨[], by simp⟩, rfl⟩, ?_⟩
  · intro wh0 hwh0 hg0 j b hb x hx
    by_cases hlen : 0 < w.wheels.length
    · have hwh0' : w.wheels[0]? = some wh0 := by
        rw [← hwh0]; exact (List.getElem?_append_left hlen).symm
      obtain ⟨s, b1, b2, b3, b4, b5⟩ := hi.rootTime wh0 hwh0' hg0 j b hb x hx
      exact ⟨s, b1, b2, b3, b4, by rw [hdl]; exact b5⟩
    · have hb' := World.bucket?_of hwh0 hb
      rcases hcase 0 j b hb' with ⟨hk, _⟩ | ⟨_, _, rfl⟩
      · exact absurd hk hlen
      · rw [hW.fresh _ (by show w.heap.nextAddr ≤ w.heap.nextAddr + 2 * j; omega)] at hx
        simp at hx
  · intro k wh hk
    have hkl := (List.getElem?_eq_some.1 hk).1
    exact ⟨wh, by show (w.wheels ++ _)[k]? = _; rw [List.getElem?_append_left hkl]; exact hk,
      rfl, rfl, rfl, rfl⟩
  · intro k wh wh1 hk hk1
    have hkl := (List.getElem?_eq_some.1 hk).1
    have : (w.wheels ++ [ov])[k]? = some wh1 := hk1
    rw [List.getElem?_append_left hkl, hk] at this
    cases this
    rfl
  · intro k j b hb
    exact ⟨b, hold k j b hb, rfl, rfl⟩
  · show GetCountFrom (w.wheels ++ _) = GetCountFrom w.wheels
    rw [GetCountFrom_append, hc]
    simp

/-- What the private constructor returns. -/
theorem TTimingWheel.new_ok {tickMs wheelSize startMs : Int} {h : Heap}
    {r : Heap × TTimingWheel} (hnew : TTimingWheel.new tickMs wheelSize startMs h = .ok r) :
    r.1 = (newBuckets wheelSize.toNat h).1 ∧
    r.2.buckets_ = (newBuckets wheelSize.toNat h).2 ∧ r.2.taskCounter_ = 0 ∧
    r.2.tickMs_ = tickMs ∧ r.2.wheelSize_ = wheelSize ∧
    r.2.currentTime_ = startMs - startMs.tmod tickMs ∧
    r.2.interval_ = wrapInt (tickMs * wheelSize) ∧ tickMs ≠ 0 ∧ 0 ≤ wheelSize := by
  unfold TTimingWheel.new at hnew
  by_cases ht : tickMs = 0
  · simp [ht] at hnew
  by_cases hs : wheelSize < 0
  · simp [ht, hs] at hnew
  simp only [ht, hs, if_false] at hnew
  injection hnew with hnew
  subst hnew
  exact ⟨rfl, rfl, rfl, rfl, rfl, rfl, rfl, ht, by omega⟩

theorem floor_ge {tick c t : Int} (hp : 0 < tick) (hc : tick ∣ c) (hct : c ≤ t) :
    c ≤ t - t % tick := by
  obtain ⟨a, rfl⟩ := hc
  have h1 : t % tick + tick * (t / tick) = t := Int.emod_add_ediv t tick
  have h2 : a ≤ t / tick := (Int.le_ediv_iff_mul_le hp).2 (by rw [Int.mul_comm]; exact hct)
  have h3 : tick * a ≤ tick * (t / tick) := Int.mul_le_mul_of_nonneg_left h2 (le_of_lt hp)
  omega

/-- The tick in which `Add` files a deadline on a good level. -/
theorem RootGood.place_tick {wh : TTimingWheel} (hg : RootGood wh) {d : Int} {j : Nat}
    (hd : d < wh.currentTime_ + wh.interval_)
    (hs : wh.slotOf (if d < wh.currentTime_ then wh.currentTime_ else d) = .ok j) :
    ∃ s, wh.currentTime_ ≤ s ∧ s < wh.currentTime_ + wh.interval_ ∧ wh.tickMs_ ∣ s ∧
      wh.slotOf s = .ok j ∧ d < s + wh.tickMs_ ∧
      s = (if d < wh.currentTime_ then wh.currentTime_ else d)
            - (if d < wh.currentTime_ then wh.currentTime_ else d) % wh.tickMs_ := by
  have hp := hg.tick_pos
  have hc0 := hg.time_nonneg
  have hn : (0 : Int) < wh.buckets_.length := by exact_mod_cast hg.size_pos
  have hI : 0 < wh.interval_ := by rw [hg.interval_eq]; exact Int.mul_pos hp hn
  generalize ht : (if d < wh.currentTime_ then wh.currentTime_ else d) = t at hs
  have hct : wh.currentTime_ ≤ t := by rw [← ht]; split <;> omega
  have hdt : d ≤ t := by rw [← ht]; split <;> omega
  have htI : t < wh.currentTime_ + wh.interval_ := by rw [← ht]; split <;> omega
  have h0 : 0 ≤ t % wh.tickMs_ := Int.emod_nonneg _ (ne_of_gt hp)
  have h1 : t % wh.tickMs_ < wh.tickMs_ := Int.emod_lt_of_pos _ hp
  refine ⟨t - t % wh.tickMs_, floor_ge hp hg.time_aligned hct, by omega, ?_, ?_, by omega, rfl⟩
  · exact Int.dvd_sub_of_emod_eq rfl
  · rw [hg.slotOf_floor (le_trans hc0 hct)]; exact hs

/-- `TTimingWheel::Add` on any level: when it returns, the invariants hold again, nothing but
one chain grew (by one entry), and the root's count went up by one. -/
theorem Inv1.add_level (fuel : Nat) : ∀ (k t : Nat) (w : World) (ch : Nat → List (Nat × Nat))
    (w1 : World), Inv1 w ch → TTimingWheel.Add fuel k t w = .ok w1 →
    ∃ ch1, Inv1 w1 ch1 ∧ Ext w ch w1 ch1 ∧ w1.GetCount = w.GetCount + 1 := by
  induction fuel with
  | zero => intro k t w ch w1 _ h; simp [TTimingWheel.Add] at h
  | succ fuel ih =>
    intro k t w ch w1 hi hadd
    unfold TTimingWheel.Add at hadd
    cases hk : w.wheels[k]? with
    | none => simp [hk] at hadd
    | some wh =>
      simp only [hk] at hadd
      by_cases hin : (w.heap.tasks t).expiration_ < wh.currentTime_ + wh.interval_
      · simp only [hin, if_true] at hadd
        cases hs : wh.slotOf (if (w.heap.tasks t).expiration_ < wh.currentTime_
            then wh.currentTime_ else (w.heap.tasks t).expiration_) with
        | error f => simp [hs] at hadd
        | ok j =>
          simp only [hs] at hadd
          cases hj : wh.buckets_[j]? with
          | none => simp [hj] at hadd
          | some b =>
            simp only [hj] at hadd
            cases hb : b.Add w.heap t with
            | error f => simp [hb] at hadd
            | ok r =>
              simp only [hb] at hadd
              injection hadd with hadd
              subst hadd
              obtain ⟨h1, h2, h3⟩ := hi.place_level hk hj hb (fun _ hg => by
                obtain ⟨s, a1, a2, a3, a4, a5, _⟩ := hg.place_tick hin hs
                exact ⟨s, a1, a2, a3, a4, a5⟩)
              exact ⟨_, h1, h2, h3⟩
      · simp only [hin, if_false] at hadd
        by_cases hov : k + 1 < w.wheels.length
        · simp only [hov, if_true] at hadd
          exact ih (k + 1) t w ch w1 hi hadd
        · simp only [hov, if_false] at hadd
          cases hnew : TTimingWheel.new (wrapInt wh.interval_) wh.wheelSize_ wh.currentTime_
              w.heap with
          | error f => simp [hnew] at hadd
          | ok r =>
            simp only [hnew] at hadd
            obtain ⟨e1, e2, e3, _⟩ := TTimingWheel.new_ok hnew
            obtain ⟨c1, c2, c3⟩ := hi.append wh.wheelSize_.toNat r.2 e2 e3
            rw [← e1] at c1 c2 c3
            obtain ⟨ch1, d1, d2, d3⟩ := ih (k + 1) t _ ch w1 c1 hadd
            exact ⟨ch1, d1, c2.trans_ext d2, by rw [d3, c3]⟩

theorem World.bucket?_inv {w : World} {k j : Nat} {b : TTimerTaskList}
    (hb : w.bucket? k j = some b) :
    ∃ wh, w.wheels[k]? = some wh ∧ wh.buckets_[j]? = some b := by
  unfold World.bucket? at hb
  cases hk : w.wheels[k]? with
  | none => simp [hk] at hb
  | some wh => exact ⟨wh, rfl, by simpa [hk] using hb⟩

/-- The root's placement invariant survives when the root keeps its parameters, clock and
bucket objects, chains only lose entries and deadlines stay. -/
theorem RootTime.of_sub {w w1 : World} {ch ch1 : Nat → List (Nat × Nat)} (hr : RootTime w ch)
    (hroot : ∀ wh1 : TTimingWheel, w1.wheels[0]? = some wh1 → ∃ wh : TTimingWheel,
      w.wheels[0]? = some wh ∧ wh1.tickMs_ = wh.tickMs_ ∧ wh1.interval_ = wh.interval_ ∧
      wh1.buckets_.length = wh.buckets_.length ∧ wh1.currentTime_ = wh.currentTime_ ∧
      ∀ (j : Nat) (b1 : TTimerTaskList), wh1.buckets_[j]? = some b1 →
        ∃ b : TTimerTaskList, wh.buckets_[j]? = some b ∧ b.this = b1.this)
    (hsub : ∀ x, ∀ y ∈ ch1 x, y ∈ ch x) (hd : ∀ t, w1.deadline t = w.deadline t) :
    RootTime w1 ch1 := by
  intro wh1 hwh1 hg1 j b1 hb1 x hx
  obtain ⟨wh, hwh, e1, e2, e3, e4, hbs⟩ := hroot wh1 hwh1
  obtain ⟨b, hb, hthis⟩ := hbs j b1 hb1
  have hg : RootGood wh := hg1.congr e1.symm e2.symm e3.symm e4.symm
  obtain ⟨s, a1, a2, a3, a4, a5⟩ := hr wh hwh hg j b hb x (hsub _ x (hthis ▸ hx))
  refine ⟨s, by rw [e4]; exact a1, by rw [e4, e2]; exact a2, by rw [e1]; exact a3, ?_,
    by rw [hd, e1]; exact a5⟩
  rw [← a4]
  exact TTimingWheel.slotOf_congr wh wh1 e1 e2 e3 s

theorem Keep.refl_keep (w : World) : Keep w w :=
  ⟨Stat.refl_stat w, fun _ _ _ h1 h2 => by rw [h1] at h2; cases h2; rfl⟩

theorem Keep.trans_keep {w w1 w2 : World} (h1 : Keep w w1) (h2 : Keep w1 w2) : Keep w w2 := by
  refine ⟨h1.stat.trans_stat h2.stat, ?_⟩
  intro k wh wh2 hk hk2
  obtain ⟨wh1, hk1, _⟩ := h1.stat.levels k wh hk
  exact (h2.time k wh1 wh2 hk1 hk2).trans (h1.time k wh wh1 hk hk1)

theorem Ext.keep {w w1 : World} {ch ch1 : Nat → List (Nat × Nat)} (h : Ext w ch w1 ch1) :
    Keep w w1 := ⟨h.stat, h.time⟩

/-- A successful bucket `Clear` of bucket `j` of level `k`, stored back with the level's
counter set to `c`. -/
theorem Inv1.clear_level {w : World} {ch : Nat → List (Nat × Nat)} (hi : Inv1 w ch)
    {k j : Nat} {wh : TTimingWheel} {b : TTimerTaskList}
    (hk : w.wheels[k]? = some wh) (hj : wh.buckets_[j]? = some b)
    {fuel : Nat} {r : Heap × TTimerTaskList} (hclr : b.Clear fuel w.heap = .ok r) (c : Int) :
    Inv1 (w.store k j wh r.1 r.2 c) (Function.update ch b.this []) ∧
    Keep w (w.store k j wh r.1 r.2 c) ∧
    (w.store k j wh r.1 r.2 c).GetCount = w.GetCount + (c - wh.taskCounter_) ∧
    (w.store k j wh r.1 r.2 c).fired = w.fired := by
  have hb := World.bucket?_of hk hj
  have hB := hi.wwf.bwf k j b hb
  obtain ⟨r0, hr0, _, heq, hB1⟩ := hB.clear_bucket fuel
  rw [heq] at hclr
  by_cases hf : (ch b.this).length ≤ fuel
  · simp only [hf, if_true] at hclr
    injection hclr with hclr
    subst hclr
    have hnd := List.nodup_cons.1 hB.nodup
    have hE : ∀ x, x ∉ cells b (ch b.this) →
        ((sweep (ch b.this) w.heap).write b.root_ (some { r0 with next := none })).entries x
          = w.heap.entries x := by
      intro x hx
      simp only [cells, List.mem_cons, not_or] at hx
      simp only [Heap.write, Function.update_noteq hx.1]
      exact sweep_entries_not_mem _ _ _ hx.2
    have hdl : ∀ t, (((sweep (ch b.this) w.heap).write b.root_
        (some { r0 with next := none })).tasks t).expiration_ = (w.heap.tasks t).expiration_ :=
      fun t => sweep_expiration _ _ t
    have hW : WWF (w.store k j wh
        ((sweep (ch b.this) w.heap).write b.root_ (some { r0 with next := none }))
        { b with tail_ := b.root_, counter_ := 0 } c) (Function.update ch b.this []) := by
      refine hi.wwf.store_wwf hk hj c rfl rfl hB1 ?_ (fun x _ hx => hE x hx) ?_
      · show w.heap.nextAddr ≤ (sweep (ch b.this) w.heap).nextAddr
        rw [sweep_nextAddr]
      · intro a e hae
        by_cases ha : a = b.root_
        · left; rw [ha]; simp [cells]
        · right
          have hnm : a ∉ (ch b.this).map Prod.fst := by
            intro hm
            have : ((sweep (ch b.this) w.heap).write b.root_
                (some { r0 with next := none })).entries a = none := by
              simp only [Heap.write, Function.update_noteq ha]
              exact sweep_entries_mem _ _ _ hm
            rw [this] at hae
            cases hae
          have hnc : a ∉ cells b (ch b.this) := by
            simp only [cells, List.mem_cons, not_or]; exact ⟨ha, hnm⟩
          rw [hE a hnc] at hae
          obtain ⟨k1, j1, b2, hb2, hm⟩ := hi.wwf.live a e hae
          exact ⟨(hi.wwf.bwf k1 j1 b2 hb2).bound a hm, hnc⟩
    have hS := Stat.store_stat hk j
      ((sweep (ch b.this) w.heap).write b.root_ (some { r0 with next := none }))
      { b with tail_ := b.root_, counter_ := 0 } c hdl
    have hwk := World.wheels_store hk j
      ((sweep (ch b.this) w.heap).write b.root_ (some { r0 with next := none }))
      { b with tail_ := b.root_, counter_ := 0 } c
    refine ⟨⟨hW, ?_⟩, ⟨hS, ?_⟩, ?_, rfl⟩
    · refine hi.rootTime.of_sub ?_ ?_ hS.deadline
      · intro wh1 hwh1
        rw [hwk] at hwh1
        by_cases hk0 : 0 = k
        · subst hk0
          simp only [if_true, Option.some.injEq] at hwh1
          subst hwh1
          refine ⟨wh, hk, rfl, rfl, List.length_set _ _ _, rfl, ?_⟩
          intro j1 b1 hb1
          simp only at hb1
          by_cases hjj : j1 = j
          · subst hjj
            rw [List.getElem?_set_self (List.getElem?_eq_some.1 hj).1] at hb1
            cases hb1
            exact ⟨b, hj, rfl⟩
          · rw [List.getElem?_set_ne (Ne.symm hjj)] at hb1
            exact ⟨b1, hb1, rfl⟩
        · simp only [hk0, if_false] at hwh1
          exact ⟨wh1, hwh1, rfl, rfl, rfl, rfl, fun j1 b1 hb1 => ⟨b1, hb1, rfl⟩⟩
      · intro x y hy
        by_cases hx : x = b.this
        · subst hx; simp at hy
        · rw [Function.update_noteq hx] at hy; exact hy
    · intro k1 wh1 wh2 hk1 hk2
      rw [hwk] at hk2
      by_cases hkk : k1 = k
      · subst hkk
        rw [hk] at hk1
        cases hk1
        simp only [if_true, Option.some.injEq] at hk2
        rw [← hk2]
      · simp only [hkk, if_false] at hk2
        rw [hk1] at hk2
        cases hk2
        rfl
    · rw [World.GetCount_store hk]
  · simp [hf] at hclr

theorem Seg.drop {ents : Nat → Option TimerTaskEntry} {A : List (Nat × Nat)} {x : Nat × Nat}
    {B : List (Nat × Nat)} : ∀ {s : Option Nat}, Seg ents s (A ++ x :: B) →
    ∃ e, ents x.1 = some e ∧ e.timerTask = some x.2 ∧ Seg ents e.next B := by
  induction A with
  | nil =>
    intro s hs
    obtain ⟨_, e, he, ht, hrest⟩ := hs
    exact ⟨e, he, ht, hrest⟩
  | cons a A ih =>
    intro s hs
    obtain ⟨_, e, _, _, hrest⟩ := hs
    exact ih hrest

/-- The loop of `ForEach` with the visitor `lowerWheel_->Add`, started inside the chain of
bucket `b` after the entries `V`: when it returns, the invariants hold, the world is
extended, and one entry was added for every entry of the final chain beyond `V`. -/
theorem Inv1.cascadeLoop (fuelA kl : Nat) (k j : Nat) : ∀ (fuel : Nat) (p : Option Nat)
    (w : World) (ch : Nat → List (Nat × Nat)) (w1 : World) (V R : List (Nat × Nat))
    (b : TTimerTaskList), Inv1 w ch → w.bucket? k j = some b → ch b.this = V ++ R →
    Seg w.heap.entries p R →
    forEachLoop (fun s : World => s.heap.entries)
      (fun t s => TTimingWheel.Add fuelA kl t s) fuel p w = .ok w1 →
    ∃ ch1, Inv1 w1 ch1 ∧ Ext w ch w1 ch1 ∧
      w1.GetCount + (V.length : Int) = w.GetCount + ((ch1 b.this).length : Int) := by
  intro fuel
  induction fuel with
  | zero =>
    intro p w ch w1 V R b hi hb hch hseg hloop
    cases p with
    | none =>
      simp only [forEachLoop] at hloop
      injection hloop with hloop
      subst hloop
      cases R with
      | nil => exact ⟨ch, hi, Ext.refl_ext _ _, by rw [hch]; simp⟩
      | cons x R => exact absurd hseg.1 (by simp)
    | some e => simp [forEachLoop] at hloop
  | succ fuel ih =>
    intro p w ch w1 V R b hi hb hch hseg hloop
    cases p with
    | none =>
      simp only [forEachLoop] at hloop
      injection hloop with hloop
      subst hloop
      cases R with
      | nil => exact ⟨ch, hi, Ext.refl_ext _ _, by rw [hch]; simp⟩
      | cons x R => exact absurd hseg.1 (by simp)
    | some e =>
      cases R with
      | nil => exact absurd hseg (by simp [Seg])
      | cons x R =>
        obtain ⟨hxe, ent, hent, htask, _⟩ := hseg
        have hxe' : e = x.1 := Option.some.inj hxe
        subst hxe'
        simp only [forEachLoop, hent, htask] at hloop
        cases hadd : TTimingWheel.Add fuelA kl x.2 w with
        | error f => simp [hadd] at hloop
        | ok w2 =>
          simp only [hadd] at hloop
          obtain ⟨ch2, hi2, hext, hcount⟩ := Inv1.add_level fuelA kl x.2 w ch w2 hi hadd
          obtain ⟨b2, hb2, hthis, _⟩ := hext.buckets k j b hb
          obtain ⟨S, hS⟩ := hext.chains b.this
          have hch2 : ch2 b2.this = (V ++ [x]) ++ (R ++ S) := by
            rw [hthis, hS, hch]; simp
          obtain ⟨r, _, hsegr⟩ := (hi2.wwf.bwf k j b2 hb2).seg_bucket
          have hsegr' : Seg w2.heap.entries r.next (V ++ x :: (R ++ S)) := by
            rw [hch2] at hsegr; simpa using hsegr
          obtain ⟨ent2, hent2, _, hrest⟩ := Seg.drop hsegr'
          simp only [hent2] at hloop
          obtain ⟨ch1, hi1, hext1, hcount1⟩ :=
            ih ent2.next w2 ch2 w1 (V ++ [x]) (R ++ S) b2 hi2 hb2 hch2 hrest hloop
          refine ⟨ch1, hi1, hext.trans_ext hext1, ?_⟩
          rw [hthis] at hcount1
          simp only [List.length_append, List.length_singleton, Nat.cast_add, Nat.cast_one]
            at hcount1
          omega

theorem handler_foldl (L : List (Nat × Nat)) (w : World) :
    L.foldl (fun (acc : World) x =>
        ({ heap := acc.heap, wheels := acc.wheels, fired := acc.fired ++ [x.2] } : World)) w
      = { heap := w.heap, wheels := w.wheels, fired := w.fired ++ L.map Prod.snd } := by
  induction L generalizing w with
  | nil => simp
  | cons x L ih => simp [ih]

/-- The `ForEach` with the terminal handler on a well-formed bucket: every task of the chain
is handed over, in chain order, and nothing else changes. -/
theorem forEach_handler {w : World} {b : TTimerTaskList} {L : List (Nat × Nat)}
    (hB : BWF w.heap b L) (fuel : Nat) :
    b.ForEach (fun s : World => s.heap.entries) World.handler fuel w =
      if L.length ≤ fuel then
        .ok { heap := w.heap, wheels := w.wheels, fired := w.fired ++ L.map Prod.snd }
      else .error .outOfFuel := by
  obtain ⟨r, hr, hseg⟩ := hB.seg_bucket
  unfold TTimerTaskList.ForEach
  simp only [hr]
  rw [forEachLoop_eq (fun s : World => s.heap.entries) World.handler
    (fun t s => { heap := s.heap, wheels := s.wheels, fired := s.fired ++ [t] })
    (fun _ _ => rfl) (fun _ _ => rfl) hseg fuel, handler_foldl]

/-- The invariants do not look at the record of handler invocations. -/
theorem Inv1.with_fired {w : World} {ch : Nat → List (Nat × Nat)} (hi : Inv1 w ch)
    (F : List Nat) : Inv1 { heap := w.heap, wheels := w.wheels, fired := F } ch :=
  ⟨⟨hi.wwf.bwf, hi.wwf.thisLt, hi.wwf.inj, hi.wwf.live, hi.wwf.fresh⟩, hi.rootTime⟩

/-- The block `if (bucket->GetCount() > 0) { ... }` of `AdvanceClock`: when it returns, the
invariants hold, parameters and clocks are as before, `GetCount()` plus the number of
handler invocations is unchanged; only the root level invokes the handler, on exactly
the tasks of the bucket, which is empty afterwards. -/
theorem Inv1.expire {w : World} {ch : Nat → List (Nat × Nat)} (hi : Inv1 w ch)
    {fuel k j : Nat} {w1 : World} (hex : TTimingWheel.expire fuel k j w = .ok w1) :
    ∃ ch1, Inv1 w1 ch1 ∧ Keep w w1 ∧ w1.total = w.total ∧
      (k ≠ 0 → w1.fired = w.fired) ∧
      (k = 0 → ∃ b, w.bucket? 0 j = some b ∧
        w1.fired = w.fired ++ (ch b.this).map Prod.snd ∧
        ∀ b1, w1.bucket? 0 j = some b1 → ch1 b1.this = []) := by
  unfold TTimingWheel.expire at hex
  cases hk : w.wheels[k]? with
  | none => simp [hk] at hex
  | some wh =>
    simp only [hk] at hex
    cases hj : wh.buckets_[j]? with
    | none => simp [hj] at hex
    | some b =>
      simp only [hj] at hex
      have hb := World.bucket?_of hk hj
      have hB := hi.wwf.bwf k j b hb
      by_cases hc : b.GetCount > 0
      · simp only [hc, if_true] at hex
        by_cases hk0 : k = 0
        · subst hk0
          simp only [if_true, forEach_handler hB fuel] at hex
          by_cases hf : (ch b.this).length ≤ fuel
          · simp only [hf, if_true, hk, hj] at hex
            cases hclr : b.Clear fuel w.heap with
            | error f => simp [hclr] at hex
            | ok r =>
              simp only [hclr] at hex
              injection hex with hex
              subst hex
              have hi2 := hi.with_fired (w.fired ++ (ch b.this).map Prod.snd)
              obtain ⟨c1, c2, c3, c4⟩ := Inv1.clear_level (k := 0) (j := j) hi2 hk hj hclr
                (wh.taskCounter_ - b.GetCount)
              refine ⟨_, c1, ⟨⟨c2.stat.levels, c2.stat.deadline⟩, c2.time⟩, ?_,
                fun h => absurd rfl h, fun _ => ⟨b, hb, c4, ?_⟩⟩
              · unfold World.total
                rw [c3, c4]
                have hcnt : b.GetCount = ((ch b.this).length : Int) := hB.count
                simp only [List.length_append, List.length_map, Nat.cast_add]
                show GetCountFrom w.wheels + _ + _ = GetCountFrom w.wheels + _
                omega
              · intro b1 hb1
                have hst := World.bucket?_store (w := ⟨w.heap, w.wheels,
                  w.fired ++ (ch b.this).map Prod.snd⟩) hk hj r.1 r.2
                  (wh.taskCounter_ - b.GetCount) 0 j
                rw [hst] at hb1
                simp only [and_self, if_true, Option.some.injEq] at hb1
                subst hb1
                obtain ⟨_, _, _, heq, _⟩ := hB.clear_bucket fuel
                rw [heq, if_pos hf] at hclr
                injection hclr with hclr
                rw [← hclr]
                simp
          · simp [hf] at hex
        · simp only [hk0, if_false] at hex
          unfold TTimerTaskList.ForEach at hex
          obtain ⟨r, hr, hseg⟩ := hB.seg_bucket
          simp only [hr] at hex
          cases hloop : forEachLoop (fun s : World => s.heap.entries)
              (fun t s => TTimingWheel.Add fuel (k - 1) t s) fuel r.next w with
          | error f => simp [hloop] at hex
          | ok w2 =>
            simp only [hloop] at hex
            obtain ⟨ch2, hi2, hext, hcount⟩ := Inv1.cascadeLoop fuel (k - 1) k j fuel r.next w ch
              w2 [] (ch b.this) b hi hb (by simp) hseg hloop
            cases hk2 : w2.wheels[k]? with
            | none => simp [hk2] at hex
            | some wh2 =>
              simp only [hk2] at hex
              cases hj2 : wh2.buckets_[j]? with
              | none => simp [hj2] at hex
              | some b2 =>
                simp only [hj2] at hex
                cases hclr : b2.Clear fuel w2.heap with
                | error f => simp [hclr] at hex
                | ok r2 =>
                  simp only [hclr] at hex
                  injection hex with hex
                  subst hex
                  obtain ⟨c1, c2, c3, c4⟩ := Inv1.clear_level hi2 hk2 hj2 hclr
                    (wh2.taskCounter_ - b2.GetCount)
                  obtain ⟨b2', hb2', hthis, _⟩ := hext.buckets k j b hb
                  rw [World.bucket?_of hk2 hj2] at hb2'
                  cases hb2'
                  have hcnt : b2.GetCount = ((ch2 b2.this).length : Int) :=
                    (hi2.wwf.bwf k j b2 (World.bucket?_of hk2 hj2)).count
                  refine ⟨_, c1, hext.keep.trans_keep c2, ?_, fun _ => c4.trans hext.fired,
                    fun h => absurd h hk0⟩
                  unfold World.total
                  rw [c3, c4, hext.fired]
                  rw [hthis] at hcnt
                  simp only [List.length_nil, Nat.cast_zero, add_zero] at hcount
                  omega
      · simp only [hc, if_false] at hex
        injection hex with hex
        subst hex
        refine ⟨ch, hi, Keep.refl_keep _, rfl, fun _ => rfl, ?_⟩
        intro hk0
        subst hk0
        have hnil : ch b.this = [] := by
          have hcnt : b.GetCount = ((ch b.this).length : Int) := hB.count
          have : (ch b.this).length = 0 := by omega
          exact List.eq_nil_of_length_eq_zero this
        refine ⟨b, hb, by simp [hnil], ?_⟩
        intro b1 hb1
        rw [hb] at hb1
        cases hb1
        exact hnil

theorem neg_tick_index (t n : Int) (ht : 0 < t) (hn : 2 ≤ n) :
    ((-t).tmod (t * n)).tdiv t = -1 := by
  have h1 : t < t * n := by nlinarith
  have h2 : (-t).tdiv (t * n) = 0 := by
    rw [Int.neg_tdiv, Int.tdiv_eq_ediv (le_of_lt ht) (by nlinarith),
      Int.ediv_eq_zero_of_lt (le_of_lt ht) h1]
    rfl
  rw [Int.tmod_def, h2, Int.mul_zero, Int.sub_zero, Int.neg_tdiv, Int.tdiv_self (ne_of_gt ht)]

/-- A level with good parameters whose clock is one tick before a non-negative time and whose
current subscript is in range has exactly one bucket. -/
theorem single_bucket_of_negative {wh : TTimingWheel} {j : Nat} (hp : 0 < wh.tickMs_)
    (hI : wh.interval_ = wh.tickMs_ * (wh.buckets_.length : Int))
    (hd : wh.tickMs_ ∣ wh.currentTime_) (hneg : wh.currentTime_ < 0)
    (hnn : 0 ≤ wh.currentTime_ + wh.tickMs_)
    (hs : wh.slotOf wh.currentTime_ = .ok j) : wh.buckets_.length = 1 := by
  have hc : wh.currentTime_ = -wh.tickMs_ := by
    obtain ⟨a, ha⟩ := hd
    have h1 : a < 0 := by
      by_contra h
      have : 0 ≤ wh.tickMs_ * a := Int.mul_nonneg (le_of_lt hp) (by omega)
      omega
    have h2 : -1 ≤ a := by
      by_contra h
      have : wh.tickMs_ * a ≤ wh.tickMs_ * (-2) :=
        Int.mul_le_mul_of_nonneg_left (by omega) (le_of_lt hp)
      omega
    have : a = -1 := by omega
    rw [ha, this]; ring
  by_contra hlen
  unfold TTimingWheel.slotOf TTimingWheel.bucketIndex at hs
  by_cases h0 : wh.interval_ = 0
  · simp [h0] at hs
  · simp only [h0, if_false, ne_of_gt hp] at hs
    by_cases hl0 : wh.buckets_.length = 0
    · rw [hI, hl0] at h0
      simp at h0
    · have h2 : (2 : Int) ≤ wh.buckets_.length := by
        have : 2 ≤ wh.buckets_.length := by omega
        exact_mod_cast this
      rw [hc, hI, neg_tick_index _ _ hp h2] at hs
      simp at hs

theorem World.bucket?_tick {w : World} {k : Nat} {wh : TTimingWheel} (hk : w.wheels[k]? = some wh)
    (c : Int) (k1 j1 : Nat) :
    (⟨w.heap, w.wheels.set k ({ wh with currentTime_ := c }), w.fired⟩ : World).bucket? k1 j1
      = w.bucket? k1 j1 := by
  have hkl : k < w.wheels.length := (List.getElem?_eq_some.1 hk).1
  unfold World.bucket?
  by_cases hk1 : k1 = k
  · subst hk1
    simp [List.getElem?_set, hkl, hk]
  · simp [List.getElem?_set_ne (Ne.symm hk1)]

/-- The statement `currentTime_ += tickMs_` on level `k`, after the bucket of the current
tick was emptied. -/
theorem Inv1.tick {w : World} {ch : Nat → List (Nat × Nat)} (hi : Inv1 w ch) {k : Nat}
    {w1 : World} (ht : w.tick k = .ok w1)
    (hempty : k = 0 → ∀ wh : TTimingWheel, w.wheels[0]? = some wh →
      ∃ j, wh.slotOf wh.currentTime_ = .ok j ∧
        ∀ b : TTimerTaskList, wh.buckets_[j]? = some b → ch b.this = []) :
    Inv1 w1 ch ∧ Stat w w1 ∧ w1.fired = w.fired ∧ w1.GetCount = w.GetCount ∧
    (∀ (m : Nat) (wh wh1 : TTimingWheel), m ≠ k → w.wheels[m]? = some wh →
      w1.wheels[m]? = some wh1 → wh1.currentTime_ = wh.currentTime_) ∧
    (∀ wh : TTimingWheel, w.wheels[k]? = some wh → ∃ wh1 : TTimingWheel,
      w1.wheels[k]? = some wh1 ∧ wh1.currentTime_ = wh.currentTime_ + wh.tickMs_) := by
  unfold World.tick at ht
  cases hk : w.wheels[k]? with
  | none => simp [hk] at ht
  | some wh =>
    simp only [hk] at ht
    injection ht with ht
    subst ht
    have hkl : k < w.wheels.length := (List.getElem?_eq_some.1 hk).1
    have hbk := World.bucket?_tick hk (wh.currentTime_ + wh.tickMs_)
    have hwk : ∀ k1, (w.wheels.set k
        ({ wh with currentTime_ := wh.currentTime_ + wh.tickMs_ }))[k1]? =
        if k1 = k then some { wh with currentTime_ := wh.currentTime_ + wh.tickMs_ }
        else w.wheels[k1]? := by
      intro k1
      by_cases hk1 : k1 = k
      · subst hk1; simp [List.getElem?_set, hkl]
      · simp [hk1, List.getElem?_set_ne (Ne.symm hk1)]
    refine ⟨⟨⟨?_, ?_, ?_, ?_, hi.wwf.fresh⟩, ?_⟩, ⟨?_, fun _ => rfl⟩, rfl, ?_, ?_, ?_⟩
    · intro k1 j1 b hb
      rw [hbk] at hb
      exact hi.wwf.bwf k1 j1 b hb
    · intro k1 j1 b hb
      rw [hbk] at hb
      exact hi.wwf.thisLt k1 j1 b hb
    · intro k1 j1 b k2 j2 b2 hb hb2 heq
      rw [hbk] at hb hb2
      exact hi.wwf.inj k1 j1 b k2 j2 b2 hb hb2 heq
    · intro a e hae
      obtain ⟨k1, j1, b, hb, hm⟩ := hi.wwf.live a e hae
      exact ⟨k1, j1, b, by rw [hbk]; exact hb, hm⟩
    · -- the root's placement invariant
      intro wh1 hwh1 hg1 j1 b1 hb1 x hx
      have hwh1' : (w.wheels.set k
          ({ wh with currentTime_ := wh.currentTime_ + wh.tickMs_ }))[0]? = some wh1 := hwh1
      rw [hwk] at hwh1'
      by_cases hk0 : 0 = k
      · subst hk0
        simp only [if_true, Option.some.injEq] at hwh1'
        subst hwh1'
        simp only at hb1
        obtain ⟨j, hslot, hemp⟩ := hempty rfl wh hk
        have hp : 0 < wh.tickMs_ := hg1.tick_pos
        have hal : wh.tickMs_ ∣ wh.currentTime_ := by
          have := hg1.time_aligned
          simp only at this
          exact (Int.dvd_add_left (Int.dvd_refl _)).1 this
        by_cases hneg : wh.currentTime_ < 0
        · -- the clock crosses zero: there is one bucket, and it is empty
          have hlen := single_bucket_of_negative hp hg1.interval_eq hal hneg
            hg1.time_nonneg hslot
          have hj1 : j1 = 0 := by
            have := (List.getElem?_eq_some.1 hb1).1; omega
          have hj0 : j = 0 := by
            unfold TTimingWheel.slotOf TTimingWheel.bucketIndex at hslot
            split at hslot
            · cases hslot
            · split at hslot
              · cases hslot
              · split at hslot
                · rename_i hh
                  injection hslot with hslot
                  have h2 := hh.2
                  rw [hlen] at h2
                  have h1 := hh.1
                  rw [← hslot]
                  omega
                · cases hslot
          rw [hj1] at hb1
          rw [hj0] at hemp
          rw [hemp b1 hb1] at hx
          simp at hx
        · have hg : RootGood wh :=
            ⟨hp, hg1.size_pos, hg1.interval_eq, by omega, hal⟩
          obtain ⟨s, a1, a2, a3, a4, a5⟩ := hi.rootTime wh hk hg j1 b1 hb1 x hx
          have hsc : s ≠ wh.currentTime_ := by
            intro hh
            rw [hh, hslot] at a4
            injection a4 with a4
            subst a4
            rw [hemp b1 hb1] at hx
            simp at hx
          have hge : wh.currentTime_ + wh.tickMs_ ≤ s := by
            obtain ⟨a, ha⟩ := hal
            obtain ⟨c, hc⟩ := a3
            have h1 : a < c := by
              by_contra hh
              have : wh.tickMs_ * c ≤ wh.tickMs_ * a :=
                Int.mul_le_mul_of_nonneg_left (by omega) (le_of_lt hp)
              omega
            have : wh.tickMs_ * (a + 1) ≤ wh.tickMs_ * c :=
              Int.mul_le_mul_of_nonneg_left (by omega) (le_of_lt hp)
            rw [Int.mul_add, Int.mul_one] at this
            omega
          refine ⟨s, hge, ?_, a3, a4, a5⟩
          show s < wh.currentTime_ + wh.tickMs_ + wh.interval_
          omega
      · simp only [hk0, if_false] at hwh1'
        obtain ⟨s, a1, a2, a3, a4, a5⟩ := hi.rootTime wh1 hwh1' hg1 j1 b1 hb1 x hx
        exact ⟨s, a1, a2, a3, a4, a5⟩
    · intro k1 wh1 hk1
      show ∃ wh2 : TTimingWheel, (w.wheels.set k _)[k1]? = some wh2 ∧ _
      rw [hwk]
      by_cases hkk : k1 = k
      · subst hkk
        rw [hk] at hk1
        cases hk1
        exact ⟨{ wh with currentTime_ := wh.currentTime_ + wh.tickMs_ }, by simp, rfl, rfl,
          rfl, rfl⟩
      · exact ⟨wh1, by simp [hkk, hk1], rfl, rfl, rfl, rfl⟩
    · show GetCountFrom (w.wheels.set k _) = GetCountFrom w.wheels
      rw [GetCountFrom_set _ _ _ _ hk]
      simp
    · intro m wh0 wh1 hm hk0 hk1
      have : (w.wheels.set k
          ({ wh with currentTime_ := wh.currentTime_ + wh.tickMs_ }))[m]? = some wh1 := hk1
      rw [hwk, if_neg hm, hk0] at this
      cases this
      rfl
    · intro wh0 hwh0
      cases hwh0
      exact ⟨{ wh with currentTime_ := wh.currentTime_ + wh.tickMs_ }, by
        show (w.wheels.set k _)[k]? = _
        rw [hwk]; simp, rfl⟩


/-! ### Worlds: the public calls preserve the invariants -/

theorem Inv1.shutdownLoop (fuel k : Nat) : ∀ (n j : Nat) (w : World)
    (ch : Nat → List (Nat × Nat)) (w1 : World), Inv1 w ch →
    shutdownLoop fuel k n j w = .ok w1 →
    ∃ ch1, Inv1 w1 ch1 ∧ Keep w w1 ∧ w1.fired = w.fired ∧ w1.GetCount = w.GetCount := by
  intro n
  induction n with
  | zero =>
    intro j w ch w1 hi h
    change Except.ok w = Except.ok w1 at h
    injection h with h
    subst h
    exact ⟨ch, hi, Keep.refl_keep _, rfl, rfl⟩
  | succ n ih =>
    intro j w ch w1 hi h
    unfold TimingWheel.shutdownLoop at h
    cases hk : w.wheels[k]? with
    | none => simp [hk] at h
    | some wh =>
      simp only [hk] at h
      cases hj : wh.buckets_[j]? with
      | none => simp [hj] at h
      | some b =>
        simp only [hj] at h
        cases hclr : b.Clear fuel w.heap with
        | error f => simp [hclr] at h
        | ok r =>
          simp only [hclr] at h
          obtain ⟨c1, c2, c3, c4⟩ := hi.clear_level hk hj hclr wh.taskCounter_
          obtain ⟨ch1, d1, d2, d3, d4⟩ := ih (j + 1) _ _ w1 c1 h
          exact ⟨ch1, d1, c2.trans_keep d2, d3.trans c4, by rw [d4, c3]; simp⟩

/-- `TTimingWheel::Shutdown`: the invariants hold afterwards; no level's `taskCounter_` is
touched and the handler is not invoked. -/
theorem Inv1.shutdown (fuel : Nat) : ∀ (n k : Nat) (w : World)
    (ch : Nat → List (Nat × Nat)) (w1 : World), Inv1 w ch →
    TTimingWheel.Shutdown fuel n k w = .ok w1 →
    ∃ ch1, Inv1 w1 ch1 ∧ Keep w w1 ∧ w1.fired = w.fired ∧ w1.GetCount = w.GetCount := by
  intro n
  induction n with
  | zero =>
    intro k w ch w1 hi h
    simp only [TTimingWheel.Shutdown] at h
    injection h with h
    subst h
    exact ⟨ch, hi, Keep.refl_keep _, rfl, rfl⟩
  | succ n ih =>
    intro k w ch w1 hi h
    unfold TTimingWheel.Shutdown at h
    generalize hX : (if k + 1 < w.wheels.length then TTimingWheel.Shutdown fuel n (k + 1) w
      else (Except.ok w : Except Fault World)) = X at h
    cases X with
    | error f => simp at h
    | ok wA =>
      simp only at h
      have hA : ∃ chA, Inv1 wA chA ∧ Keep w wA ∧ wA.fired = w.fired ∧
          wA.GetCount = w.GetCount := by
        by_cases hov : k + 1 < w.wheels.length
        · simp only [hov, if_true] at hX
          exact ih (k + 1) w ch wA hi hX
        · simp only [hov, if_false] at hX
          injection hX with hX
          subst hX
          exact ⟨ch, hi, Keep.refl_keep _, rfl, rfl⟩
      obtain ⟨chA, a1, a2, a3, a4⟩ := hA
      cases hk : wA.wheels[k]? with
      | none => simp [hk] at h
      | some wh =>
        simp only [hk] at h
        obtain ⟨ch1, d1, d2, d3, d4⟩ := a1.shutdownLoop fuel k _ 0 wA chA w1 h
        exact ⟨ch1, d1, a2.trans_keep d2, d3.trans a3, d4.trans a4⟩

/-- A freshly constructed root wheel satisfies the invariants, with every chain empty. -/
theorem Inv1.init (tasks : Nat → SampleTask) {tickMs wheelSize startMs : Int} {w : World}
    (h : World.new tickMs wheelSize startMs (Heap.init tasks) = .ok w) :
    Inv1 w (fun _ => []) ∧ w.fired = [] ∧ w.GetCount = 0 ∧
    (∀ t, w.deadline t = (tasks t).expiration_) ∧
    ∃ wh, w.wheels = [wh] ∧ wh.tickMs_ = tickMs ∧
      wh.currentTime_ = startMs - startMs.tmod tickMs ∧
      wh.interval_ = wrapInt (tickMs * wheelSize) ∧
      wh.buckets_.length = wheelSize.toNat ∧ 0 ≤ wheelSize := by
  unfold World.new at h
  cases hnew : TTimingWheel.new tickMs wheelSize startMs (Heap.init tasks) with
  | error f => simp [hnew] at h
  | ok r =>
    simp only [hnew] at h
    injection h with h
    subst h
    obtain ⟨e1, e2, e3, e4, e5, e6, e7, _, e9⟩ := TTimingWheel.new_ok hnew
    have hi0 : Inv1 ⟨Heap.init tasks, [], []⟩ (fun _ => []) := by
      refine ⟨⟨?_, ?_, ?_, ?_, fun _ _ => rfl⟩, ?_⟩
      · intro k j b hb; simp [World.bucket?] at hb
      · intro k j b hb; simp [World.bucket?] at hb
      · intro k j b k1 j1 b1 hb; simp [World.bucket?] at hb
      · intro a e hae; simp [Heap.init] at hae
      · intro wh hwh; simp at hwh
    obtain ⟨c1, c2, c3⟩ := hi0.append wheelSize.toNat r.2 e2 e3
    rw [← e1] at c1 c3
    refine ⟨c1, rfl, ?_, ?_, r.2, rfl, e4, e6, e7, ?_, e9⟩
    · exact c3
    · intro t
      show (r.1.tasks t).expiration_ = _
      rw [e1, (newBuckets_spec wheelSize.toNat (Heap.init tasks)).2.1]
      rfl
    · rw [e2, (newBuckets_spec wheelSize.toNat (Heap.init tasks)).2.2.1]

theorem Inv2.rootTime {w : World} {ch : Nat → List (Nat × Nat)} (hi : Inv2 w ch) :
    RootTime w ch := by
  intro wh hwh _ j b hb x hx
  obtain ⟨s, a1, a2, a3, a4, _, a6⟩ := hi.placed 0 j wh b hwh hb x hx
  refine ⟨s, a2, a3, a1, a4, ?_⟩
  rcases a6 with ⟨_, h2⟩ | ⟨_, h2, h3⟩
  · exact h2
  · have := (hi.levels.good 0 wh hwh).tick_pos
    omega

theorem clearLoop_mono : ∀ (fuel fuel1 : Nat) (p : Option Nat) (h h1 : Heap),
    clearLoop fuel p h = .ok h1 → fuel ≤ fuel1 → clearLoop fuel1 p h = .ok h1 := by
  intro fuel
  induction fuel with
  | zero =>
    intro fuel1 p h h1 hc _
    cases p with
    | none => cases fuel1 <;> simpa [clearLoop] using hc
    | some e => simp [clearLoop] at hc
  | succ fuel ih =>
    intro fuel1 p h h1 hc hle
    cases p with
    | none => cases fuel1 <;> simpa [clearLoop] using hc
    | some e =>
      obtain ⟨f1, rfl⟩ : ∃ f1, fuel1 = f1 + 1 := ⟨fuel1 - 1, by omega⟩
      simp only [clearLoop] at hc ⊢
      cases he : h.entries e with
      | none => simp [he] at hc
      | some ent =>
        simp only [he] at hc ⊢
        cases ht : ent.timerTask with
        | none => simp [ht] at hc
        | some t =>
          simp only [ht] at hc ⊢
          exact ih f1 _ _ _ hc (by omega)

theorem TTimerTaskList.clear_mono {fuel fuel1 : Nat} {h : Heap} {b : TTimerTaskList}
    {r : Heap × TTimerTaskList} (hc : b.Clear fuel h = .ok r) (hle : fuel ≤ fuel1) :
    b.Clear fuel1 h = .ok r := by
  unfold TTimerTaskList.Clear at hc ⊢
  cases hr : h.entries b.root_ with
  | none => simp [hr] at hc
  | some r0 =>
    simp only [hr] at hc ⊢
    cases hl : clearLoop fuel r0.next h with
    | error f => simp [hl] at hc
    | ok h1 =>
      rw [clearLoop_mono fuel fuel1 _ _ _ hl hle]
      simpa [hl] using hc

theorem Frame.wheel_back {w w1 : World} (hf : Frame w w1) {k : Nat} {wh1 : TTimingWheel}
    (hk : w1.wheels[k]? = some wh1) : ∃ wh, w.wheels[k]? = some wh := by
  have hkl : k < w.wheels.length := by
    rw [← hf.len]; exact (List.getElem?_eq_some.1 hk).1
  exact ⟨w.wheels[k], List.getElem?_eq_getElem hkl⟩

theorem Frame.bucket_back {w w1 : World} (hf : Frame w w1) {k j : Nat} {b1 : TTimerTaskList}
    (hb : w1.bucket? k j = some b1) :
    ∃ b, w.bucket? k j = some b ∧ b1.this = b.this := by
  obtain ⟨wh1, hk1, hj⟩ := World.bucket?_inv hb
  obtain ⟨wh, hk⟩ := hf.wheel_back hk1
  have hl := (hf.fields k wh wh1 hk hk1).2.2.2
  have hjl : j < wh.buckets_.length := by
    rw [← hl]; exact (List.getElem?_eq_some.1 hj).1
  have hb0 : w.bucket? k j = some wh.buckets_[j] :=
    World.bucket?_of hk (List.getElem?_eq_getElem hjl)
  exact ⟨_, hb0, hf.this k j _ b1 hb0 hb⟩

theorem Same.symm_same {w w1 : World} (h : Same w w1) : Same w1 w := by
  refine ⟨⟨h.frame.len.symm, ?_, ?_, fun t => (h.frame.deadline t).symm⟩, ?_⟩
  · intro k wh1 wh hk1 hk
    obtain ⟨a1, a2, a3, a4⟩ := h.frame.fields k wh wh1 hk hk1
    exact ⟨a1.symm, a2.symm, a3.symm, a4.symm⟩
  · intro k j b1 b hb1 hb
    exact (h.frame.this k j b b1 hb hb1).symm
  · intro k wh1 wh hk1 hk
    exact (h.time k wh wh1 hk hk1).symm

set_option maxRecDepth 100000 in
/-- C11, at failing inputs. A fresh bucket gets tasks `0` and `1` (entries at addresses `2`
and `3`, sentinel at `1`). (a) After `Remove(1)`, the last-added task, the chain holds task
`0` alone and the count is `1`, but `tail_` still names the freed entry `3`; the next `Add`
stores through it. (b) After `Remove(0)` the chain holds task `1` alone, whose `prev` still
names the freed entry `2` and not the sentinel; `Remove(1)`, the successor, stores through
it. -/
theorem remove_leaves_stale_links :
    (visitedOf (twoBucketLess 1) = some [0] ∧ (twoBucketLess 1).2.GetCount = 1 ∧
      (twoBucketLess 1).2.tail_ = 3 ∧ (twoBucketLess 1).1.entries 3 = none ∧
      failure ((twoBucketLess 1).2.Add (twoBucketLess 1).1 2) = some .useAfterFree) ∧
    (visitedOf (twoBucketLess 0) = some [1] ∧ (twoBucketLess 0).2.GetCount = 1 ∧
      (twoBucketLess 0).2.root_ = 1 ∧ prevOf (twoBucketLess 0).1 3 = some (some 2) ∧
      (twoBucketLess 0).1.entries 2 = none ∧
      failure ((twoBucketLess 0).2.Remove (twoBucketLess 0).1 1) = some .useAfterFree) := by
  decide



/-! ### `GetCount` after `Shutdown` -/

set_option maxRecDepth 100000 in
/-- C14, at a failing input. Root wheel `tickMs = 1`, `wheelSize = 20`, start `0`; task `0`
(deadline `5`) is filed on the root level and task `1` (deadline `30`) on the overflow
level: `GetCount()` is `2`. `Shutdown()` empties every bucket on both levels and invokes no
handler, but no level's `taskCounter_` is touched: `GetCount()` is still `2`. -/
theorem shutdown_keeps_count :
    (heldOf (play 100 1 20 0 (Heap.init (tasksOf [5, 30])) [.add 0, .add 1]) = some [0, 1] ∧
      countOf (play 100 1 20 0 (Heap.init (tasksOf [5, 30])) [.add 0, .add 1]) = some 2) ∧
    (heldOf (play 100 1 20 0 (Heap.init (tasksOf [5, 30])) [.add 0, .add 1, .shutdown])
        = some [] ∧
      firedOf (play 100 1 20 0 (Heap.init (tasksOf [5, 30])) [.add 0, .add 1, .shutdown])
        = some [] ∧
      countOf (play 100 1 20 0 (Heap.init (tasksOf [5, 30])) [.add 0, .add 1, .shutdown])
        = some 2) := by
  decide

/-! ### The constructor -/

set_option maxRecDepth 100000 in
/-- C16, at a failing input, with what the constructor computes in general.
`TTimingWheel(5, 4, -3, handler)` sets `currentTime_ = -3 - (-3 % 5) = 0`, which is after
the start time, not the tick boundary `-5` at or before it. In general, for `tickMs > 0`,
`currentTime_` is a multiple of `tickMs`; it is the start time rounded down when the start
time is not negative, and rounded up (towards zero) when it is negative. -/
theorem start_time_rounds_toward_zero :
    ((okOr World.empty (World.new 5 4 (-3) (Heap.init (tasksOf [])))).root.currentTime_ = 0 ∧
      ¬((0 : Int) ≤ -3)) ∧
    ∀ (tickMs wheelSize startMs : Int) (h : Heap) (w : World), 0 < tickMs →
      World.new tickMs wheelSize startMs h = .ok w →
      tickMs ∣ w.root.currentTime_ ∧
      (0 ≤ startMs → w.root.currentTime_ ≤ startMs ∧ startMs < w.root.currentTime_ + tickMs) ∧
      (startMs < 0 → startMs ≤ w.root.currentTime_ ∧ w.root.currentTime_ < startMs + tickMs) := by
  refine ⟨by decide, ?_⟩
  intro tickMs wheelSize startMs h w ht hw
  unfold World.new at hw
  cases hnew : TTimingWheel.new tickMs wheelSize startMs h with
  | error f => simp [hnew] at hw
  | ok r =>
    simp only [hnew] at hw
    injection hw with hw
    subst hw
    obtain ⟨_, _, _, _, _, e6, _⟩ := TTimingWheel.new_ok hnew
    have hroot : (⟨r.1, [r.2], []⟩ : World).root.currentTime_
        = startMs - startMs.tmod tickMs := e6
    rw [hroot]
    have h1 : startMs.tmod tickMs + tickMs * startMs.tdiv tickMs = startMs :=
      Int.tmod_add_tdiv startMs tickMs
    refine ⟨⟨startMs.tdiv tickMs, by omega⟩, ?_, ?_⟩
    · intro hs
      have h2 : startMs.tmod tickMs = startMs % tickMs := Int.tmod_eq_emod hs (le_of_lt ht)
      have h3 := Int.emod_nonneg startMs (ne_of_gt ht)
      have h4 := Int.emod_lt_of_pos startMs ht
      rw [h2]
      constructor <;> omega
    · intro hs
      have hneg : startMs.tmod tickMs = -((-startMs).tmod tickMs) := by
        rw [Int.tmod_def, Int.tmod_def, Int.neg_tdiv]
        ring
      have h2 : (-startMs).tmod tickMs = (-startMs) % tickMs :=
        Int.tmod_eq_emod (by omega) (le_of_lt ht)
      have h3 := Int.emod_nonneg (-startMs) (ne_of_gt ht)
      have h4 := Int.emod_lt_of_pos (-startMs) ht
      rw [hneg, h2]
      constructor <;> omega

/-! ### Subscripts -/

set_option maxRecDepth 100000 in
/-- C17, at failing inputs. Root wheel `tickMs = 5`, `wheelSize = 4`, start `0`, advanced to
time `25`. (a) A task with deadline `37` is filed by `Add` in bucket `(37 % 20) / 5 = 3`;
`Remove` subscripts `buckets_[37 / 5]`, bucket `7` of `4`. (b) A task with deadline `12`,
added late, is filed in the bucket of the clock, `(25 % 20) / 5 = 1`; `Remove` looks in
bucket `12 / 5 = 2`, returns false, and the task stays where it is. -/
theorem remove_subscript_differs_from_add :
    (heldAt 0 3 (play 100 5 4 0 (Heap.init (tasksOf [37])) [.advanceClock 24, .add 0])
        = some [0] ∧
      okOr 0 ((okOr Run.empty (play 100 5 4 0 (Heap.init (tasksOf [37]))
        [.advanceClock 24, .add 0])).world.root.slotOf 37) = 3 ∧
      failure ((okOr Run.empty (play 100 5 4 0 (Heap.init (tasksOf [37]))
        [.advanceClock 24, .add 0])).world.root.bucketIndex ((37 : Int).tdiv 5))
        = some .outOfBounds ∧
      faultOf (play 100 5 4 0 (Heap.init (tasksOf [37])) [.advanceClock 24, .add 0, .remove 0])
        = some .outOfBounds) ∧
    (heldAt 0 1 (play 100 5 4 0 (Heap.init (tasksOf [12])) [.advanceClock 24, .add 0])
        = some [0] ∧
      resultsOf (play 100 5 4 0 (Heap.init (tasksOf [12])) [.advanceClock 24, .add 0, .remove 0])
        = some [false] ∧
      heldAt 0 1 (play 100 5 4 0 (Heap.init (tasksOf [12])) [.advanceClock 24, .add 0, .remove 0])
        = some [0]) := by
  decide

set_option maxRecDepth 100000 in
/-- C18, at a failing input. `TTimingWheel(1073741824, 2, 0, handler)`: the `int` product
`tickMs * wheelSize = 2^31` does not fit 32 bits and `interval_` is `-2^31`. `Add` of a task
with deadline `5` then finds `5 < 0 + interval_` false, makes an overflow level with
`tickMs = -2^31` and `interval_ = 0`, and the level after that, with `tickMs = 0`, divides
by zero in its constructor. -/
theorem interval_product_wraps :
    (okOr World.empty (World.new 1073741824 2 0 (Heap.init (tasksOf [5])))).root.interval_
        = -2147483648 ∧
    (1073741824 : Int) * 2 = 2147483648 ∧
    faultOf (play 100 1073741824 2 0 (Heap.init (tasksOf [5])) [.add 0]) = some .divByZero := by
  decide

set_option maxRecDepth 100000 in
/-- C19, at failing inputs. (a) `TTimingWheel(1, 20, -5, handler)` has `currentTime_ = -5`;
`AdvanceClock(-5)` subscripts `buckets_[(-5 % 20) / 1]`, bucket `-5`. (b) On
`TTimingWheel(1, 20, -30, handler)`, `Add` of a task with deadline `-25` subscripts
`buckets_[(-25 % 20) / 1]`, bucket `-5`. -/
theorem negative_time_negative_subscript :
    ((okOr World.empty (World.new 1 20 (-5) (Heap.init (tasksOf [])))).root.currentTime_ = -5 ∧
      ((-5 : Int).tmod 20).tdiv 1 = -5 ∧
      faultOf (play 100 1 20 (-5) (Heap.init (tasksOf [])) [.advanceClock (-5)])
        = some .outOfBounds) ∧
    (((-25 : Int).tmod 20).tdiv 1 = -5 ∧
      faultOf (play 100 1 20 (-30) (Heap.init (tasksOf [-25])) [.add 0]) = some .outOfBounds) := by
  decide


/-! ### Bucket: `Clear` -/

/-- `Add` of any tasks, one after the other, to a well-formed bucket whose `tail_` names
its last entry: every call returns, the tasks are appended in order. -/
theorem addAll_any (ts : List Nat) : ∀ (h : Heap) (b : TTimerTaskList) (L : List (Nat × Nat)),
    BWF h b L → b.tail_ = lastCell b.root_ (L.map Prod.fst) → FreshSentinel h b →
    ∃ h1 b1 L1, addAll ts (h, b) = .ok (h1, b1) ∧ BWF h1 b1 (L ++ L1) ∧
      L1.map Prod.snd = ts ∧ b1.tail_ = lastCell b1.root_ ((L ++ L1).map Prod.fst) ∧
      b1.this = b.this ∧ b1.root_ = b.root_ ∧ FreshSentinel h1 b1 := by
  induction ts with
  | nil =>
    intro h b L hw ht hs
    exact ⟨h, b, [], rfl, by simpa using hw, rfl, by simpa using ht, rfl, rfl, hs⟩
  | cons t ts ih =>
    intro h b L hw htail hs
    obtain ⟨tl, htl⟩ := Chain.live_cells hw.chain _ (lastCell_mem b.root_ (L.map Prod.fst))
    rw [← htail] at htl
    have hne : b.tail_ ≠ h.nextAddr :=
      Nat.ne_of_lt (by rw [htail]; exact hw.bound _ (lastCell_mem _ _))
    obtain ⟨h1, hadd, _⟩ := TTimerTaskList.add_ok h b t tl htl hne
    obtain ⟨hw1, _, hb1, _, _, hsame, htl1, _⟩ := hw.add_bucket t hadd
    have hroot_ne : b.root_ ≠ h.nextAddr := Nat.ne_of_lt (hw.bound _ (by simp))
    have hs1 : FreshSentinel h1 { b with tail_ := h.nextAddr, counter_ := b.counter_ + 1 } := by
      obtain ⟨r, hr, r1, r2, r3, r4⟩ := hs
      by_cases hrt : b.root_ = b.tail_
      · rw [← hrt] at htl1
        exact ⟨_, htl1 r hr, r1, r2, r3, r4⟩
      · exact ⟨r, by rw [← hr]; exact hsame _ hroot_ne hrt, r1, r2, r3, r4⟩
    have ht1 : ({ b with tail_ := h.nextAddr, counter_ := b.counter_ + 1 } : TTimerTaskList).tail_
        = lastCell b.root_ ((L ++ [(h.nextAddr, t)]).map Prod.fst) := by
      rw [List.map_append, List.map_cons, List.map_nil, lastCell_append]
    rw [hb1] at hw1
    obtain ⟨h2, b2, L2, hall, hw2, hts, htail2, hthis, hroot, hs2⟩ := ih h1 _ _ hw1 ht1 hs1
    refine ⟨h2, b2, (h.nextAddr, t) :: L2, ?_, by simpa using hw2, by simp [hts],
      by simpa using htail2, hthis, hroot, hs2⟩
    simp only [addAll, hadd]
    exact hall

theorem Heap.write_self {h : Heap} {a : Nat} {e : TimerTaskEntry} (he : h.entries a = some e) :
    h.write a (some e) = h := by
  cases h with
  | mk entries tasks nextAddr =>
    simp only [Heap.write] at he ⊢
    rw [← he, Function.update_eq_self]

/-- C12. `Clear` resets a bucket to the fresh state and is idempotent. On a bucket built from
a newly constructed one by `Add` of the tasks `ts`, `Clear()` (given fuel for every entry)
returns; the back-reference of every task of `ts` is null; the bucket object is equal to the
newly constructed one (`tail_` is the sentinel, the count is `0`) and its sentinel cell is as
the constructor left it; `ForEach` visits nothing; a second `Clear()` changes nothing;
`Remove` of a former task returns false and changes nothing; and a following series of `Add`
calls fills the bucket as it would a fresh one: the count is the number of calls and
`ForEach` visits the new tasks, in order, and no other. -/
theorem TTimerTaskList.clear_resets (h : Heap) (ts : List Nat) :
    ∃ h1 b1 h2, addAll ts (TTimerTaskList.new h) = .ok (h1, b1) ∧
      (∀ fuel, ts.length ≤ fuel → b1.Clear fuel h1 = .ok (h2, (TTimerTaskList.new h).2)) ∧
      (∀ t ∈ ts, (h2.tasks t).entry_ = none) ∧
      h2.entries (TTimerTaskList.new h).2.root_
        = (TTimerTaskList.new h).1.entries (TTimerTaskList.new h).2.root_ ∧
      (TTimerTaskList.new h).2.tail_ = (TTimerTaskList.new h).2.root_ ∧
      (TTimerTaskList.new h).2.GetCount = 0 ∧
      (∀ fuel, (TTimerTaskList.new h).2.visited fuel h2 = .ok (h2, [])) ∧
      (∀ fuel, (TTimerTaskList.new h).2.Clear fuel h2 = .ok (h2, (TTimerTaskList.new h).2)) ∧
      (∀ t ∈ ts, (TTimerTaskList.new h).2.Remove h2 t
        = .ok (false, h2, (TTimerTaskList.new h).2)) ∧
      (∀ ts2 : List Nat, ∃ h3 b3, addAll ts2 (h2, (TTimerTaskList.new h).2) = .ok (h3, b3) ∧
        b3.GetCount = ts2.length ∧
        ∀ fuel, ts2.length ≤ fuel → b3.visited fuel h3 = .ok (h3, ts2)) := by
  have hfresh : FreshSentinel (TTimerTaskList.new h).1 (TTimerTaskList.new h).2 :=
    ⟨{ list := none, prev := none, next := none, timerTask := none, expiration := -1 },
      by simp [TTimerTaskList.new], rfl, rfl, rfl, rfl⟩
  obtain ⟨h1, b1, L1, hall, hw, hts, _, hthis, hroot, hs⟩ :=
    addAll_any ts (TTimerTaskList.new h).1 (TTimerTaskList.new h).2 [] (BWF.new h) rfl hfresh
  simp only [List.nil_append] at hw
  obtain ⟨r, hr, _, hclr, hw2⟩ := hw.clear_bucket L1.length
  simp only [le_refl, if_true] at hclr
  obtain ⟨r', hr', s1, s2, s3, s4⟩ := hs
  rw [hr] at hr'
  cases hr'
  have hb2 : ({ b1 with tail_ := b1.root_, counter_ := 0 } : TTimerTaskList)
      = (TTimerTaskList.new h).2 := by
    cases b1 with
    | mk this root tail counter =>
      simp only at hthis hroot
      subst hthis
      subst hroot
      rfl
  rw [hb2] at hclr hw2
  have hrn : ({ r with next := none } : TimerTaskEntry)
      = { list := none, prev := none, next := none, timerTask := none, expiration := -1 } := by
    cases r with
    | mk l p n t e =>
      simp only at s1 s2 s3 s4
      subst s1
      subst s2
      subst s3
      subst s4
      rfl
  rw [hrn, hroot] at hclr hw2
  have hlen : L1.length = ts.length := by rw [← hts]; simp
  have hsent : ((sweep L1 h1).write (TTimerTaskList.new h).2.root_
      (some { list := none, prev := none, next := none, timerTask := none,
              expiration := -1 })).entries (TTimerTaskList.new h).2.root_
      = some { list := none, prev := none, next := none, timerTask := none,
               expiration := -1 } := by
    simp [Heap.write]
  refine ⟨h1, b1, (sweep L1 h1).write (TTimerTaskList.new h).2.root_
      (some { list := none, prev := none, next := none, timerTask := none,
              expiration := -1 }), by simpa using hall, ?_, ?_, ?_, rfl, rfl, ?_, ?_, ?_, ?_⟩
  · intro fuel hf
    exact TTimerTaskList.clear_mono hclr (by omega)
  · intro t ht
    show ((sweep L1 h1).tasks t).entry_ = none
    exact sweep_entry_mem L1 h1 t (by rw [hts]; exact ht)
  · rw [hsent]
    simp [TTimerTaskList.new]
  · intro fuel
    rw [visited_eq hw2 fuel]
    simp
  · intro fuel
    obtain ⟨r2, hr2, _, hclr2, _⟩ := hw2.clear_bucket fuel
    rw [hsent] at hr2
    cases hr2
    simp only [List.length_nil, Nat.zero_le, if_true, sweep] at hclr2
    rw [hclr2, Heap.write_self hsent]
    rfl
  · intro t ht
    have hnull : (((sweep L1 h1).write (TTimerTaskList.new h).2.root_
        (some { list := none, prev := none, next := none, timerTask := none,
                expiration := -1 })).tasks t).entry_ = none :=
      sweep_entry_mem L1 h1 t (by rw [hts]; exact ht)
    simp only [TTimerTaskList.Remove, hnull]
  · intro ts2
    obtain ⟨h3, b3, L3, hall3, hw3, hts3, _⟩ :=
      addAll_any ts2 _ _ [] hw2 rfl
        ⟨_, hsent, rfl, rfl, rfl, rfl⟩
    simp only [List.nil_append] at hw3
    have hlen3 : L3.length = ts2.length := by rw [← hts3]; simp
    refine ⟨h3, b3, hall3, ?_, ?_⟩
    · show b3.counter_ = _
      rw [hw3.count, hlen3]
    · intro fuel hf
      rw [visited_eq hw3 fuel, hts3, hlen3]
      simp [hf]


/-! ### Level: `Add`, branch by branch -/

/-! ### The placement rule of `Add` -/

/-- C1, at a failing input. Root wheel `tickMs = 1`, `wheelSize = 20`, start `0`, one task
with deadline `30000000000`: `Add` climbs through the overflow levels with `tickMs`
`20, 400, ..., 20^7`; the `int` product `20^7 * 20` no longer fits 32 bits, the wrapped
intervals never exceed the deadline, and the level whose `tickMs` is `20^16 mod 2^32 = 0`
divides by zero in its constructor. No amount of fuel lets the run finish, so the handler
is never invoked for the task. -/
theorem add_far_deadline_faults (fuel : Nat) :
    faultOf (play (fuel + 17) 1 20 0 (Heap.init (tasksOf [30000000000])) [.add 0])
      = some .divByZero ∧
    firedOf (play fuel 1 20 0 (Heap.init (tasksOf [30000000000]))
      [.add 0, .advanceClock 30000000000]) = none := by
  refine ⟨rfl, ?_⟩
  rcases Nat.lt_or_ge fuel 17 with h | h
  · interval_cases fuel <;> rfl
  · obtain ⟨n, rfl⟩ := Nat.exists_eq_add_of_le h
    rw [Nat.add_comm]
    rfl

/-- C3, at a failing input. Root wheel `tickMs = 1`, `wheelSize = 2`, start `0`, one task
with deadline `2^31 >= 2`: the level with `tickMs = 2^30` computes the interval `2^31` as an
`int`, and two levels later `tickMs` is `0`; `Add` divides by zero, whatever the fuel. -/
theorem cascade_binary_wheel_faults (fuel : Nat) :
    faultOf (play (fuel + 33) 1 2 0 (Heap.init (tasksOf [2147483648])) [.add 0])
      = some .divByZero ∧
    firedOf (play fuel 1 2 0 (Heap.init (tasksOf [2147483648]))
      [.add 0, .advanceClock 2147483648]) = none := by
  refine ⟨rfl, ?_⟩
  rcases Nat.lt_or_ge fuel 33 with h | h
  · interval_cases fuel <;> rfl
  · obtain ⟨n, rfl⟩ := Nat.exists_eq_add_of_le h
    rw [Nat.add_comm]
    rfl

set_option maxRecDepth 100000 in
/-- C4, at failing inputs, root wheel `tickMs = 1`, `wheelSize = 20`, start `0`.
(a) A task with deadline `3` added late at time `25` sits in bucket `5`; `Remove` looks in
bucket `3 / 1`, returns false, and the task is fired by the next advance.
(b) A task with deadline `30` added at time `25` is queued; `Remove` subscripts
`buckets_[30]` in an array of `20`.
(c) A task with deadline `45` is queued in the root level after cascading at time `40`;
`Remove` subscripts `buckets_[45]`. -/
theorem remove_queued_task_fails :
    (heldAt 0 5 (play 100 1 20 0 (Heap.init (tasksOf [3])) [.advanceClock 24, .add 0])
        = some [0] ∧
      resultsOf (play 100 1 20 0 (Heap.init (tasksOf [3])) [.advanceClock 24, .add 0, .remove 0])
        = some [false] ∧
      firedOf (play 100 1 20 0 (Heap.init (tasksOf [3]))
        [.advanceClock 24, .add 0, .remove 0, .advanceClock 25]) = some [0]) ∧
    (heldAt 0 10 (play 100 1 20 0 (Heap.init (tasksOf [30])) [.advanceClock 24, .add 0])
        = some [0] ∧
      faultOf (play 100 1 20 0 (Heap.init (tasksOf [30])) [.advanceClock 24, .add 0, .remove 0])
        = some .outOfBounds) ∧
    (heldAt 0 5 (play 100 1 20 0 (Heap.init (tasksOf [45])) [.add 0, .advanceClock 40])
        = some [0] ∧
      faultOf (play 100 1 20 0 (Heap.init (tasksOf [45])) [.add 0, .advanceClock 40, .remove 0])
        = some .outOfBounds) := by
  decide

set_option maxRecDepth 100000 in
/-- C6, at a failing input. Root wheel `tickMs = 1`, `wheelSize = 20`, start `0`; a task with
deadline `30` is added at time `25` and fired by `AdvanceClock(30)`, which clears its entry
and nulls its back-reference. The following `Remove` does not return false: it subscripts
`buckets_[30 / 1]` in an array of `20` buckets before it looks at the back-reference. -/
theorem remove_after_expiry_out_of_bounds :
    firedOf (play 100 1 20 0 (Heap.init (tasksOf [30]))
      [.advanceClock 24, .add 0, .advanceClock 30]) = some [0] ∧
    backrefOf 0 (play 100 1 20 0 (Heap.init (tasksOf [30]))
      [.advanceClock 24, .add 0, .advanceClock 30]) = some none ∧
    faultOf (play 100 1 20 0 (Heap.init (tasksOf [30]))
      [.advanceClock 24, .add 0, .advanceClock 30, .remove 0]) = some .outOfBounds := by
  decide

set_option maxRecDepth 100000 in
/-- C8, at failing inputs. (a) `SampleTask(long)` leaves `entry_` as it found it, null or
not. (b) Root wheel `tickMs = 1`, `wheelSize = 20`, start `0`, task with deadline `45`:
after `Add` and `AdvanceClock(40)` the task has been cascaded into bucket `5` of the root
level (and is fired from there at `45`), but its back-reference is null: the overflow
bucket's `Clear` ran after the re-insertion and nulled it. -/
theorem cascaded_task_has_null_backref :
    (∀ d x, (SampleTask.new d x).entry_ = x) ∧
    heldAt 0 5 (play 100 1 20 0 (Heap.init (tasksOf [45])) [.add 0, .advanceClock 40])
      = some [0] ∧
    backrefOf 0 (play 100 1 20 0 (Heap.init (tasksOf [45])) [.add 0, .advanceClock 40])
      = some none ∧
    firedOf (play 100 1 20 0 (Heap.init (tasksOf [45]))
      [.add 0, .advanceClock 40, .advanceClock 45]) = some [0] := by
  refine ⟨fun _ _ => rfl, ?_⟩
  decide

end TimingWheel
